import Mathlib

/-!
# Block memory arrangement and link packing (`blockLinking.cpp`)

A shallow embedding of `block::memArrange`, `block::updateColsRows`,
`block::allocateLoads`, `block::linkArrange`, `block::removeOrderFlags` and
`block::removeLinkFlags`, followed by theorems about them.

Conventions of the embedding

* C `int` values are `Int`; bit masks and array positions that the code only ever
  produces as non-negative values are `Nat`.
* The mesh arrays (`flags`, `nodeBlocks`, `nNodesLinked`, `linkMat`, `cols`, `rows`)
  are total maps from an index to a value.  An index outside the real array stands
  for whatever the memory there holds, so a theorem that quantifies over the map
  holds for every such content.
* `std::list` containers are `List`s.
* A call either returns a code together with the state it leaves (`Outcome.ret`),
  throws an `err` with its number (`Outcome.thrown`), runs into undefined
  behaviour (`Outcome.undefined`: a write outside a fixed-size array, `front()` of an
  empty list, a negative shift), or never returns (`Outcome.loops`).
* The constants of `params.h` (not part of the sources) are the fields of `Params`.
-/

namespace BlockLinking

/-- The result of a call: a return code with the state left behind, a thrown `err`
with its error number and the state at the throw, undefined behaviour, or a call that
never returns. -/
inductive Outcome (σ : Type) where
  | ret : Int → σ → Outcome σ
  | thrown : Nat → σ → Outcome σ
  | undefined : Outcome σ
  | loops : Outcome σ

/-- The return code of a call that returned. -/
def Outcome.code {σ : Type} : Outcome σ → Option Int
  | .ret c _ => some c
  | _ => none

/-- The error number of a call that threw. -/
def Outcome.errNum {σ : Type} : Outcome σ → Option Nat
  | .thrown n _ => some n
  | _ => none

/-- The state a call leaves when it returns, and `d` when it does not return. -/
def Outcome.stateOr {σ : Type} (o : Outcome σ) (d : σ) : σ :=
  match o with
  | .ret _ s => s
  | _ => d

/-- The constants of `params.h`: the slot grid, the boundary limit, the size of the
load table, the shape of the access bitmap and the catalogue of load widths.
`loadLengths k` for `k ≥ NBLOCKLINKS` is the memory behind the catalogue. -/
structure Params where
  XBLOCKSIZE : Nat
  YBLOCKSIZE : Nat
  MAXBOUNDSIZE : Nat
  NBLOCKLINKS : Nat
  NACCESSROWS : Nat
  NACCESSCOLS : Nat
  loadLengths : Nat → Nat

/-- The array write `a[i] = v`. -/
def setAt {α : Type} (a : Nat → α) (i : Nat) (v : α) : Nat → α :=
  fun j => if j = i then v else a j

/-- The array write `a[i] = v` on an array indexed by an `int`. -/
def setAtI {α : Type} (a : Int → α) (i : Int) (v : α) : Int → α :=
  fun j => if j = i then v else a j

/-! ## `block::allocateLoads` -/

/-- The inner loop `for (bitCnt < loadLength) { if (binComb & 1) totBits++; binComb >>= 1; }`. -/
def countBits : Nat → Nat → Nat
  | _, 0 => 0
  | binComb, n + 1 => (if binComb &&& 1 = 1 then 1 else 0) + countBits (binComb >>> 1) n

/-- The best placement found so far: `maxPriRow`, `maxPriCol`, `maxPriVal`. -/
structure Pri where
  row : Int
  col : Int
  val : Int
  deriving DecidableEq, Repr

/-- The body of the scan over placements for one `(rowCnt, colCnt)`. -/
def scanCell (nRowPos loadLength : Nat) (connArray : Nat → Nat) (rowCnt : Nat)
    (acc : Pri) (colCnt : Nat) : Pri :=
  let checkMask := (1 <<< loadLength) - 1
  let binComb := (connArray rowCnt >>> (nRowPos - 1 - colCnt)) &&& checkMask
  let totBits := countBits binComb loadLength
  if (totBits : Int) > acc.val then ⟨rowCnt, colCnt, totBits⟩ else acc

/-- The two nested scan loops of `allocateLoads`: the first placement, in row-major scan
order, whose window holds the most set bits. -/
def scanPlacements (nRows nRowPos loadLength : Nat) (connArray : Nat → Nat) : Pri :=
  (List.range nRows).foldl
    (fun acc rowCnt => (List.range nRowPos).foldl (scanCell nRowPos loadLength connArray rowCnt) acc)
    ⟨-1, -1, -1⟩

/-- The loop `allzeros`: is every row of the connectivity array zero. -/
def allZeros (nRows : Nat) (connArray : Nat → Nat) : Bool :=
  (List.range nRows).all (fun r => connArray r = 0)

/-- The first half of the body of `allocateLoads` for slot `cnt`: the scan for the best
placement and the clearing of its bits. The result is `maxPriRow`, the offset
`nRowPos-1-maxPriCol` and the new array; with no placement at all `maxPriRow` is still -1 and
`connArray[maxPriRow]` is a read outside the array. -/
def placeBest (P : Params) (nLinkedBlocks cnt : Nat) (connArray : Nat → Nat) :
    Option (Nat × Nat × (Nat → Nat)) :=
  let loadLength := P.loadLengths cnt
  let nRowPos : Int := (P.NACCESSCOLS : Int) - loadLength + 1
  let best := scanPlacements (nLinkedBlocks * P.NACCESSROWS) nRowPos.toNat loadLength connArray
  if best.row < 0 then none
  else
    let maxPriRow := best.row.toNat
    let shift := nRowPos.toNat - 1 - best.col.toNat
    let checkMask := (1 <<< loadLength) - 1
    some (maxPriRow, shift,
      setAt connArray maxPriRow
        (connArray maxPriRow - (connArray maxPriRow &&& (checkMask <<< shift))))

/-- The recursion of `allocateLoads`, on the number `rem` of slots from `cnt` to the end of
the table: `rem = 0` is the test `cnt >= NBLOCKLINKS`. The state is `(loadMaps, connArray)`. -/
def allocateLoadsFrom (P : Params) (nLinkedBlocks : Nat) :
    Nat → Nat → (Nat → Nat) → (Nat → Nat) → Outcome ((Nat → Nat) × (Nat → Nat))
  | 0, _, loadMaps, connArray => .ret (-1) (loadMaps, connArray)
  | rem + 1, cnt, loadMaps, connArray =>
    match placeBest P nLinkedBlocks cnt connArray with
    | none => .undefined
    | some (maxPriRow, shift, connArray1) =>
      if allZeros (nLinkedBlocks * P.NACCESSROWS) connArray1 then
        .ret 0 (setAt loadMaps cnt (maxPriRow * P.NACCESSCOLS + shift), connArray1)
      else
        match allocateLoadsFrom P nLinkedBlocks rem (cnt + 1) loadMaps connArray1 with
        | .ret res (loadMaps2, connArray2) =>
          if res = -1 then .ret (-1) (loadMaps2, setAt connArray2 maxPriRow (connArray maxPriRow))
          else if res = 0 then
            .ret 0 (setAt loadMaps2 cnt (maxPriRow * P.NACCESSCOLS + shift), connArray2)
          else .ret 2 (loadMaps2, connArray2)
        | .thrown n s => .thrown n s
        | .undefined => .undefined
        | .loops => .loops

/-- `block::allocateLoads(cnt, loadMaps, nLinkedBlocks, connArray)`. -/
def allocateLoads (P : Params) (cnt : Nat) (loadMaps : Nat → Nat) (nLinkedBlocks : Nat)
    (connArray : Nat → Nat) : Outcome ((Nat → Nat) × (Nat → Nat)) :=
  allocateLoadsFrom P nLinkedBlocks (P.NBLOCKLINKS - cnt) cnt loadMaps connArray

/-- A placement of the catalogue: slot `k` sits at row `(place k).1` and offset `(place k).2`,
and lies inside the `NACCESSCOLS` columns of its row. -/
def ValidPlacement (P : Params) (place : Nat → Nat × Nat) : Prop :=
  ∀ k, k < P.NBLOCKLINKS → (place k).2 + P.loadLengths k ≤ P.NACCESSCOLS

/-- The placement `place` covers every set bit of the array. -/
def Covers (P : Params) (nRows : Nat) (connArray : Nat → Nat) (place : Nat → Nat × Nat) : Prop :=
  ∀ r, r < nRows → ∀ b, (connArray r).testBit b = true →
    ∃ k, k < P.NBLOCKLINKS ∧ (place k).1 = r ∧ (place k).2 ≤ b ∧ b < (place k).2 + P.loadLengths k

/-- The array is solvable under the width inventory: some placement of the catalogue's slots
clears every set bit. -/
def Solvable (P : Params) (nRows : Nat) (connArray : Nat → Nat) : Prop :=
  ∃ place, ValidPlacement P place ∧ Covers P nRows connArray place

/-! ## The mesh and a block -/

/-- The mesh arrays shared by all blocks: the node count, the adjacency table `linkMat` with
`nMaxLinkedNodes` entries a node of which `nNodesLinked[n]` are used, the owning block of a
node and the processing flag of a node. -/
structure Mesh where
  nNodes : Int
  nMaxLinkedNodes : Int
  nNodesLinked : Int → Int
  linkMat : Int → Int
  nodeBlocks : Int → Int
  flags : Int → Int

/-- The fields of a `block` that the functions of this file use. `boundNodes` and `intNodes`
hold the `nodeNum` of the nodes of the two lists. -/
structure Block where
  blockNum : Int
  blockFlag : Int
  boundNodes : List Int
  intNodes : List Int
  nodeRef : Nat → Int
  blockPointers : Nat → Int

/-- The nodes read by the loop `for (linkCnt < nNodesLinked[n]) linkMat[n*nMaxLinkedNodes+linkCnt]`. -/
def linksOf (m : Mesh) (n : Int) : List Int :=
  (List.range (m.nNodesLinked n).toNat).map (fun linkCnt => m.linkMat (n * m.nMaxLinkedNodes + linkCnt))

/-- Modelled from the spec: `block::size()` is declared in `block.h`, which is not part of the
sources; a block "owns zero nodes" when both of its node lists are empty. -/
def Block.size (b : Block) : Nat :=
  b.boundNodes.length + b.intNodes.length

/-- Modelled from the spec: `block::getLinks` is defined in `block.cpp`, which is not part of
the sources; it collects "the set of neighboring block ids", here the owning blocks of the
nodes linked from the boundary nodes, each once, in the order met. -/
def getLinks (m : Mesh) (b : Block) : List Int :=
  b.boundNodes.foldl
    (fun acc n => (linksOf m n).foldl
      (fun acc linkNode =>
        if m.nodeBlocks linkNode = b.blockNum then acc
        else if m.nodeBlocks linkNode ∈ acc then acc
        else acc ++ [m.nodeBlocks linkNode]) acc) []

/-- One round of a `for` loop: go on, `break`, throw, or undefined behaviour. -/
inductive LoopStep (σ : Type) where
  | next : σ → LoopStep σ
  | done : σ → LoopStep σ
  | thrown : Nat → σ → LoopStep σ
  | undefined : LoopStep σ

/-- A `for` loop of at most `n` rounds whose body does not use the counter; it returns 0 with
the state at the `break` or after the last round. -/
def forLoop {σ : Type} (body : σ → LoopStep σ) : Nat → σ → Outcome σ
  | 0, s => .ret 0 s
  | n + 1, s =>
    match body s with
    | .next s1 => forLoop body n s1
    | .done s1 => .ret 0 s1
    | .thrown e s1 => .thrown e s1
    | .undefined => .undefined

/-! ## `block::memArrange` -/

/-- The count `nLinks` of step 1: links of `n` that land on a node of this block with
flag at least 2. -/
def countBoundLinks (m : Mesh) (blockNum : Int) (n : Int) : Nat :=
  (linksOf m n).countP (fun linkNode => m.nodeBlocks linkNode = blockNum ∧ m.flags linkNode ≥ 2)

/-- Step 1, the loop over the boundary: `startNode` and the list `bothBounds`. -/
def pickStart (m : Mesh) (blockNum : Int) (nodeBounds : Int → Int) (boundNodes : List Int) :
    Int × List Int :=
  boundNodes.foldl
    (fun acc p =>
      let nLinks := countBoundLinks m blockNum p
      let startNode := if nLinks = 2 ∧ acc.1 = -1 then p else acc.1
      let bothBounds := if nLinks = 1 ∧ nodeBounds p ≠ 0 then acc.2 ++ [p] else acc.2
      (startNode, bothBounds)) (-1, [])

/-- The state of the flood fill. -/
structure FillState where
  flags : Int → Int
  toCheck : List Int
  filledBound : List Int
  bothBounds : List Int
  lastBlockLinked : Int

/-- Step 2: the first link of `startNode` that is an unvisited boundary node of this block
goes on the check list. -/
def firstCheck (m : Mesh) (blockNum : Int) (flags : Int → Int) (startNode : Int) :
    List Int × (Int → Int) :=
  match (linksOf m startNode).find? (fun linkNode => m.nodeBlocks linkNode = blockNum ∧ flags linkNode = 2) with
  | some linkNode => ([linkNode], setAtI flags linkNode 3)
  | none => ([], flags)

/-- The loop over the links of `doNode` at the end of a round of the flood fill: unvisited
boundary nodes of this block go on the check list; a link that leaves the block stores
`blockNum` in `lastBlockLinked`. -/
def visitLinks (m : Mesh) (blockNum : Int) :
    List Int → (Int → Int) × List Int × Int → (Int → Int) × List Int × Int
  | [], s => s
  | linkNode :: rest, (flags, toCheck, lastBlockLinked) =>
    if m.nodeBlocks linkNode = blockNum ∧ flags linkNode = 2 then
      visitLinks m blockNum rest (setAtI flags linkNode 3, toCheck ++ [linkNode], lastBlockLinked)
    else if m.nodeBlocks linkNode ≠ blockNum then
      visitLinks m blockNum rest (flags, toCheck, blockNum)
    else visitLinks m blockNum rest (flags, toCheck, lastBlockLinked)

/-- Is some link of `n` owned by block `blk`. -/
def linkedTo (m : Mesh) (blk : Int) (n : Int) : Bool :=
  (linksOf m n).any (fun linkNode => m.nodeBlocks linkNode = blk)

/-- The scan of `bothBounds` for a new seed. Nodes that are no longer unvisited are erased;
the first unvisited one with a link into `lastBlockLinked` becomes `doNode` and is erased.
`kept` are the elements passed over. After `erase` the code steps the iterator back and the
loop steps it forward again, which visits the element after the erased one (also for the
first element, where the step back leaves the list). -/
def scanBoth (m : Mesh) (lastBlockLinked : Int) :
    List Int → List Int → (Int → Int) → Int × List Int × (Int → Int)
  | kept, [], flags => (-1, kept, flags)
  | kept, p :: rest, flags =>
    if flags p ≠ 2 then scanBoth m lastBlockLinked kept rest flags
    else if linkedTo m lastBlockLinked p then
      if p ≠ -1 then (p, kept ++ rest, setAtI flags p 3)
      else scanBoth m lastBlockLinked kept rest (setAtI flags p 3)
    else scanBoth m lastBlockLinked (kept ++ [p]) rest flags

/-- The scan of the boundary list for an unvisited node with a link into `lastBlockLinked`. -/
def seedLinked (m : Mesh) (lastBlockLinked : Int) : List Int → (Int → Int) → Int × (Int → Int)
  | [], flags => (-1, flags)
  | p :: rest, flags =>
    if flags p = 2 ∧ linkedTo m lastBlockLinked p then
      if p ≠ -1 then (p, setAtI flags p 3)
      else seedLinked m lastBlockLinked rest (setAtI flags p 3)
    else seedLinked m lastBlockLinked rest flags

/-- The scan of the boundary list for the first unvisited node. -/
def seedAny (boundNodes : List Int) (flags : Int → Int) : Int × (Int → Int) :=
  match boundNodes.find? (fun p => flags p = 2) with
  | some p => (p, setAtI flags p 3)
  | none => (-1, flags)

/-- The result of looking for a new seed: the seed with the new `bothBounds` and flags, no
unvisited node left (the `err` 2411, with the flags at the throw), or `front()` of an empty
`bothBounds`. -/
inductive Seed where
  | node : Int → List Int → (Int → Int) → Seed
  | noFreeNode : (Int → Int) → Seed
  | emptyFront : Seed

/-- The choice of a new seed when the check list is empty and boundary nodes are left. -/
def reseed (m : Mesh) (boundNodes : List Int) (s : FillState) : Seed :=
  if s.bothBounds.length > 0 then
    match scanBoth m s.lastBlockLinked [] s.bothBounds s.flags with
    | (doNode, bothBounds, flags) =>
      if doNode = -1 then
        match bothBounds with
        | [] => .emptyFront
        | front :: rest => .node front rest (setAtI flags front 3)
      else .node doNode bothBounds flags
  else
    match seedLinked m s.lastBlockLinked boundNodes s.flags with
    | (doNode, flags) =>
      if doNode = -1 then
        match seedAny boundNodes flags with
        | (doNode2, flags2) =>
          if doNode2 = -1 then .noFreeNode flags2
          else .node doNode2 s.bothBounds flags2
      else .node doNode s.bothBounds flags

/-- The tail of a round of the flood fill: `doNode` goes on the final list, its links are
visited and it is marked done. -/
def finishRound (m : Mesh) (blockNum : Int) (doNode : Int) (flags : Int → Int)
    (toCheck filledBound bothBounds : List Int) (lastBlockLinked : Int) : FillState :=
  match visitLinks m blockNum (linksOf m doNode) (flags, toCheck, lastBlockLinked) with
  | (flags1, toCheck1, last1) =>
    { flags := setAtI flags1 doNode 4, toCheck := toCheck1,
      filledBound := filledBound ++ [doNode], bothBounds := bothBounds, lastBlockLinked := last1 }

/-- One round of the flood fill loop `for (testCnt < nNodes)`. -/
def fillStep (m : Mesh) (blockNum : Int) (boundNodes : List Int) (s : FillState) :
    LoopStep FillState :=
  match s.toCheck with
  | [] =>
    if s.filledBound.length = boundNodes.length then .done s
    else
      match reseed m boundNodes s with
      | .node doNode bothBounds flags =>
        .next (finishRound m blockNum doNode flags [] s.filledBound bothBounds s.lastBlockLinked)
      | .noFreeNode flags => .thrown 2411 { s with flags := flags }
      | .emptyFront => .undefined
  | doNode :: toCheck =>
    .next (finishRound m blockNum doNode s.flags toCheck s.filledBound s.bothBounds s.lastBlockLinked)

/-- The choice of the start node after the loop of step 1: the front of `bothBounds` when
there is one (it is popped), else the node with two links found by the loop, else the front of
the boundary list. The result is the start node with the rest of `bothBounds`; `front()` of an
empty boundary list is undefined behaviour. -/
def startOf (boundNodes : List Int) (ps : Int × List Int) : Option (Int × List Int) :=
  let sb : Int × List Int :=
    match ps.2 with
    | [] => (ps.1, [])
    | front :: rest => (front, rest)
  if sb.1 = -1 then
    match boundNodes with
    | [] => none
    | front :: _ => some (front, sb.2)
  else some sb

/-- The state in which the flood fill loop starts: the start node is on the final list and
done, and the first node to check is on the check list. -/
def initFill (m : Mesh) (blockNum : Int) (startNode : Int) (bothBounds : List Int) : FillState :=
  match firstCheck m blockNum (setAtI m.flags startNode 4) startNode with
  | (toCheck, flags1) =>
    { flags := flags1, toCheck := toCheck, filledBound := [startNode],
      bothBounds := bothBounds, lastBlockLinked := -1 }

/-- Steps 1 to 3 of `memArrange`: the start node, the first node to check and the flood fill. -/
def floodFill (m : Mesh) (blockNum : Int) (nodeBounds : Int → Int) (boundNodes : List Int) :
    Outcome FillState :=
  match startOf boundNodes (pickStart m blockNum nodeBounds boundNodes) with
  | none => .undefined
  | some (startNode, bothBounds) =>
    forLoop (fillStep m blockNum boundNodes) m.nNodes.toNat
      (initFill m blockNum startNode bothBounds)

/-- The list `blockNums` of step 5: the blocks other than this one that the nodes are linked
to, each once, in the order met. -/
def surrBlocks (m : Mesh) (blockNum : Int) (nodes : List Int) : List Int :=
  nodes.foldl
    (fun acc n => (linksOf m n).foldl
      (fun acc linkNode =>
        if m.nodeBlocks linkNode = blockNum then acc
        else if m.nodeBlocks linkNode ∈ acc then acc
        else acc ++ [m.nodeBlocks linkNode]) acc) []

/-- The field `cnt` of an entry of `blockNums` after the totalling loop: the number of nodes
with a link into block `blk`. Modelled from the spec: `surrBlockCnt` is declared in `block.h`,
which is not part of the sources; its count starts at 0 (it counts "how many times it is
linked-to across the full ordered sequence"). -/
def surrCount (m : Mesh) (nodes : List Int) (blk : Int) : Nat :=
  nodes.countP (linkedTo m blk)

/-- The loop "find the maximum": `(maxSize, maxBlock)`. -/
def maxSurr (m : Mesh) (nodes : List Int) (blockNums : List Int) : Int × Int :=
  blockNums.foldl
    (fun acc blk => if (surrCount m nodes blk : Int) > acc.1 then (surrCount m nodes blk, blk) else acc)
    (0, -1)

/-- The test `foundEnd` on the last node of the list; it reads `nodeBlocks[linkNode-1]`. -/
def foundEnd (m : Mesh) (maxBlock : Int) (last : Int) : Bool :=
  (linksOf m last).any (fun linkNode => m.nodeBlocks (linkNode - 1) = maxBlock)

/-- The backward loop of step 6 from position `i` (`i = 0` is `p == begin()`): the position
after the first node, going backwards, that has no link into `maxBlock`. -/
def backScan (m : Mesh) (maxBlock : Int) (filledBound : List Int) : Nat → Nat
  | 0 => 0
  | i + 1 => if linkedTo m maxBlock (filledBound.getD (i + 1) 0) then backScan m maxBlock filledBound i
             else i + 2

/-- The position `p` in `filledBound` at which the ordered list starts
(`filledBound.length` is `end()`). -/
def rotatePos (m : Mesh) (maxBlock : Int) (filledBound : List Int) : Nat :=
  if foundEnd m maxBlock (filledBound.getD (filledBound.length - 1) 0) then
    backScan m maxBlock filledBound (filledBound.length - 1)
  else filledBound.findIdx (linkedTo m maxBlock)

/-- Steps 5 and 6: the two `splice` calls that build `boundOrdered`. -/
def rotateBound (m : Mesh) (blockNum : Int) (filledBound : List Int) : List Int :=
  let maxBlock := (maxSurr m filledBound (surrBlocks m blockNum filledBound)).2
  let p := rotatePos m maxBlock filledBound
  filledBound.drop p ++ filledBound.take p

/-- Step 7, the loop "do linked data first": the ordered boundary goes into the slots from
`cnt` on. A node number above `nNodes` throws 2412; a slot outside the grid is a write outside
`nodeRef`. -/
def writeBound (P : Params) (nNodes : Int) : List Int → Nat → (Nat → Int) → Outcome (Nat → Int)
  | [], _, nodeRef => .ret 0 nodeRef
  | p :: rest, cnt, nodeRef =>
    if p > nNodes then .thrown 2412 nodeRef
    else if cnt < P.XBLOCKSIZE * P.YBLOCKSIZE then
      writeBound P nNodes rest (cnt + 1) (setAt nodeRef cnt p)
    else .undefined

/-- Step 7, the loop "do internal only data": the interior nodes go into the slots from `cnt`
on, as far as the grid reaches. -/
def writeInt (P : Params) : List Int → Nat → (Nat → Int) → (Nat → Int)
  | [], _, nodeRef => nodeRef
  | p :: rest, cnt, nodeRef =>
    if cnt < P.XBLOCKSIZE * P.YBLOCKSIZE then writeInt P rest (cnt + 1) (setAt nodeRef cnt p)
    else nodeRef

/-- The loop `for (cnt < XBLOCKSIZE*YBLOCKSIZE) nodeRef[cnt] = -1`. -/
def clearNodeRef (P : Params) (nodeRef : Nat → Int) : Nat → Int :=
  fun i => if i < P.XBLOCKSIZE * P.YBLOCKSIZE then -1 else nodeRef i

/-- `block::memArrange(nodeBounds, blocks)`. `blockFlags i` is `blocks[i].blockFlag`. The
state is the flag array of the mesh and the block. -/
def memArrange (P : Params) (m : Mesh) (nodeBounds : Int → Int) (blockFlags : Int → Int)
    (b : Block) : Outcome ((Int → Int) × Block) :=
  if b.blockFlag ≥ 2 then .ret 0 (m.flags, b)
  else if b.size = 0 then .thrown 2409 (m.flags, b)
  else if b.boundNodes.length > P.MAXBOUNDSIZE then .ret (-10) (m.flags, b)
  else if b.blockFlag < 1 then .thrown 2410 (m.flags, b)
  else if (getLinks m b).any (fun p => blockFlags p < 1) then .ret (-2) (m.flags, b)
  else
    match floodFill m b.blockNum nodeBounds b.boundNodes with
    | .thrown n s => .thrown n (s.flags, b)
    | .undefined => .undefined
    | .loops => .loops
    | .ret _ s =>
      let boundOrdered := rotateBound m b.blockNum s.filledBound
      match writeBound P m.nNodes boundOrdered 0 (clearNodeRef P b.nodeRef) with
      | .thrown n nodeRef => .thrown n (s.flags, { b with nodeRef := nodeRef })
      | .undefined => .undefined
      | .loops => .loops
      | .ret _ nodeRef =>
        .ret 0 (s.flags,
          { b with nodeRef := writeInt P b.intNodes boundOrdered.length nodeRef, blockFlag := 2 })

/-! ## `block::updateColsRows` -/

/-- The pairs `(colCnt, rowCnt)` in the order of the two nested loops. -/
def gridCells (P : Params) : List (Nat × Nat) :=
  List.product (List.range P.XBLOCKSIZE) (List.range P.YBLOCKSIZE)

/-- The body of the two nested loops over the cells still to visit; the state is `(cols, rows)`. -/
def updateCells (P : Params) (nNodes : Int) (nodeRef : Nat → Int) :
    List (Nat × Nat) → (Int → Int) × (Int → Int) → Outcome ((Int → Int) × (Int → Int))
  | [], s => .ret 0 s
  | (colCnt, rowCnt) :: rest, (cols, rows) =>
    let node := nodeRef (colCnt + rowCnt * P.XBLOCKSIZE)
    if node ≥ 0 then
      if node ≥ nNodes then .thrown 2413 (cols, rows)
      else updateCells P nNodes nodeRef rest (setAtI cols node colCnt, setAtI rows node rowCnt)
    else updateCells P nNodes nodeRef rest (cols, rows)

/-- `block::updateColsRows(cols, rows)`. -/
def updateColsRows (P : Params) (m : Mesh) (b : Block) (cols rows : Int → Int) :
    Outcome ((Int → Int) × (Int → Int)) :=
  if b.blockFlag < 2 then .thrown 2412 (cols, rows)
  else updateCells P m.nNodes b.nodeRef (gridCells P) (cols, rows)

/-- The cells of the list carry different nodes, all below `nNodes`. -/
def CellsOk (P : Params) (nNodes : Int) (nodeRef : Nat → Int) (cells : List (Nat × Nat)) : Prop :=
  cells.Nodup ∧
  (∀ c ∈ cells, nodeRef (c.1 + c.2 * P.XBLOCKSIZE) < nNodes) ∧
  (∀ c ∈ cells, ∀ d ∈ cells, 0 ≤ nodeRef (c.1 + c.2 * P.XBLOCKSIZE) →
    nodeRef (c.1 + c.2 * P.XBLOCKSIZE) = nodeRef (d.1 + d.2 * P.XBLOCKSIZE) → c = d)

/-! ## `block::linkArrange` -/

/-- The search of `linkedBlocks` for the block of a new linked node: the node joins the list
of the first entry with that block number, or a new entry is put at the end. -/
def addToBlock (linkBlock linkNode : Int) : List (Int × List Int) → List (Int × List Int)
  | [] => [(linkBlock, [linkNode])]
  | q :: rest =>
    if linkBlock = q.1 then (q.1, q.2 ++ [linkNode]) :: rest
    else q :: addToBlock linkBlock linkNode rest

/-- The body of the gather loop for one link: `(linkedNodes, linkedBlocks)`. -/
def gatherLink (m : Mesh) (blockNum : Int) (acc : List Int × List (Int × List Int))
    (linkNode : Int) : List Int × List (Int × List Int) :=
  if m.nodeBlocks linkNode = blockNum then acc
  else if linkNode ∈ acc.1 then acc
  else (acc.1 ++ [linkNode], addToBlock (m.nodeBlocks linkNode) linkNode acc.2)

/-- The gather loops over the boundary nodes and their links. -/
def gather (m : Mesh) (b : Block) : List Int × List (Int × List Int) :=
  b.boundNodes.foldl (fun acc n => (linksOf m n).foldl (gatherLink m b.blockNum) acc) ([], [])

/-- The pairs `(cnt, *p)` in the order of the two loops that build the bitmap. -/
def neededPairs : Nat → List (Int × List Int) → List (Nat × Int)
  | _, [] => []
  | cnt, q :: rest => q.2.map (fun p => (cnt, p)) ++ neededPairs (cnt + 1) rest

/-- The loops "build up binary values for each row" over the pairs still to do. A row above
`NACCESSROWS` returns -10; a position outside `connArray` and a negative column (a negative
shift) are undefined behaviour. -/
def buildConn (P : Params) (cols rows : Int → Int) (nLinkedBlocks : Nat) :
    List (Nat × Int) → (Nat → Nat) → Outcome (Nat → Nat)
  | [], connArray => .ret 0 connArray
  | (cnt, p) :: rest, connArray =>
    if rows p > P.NACCESSROWS then .ret (-10) connArray
    else
      let idx : Int := rows p + cnt * P.NACCESSROWS
      if idx < 0 ∨ idx ≥ P.NACCESSROWS * nLinkedBlocks ∨ cols p < 0 then .undefined
      else
        buildConn P cols rows nLinkedBlocks rest
          (setAt connArray idx.toNat (connArray idx.toNat ||| (1 <<< ((cols p).toNat >>> 3))))

/-- The state of the greedy packing: the next free slot, the slots filled so far and the
bitmap. -/
structure Pack where
  loadPos : Nat
  loadMaps : Nat → Nat
  connArray : Nat → Nat

/-- The three statements `loadMaps[loadPos] = v; loadPos++; connArray[cnt] = newRow;`. The
table `loadMaps` has `NBLOCKLINKS` entries: a write behind it is undefined behaviour. -/
def place (P : Params) (s : Pack) (v cnt newRow : Nat) : Option Pack :=
  if s.loadPos < P.NBLOCKLINKS then
    some { loadPos := s.loadPos + 1, loadMaps := setAt s.loadMaps s.loadPos v,
           connArray := setAt s.connArray cnt newRow }
  else none

/-- One `if` of a packing loop: the test on the row, the column the load starts at and the
mask the row is and-ed with. -/
structure Check where
  cond : Nat → Bool
  col : Nat
  keep : Nat

/-- One `if` of a packing loop for loads of width `w` at row `cnt`; the flag is the `break`
taken when the next slot has another width. -/
def tryCheck (P : Params) (w : Nat) (c : Check) (cnt : Nat) (s : Pack) : Option (Pack × Bool) :=
  if c.cond (s.connArray cnt) then
    match place P s (cnt * 4 + c.col) cnt (s.connArray cnt &&& c.keep) with
    | none => none
    | some s1 => some (s1, decide (P.loadLengths s1.loadPos ≠ w))
  else some (s, false)

/-- The `if`s of the body of a packing loop at row `cnt`, one after the other. -/
def runChecks (P : Params) (w : Nat) (cnt : Nat) : List Check → Pack → Option (Pack × Bool)
  | [], s => some (s, false)
  | c :: cs, s =>
    match tryCheck P w c cnt s with
    | none => none
    | some (s1, true) => some (s1, true)
    | some (s1, false) => runChecks P w cnt cs s1

/-- A packing loop `for (cnt < nLinkedBlocks*NACCESSROWS)` over the rows still to visit. -/
def tierRows (P : Params) (w : Nat) (cs : List Check) : List Nat → Pack → Option Pack
  | [], s => some s
  | cnt :: rest, s =>
    match runChecks P w cnt cs s with
    | none => none
    | some (s1, true) => some s1
    | some (s1, false) => tierRows P w cs rest s1

/-- The seven packing loops for loads of width 4 and 2, in the order of the code, each with
its width and its `if`s. -/
def tierStages : List (Nat × List Check) :=
  [ (4, [⟨fun v => v = 15, 0, 0⟩]),
    (4, [⟨fun v => v = 14 ∨ v = 13 ∨ v = 11 ∨ v = 7, 0, 0⟩]),
    (4, [⟨fun v => v = 9 ∨ v = 10 ∨ v = 5, 0, 0⟩]),
    (4, [⟨fun v => v = 3 ∨ v = 6 ∨ v = 12, 0, 0⟩]),
    (4, [⟨fun v => v = 1 ∨ v = 2 ∨ v = 4 ∨ v = 8, 0, 0⟩]),
    (2, [⟨fun v => v &&& 3 = 3, 0, 12⟩, ⟨fun v => v &&& 6 = 6, 1, 9⟩, ⟨fun v => v &&& 12 = 12, 2, 3⟩]),
    (2, [⟨fun v => v &&& 1 = 1, 0, 12⟩, ⟨fun v => v &&& 2 = 2, 0, 12⟩,
         ⟨fun v => v &&& 4 = 4, 2, 3⟩, ⟨fun v => v &&& 8 = 8, 2, 3⟩]) ]

/-- The packing loops one after the other, each guarded by `if (loadLengths[loadPos] == w)`. -/
def runStages (P : Params) (nRows : Nat) : List (Nat × List Check) → Pack → Option Pack
  | [], s => some s
  | (w, cs) :: rest, s =>
    if P.loadLengths s.loadPos = w then
      match tierRows P w cs (List.range nRows) s with
      | none => none
      | some s1 => runStages P nRows rest s1
    else runStages P nRows rest s

/-- The loop `for (cntBit < 4)` of the width 1 loop at row `cnt`, with its `break` at
`loadPos >= 16`. -/
def onesBits (P : Params) (cnt : Nat) : List Nat → Pack → Option Pack
  | [], s => some s
  | cntBit :: rest, s =>
    if s.connArray cnt &&& (1 <<< cntBit) ≠ 0 then
      match place P s (cnt * 4 + cntBit) cnt (s.connArray cnt &&& (15 - (1 <<< cntBit))) with
      | none => none
      | some s1 => if s1.loadPos ≥ 16 then some s1 else onesBits P cnt rest s1
    else onesBits P cnt rest s

/-- The width 1 loop over the rows still to visit, with its `break` at
`loadPos >= NBLOCKLINKS`. -/
def onesRows (P : Params) : List Nat → Pack → Option Pack
  | [], s => some s
  | cnt :: rest, s =>
    if s.connArray cnt ≠ 0 then
      match onesBits P cnt [0, 1, 2, 3] s with
      | none => none
      | some s1 => if s1.loadPos ≥ P.NBLOCKLINKS then some s1 else onesRows P rest s1
    else onesRows P rest s

/-- The packing loops of one round of the `while` loop. -/
def packRound (P : Params) (nRows : Nat) (s : Pack) : Option Pack :=
  match runStages P nRows tierStages s with
  | none => none
  | some s1 => if P.loadLengths s1.loadPos = 1 then onesRows P (List.range nRows) s1 else some s1

/-- The check after the `while` loop: -10 when a row is not zero. -/
def packEnd (nRows : Nat) (s : Pack) : Outcome Pack :=
  if allZeros nRows s.connArray then .ret 0 s else .ret (-10) s

/-- The loop `while (loadPos < NBLOCKLINKS)` with the check that follows it. A round that
fills no slot and leaves a row set repeats for ever; every other round moves `loadPos` on, so
`NBLOCKLINKS + 1` rounds are never used up otherwise. -/
def packLoop (P : Params) (nRows : Nat) : Nat → Pack → Outcome Pack
  | 0, _ => .loops
  | fuel + 1, s =>
    if s.loadPos < P.NBLOCKLINKS then
      match packRound P nRows s with
      | none => .undefined
      | some s1 =>
        if allZeros nRows s1.connArray then packEnd nRows s1
        else if s1.loadPos ≥ 16 then .ret (-10) s1
        else packLoop P nRows fuel s1
    else packEnd nRows s

/-- The greedy packing of `linkArrange`, from `int loadPos = 0` to the check "Not enough
room": 0 with the filled slots, or -10. -/
def packLoads (P : Params) (nRows : Nat) (connArray : Nat → Nat) : Outcome Pack :=
  packLoop P nRows (P.NBLOCKLINKS + 1) { loadPos := 0, loadMaps := fun _ => 0, connArray := connArray }

/-- The value `(globBlockNum << 8) + (row << 4) + col` for the entry `v` of `loadMaps`; a
division by zero and a block position outside `linkedBlocks` are undefined behaviour, and so
are the shift of a negative block number and a value that does not fit into the 32 bits of an
`int`. -/
def pointerOf (P : Params) (linkedBlocks : List (Int × List Int)) (v : Nat) : Option Int :=
  if P.NACCESSCOLS = 0 ∨ P.NACCESSROWS = 0 then none
  else
    let totRow := v / P.NACCESSCOLS
    let locBlock := totRow / P.NACCESSROWS
    let row := totRow % P.NACCESSROWS
    let col := v % P.NACCESSCOLS
    match linkedBlocks.get? locBlock with
    | none => none
    | some q =>
      if q.1 < 0 ∨ q.1 * 256 + (row : Int) * 16 + col ≥ 2 ^ 31 then none
      else some (q.1 * 256 + (row : Int) * 16 + col)

/-- The loop "now need to put it into blocks" over the slots still to write. -/
def publish (P : Params) (linkedBlocks : List (Int × List Int)) (loadMaps : Nat → Nat) :
    List Nat → (Nat → Int) → Option (Nat → Int)
  | [], blockPointers => some blockPointers
  | cnt :: rest, blockPointers =>
    match pointerOf P linkedBlocks (loadMaps cnt) with
    | none => none
    | some v => publish P linkedBlocks loadMaps rest (setAt blockPointers cnt v)

/-- The loop `for (cnt < NBLOCKLINKS) blockPointers[cnt] = 0`. -/
def clearPointers (P : Params) (blockPointers : Nat → Int) : Nat → Int :=
  fun i => if i < P.NBLOCKLINKS then 0 else blockPointers i

/-- The bitmap `connArray` that `linkArrange` builds from the gathered neighbours: the array
of `NACCESSROWS * nLinkedBlocks` zeros after the loops "build up binary values for each row"
(return 0), or the return -10 of those loops. -/
def linkBitmap (P : Params) (m : Mesh) (cols rows : Int → Int) (b : Block) : Outcome (Nat → Nat) :=
  buildConn P cols rows (gather m b).2.length (neededPairs 0 (gather m b).2) (fun _ => 0)

/-- `block::linkArrange(cols, rows, blocks)`. `blockFlags i` is `blocks[i].blockFlag`. -/
def linkArrange (P : Params) (m : Mesh) (cols rows : Int → Int) (blockFlags : Int → Int)
    (b : Block) : Outcome Block :=
  if b.blockFlag ≥ 3 then .ret 0 b
  else if b.blockFlag < 2 then .thrown 2414 b
  else if (getLinks m b).any (fun p => blockFlags p < 2) then .ret (-2) b
  else
    let b1 := { b with blockPointers := clearPointers P b.blockPointers }
    let linkedBlocks := (gather m b).2
    if (gather m b).1.length = 0 then .thrown 2415 b1
    else
      match linkBitmap P m cols rows b with
      | .thrown n _ => .thrown n b1
      | .undefined => .undefined
      | .loops => .loops
      | .ret code connArray =>
        if code = -10 then .ret (-10) b1
        else
          match packLoads P (linkedBlocks.length * P.NACCESSROWS) connArray with
          | .thrown n _ => .thrown n b1
          | .undefined => .undefined
          | .loops => .loops
          | .ret code2 s =>
            if code2 = -10 then .ret (-10) b1
            else
              match publish P linkedBlocks s.loadMaps (List.range P.NBLOCKLINKS) b1.blockPointers with
              | none => .undefined
              | some blockPointers => .ret 0 { b1 with blockPointers := blockPointers, blockFlag := 3 }

/-! ## `block::removeOrderFlags` and `block::removeLinkFlags` -/

/-- `block::removeOrderFlags()`: the new flags of the mesh and the block. -/
def removeOrderFlags (P : Params) (m : Mesh) (b : Block) : (Int → Int) × Block :=
  let flags1 := b.intNodes.foldl (fun flags p => setAtI flags p 1) m.flags
  let flags2 := b.boundNodes.foldl (fun flags p => setAtI flags p 2) flags1
  (flags2, { b with blockFlag := 1, nodeRef := clearNodeRef P b.nodeRef,
                    blockPointers := clearPointers P b.blockPointers })

/-- `block::removeLinkFlags()`. -/
def removeLinkFlags (P : Params) (b : Block) : Block :=
  if b.blockFlag ≤ 2 then b
  else { b with blockFlag := 2, blockPointers := clearPointers P b.blockPointers }

/-! ## Concrete inputs -/

/-- A mesh given by the adjacency list, the owning block and the flag of each node. -/
def meshOf (nMaxLinkedNodes : Nat) (adj : List (List Int)) (nodeBlocks flags : List Int) : Mesh :=
  { nNodes := adj.length
    nMaxLinkedNodes := nMaxLinkedNodes
    nNodesLinked := fun n => ((adj.getD n.toNat []).length : Int)
    linkMat := fun i => (adj.getD (i.toNat / nMaxLinkedNodes) []).getD (i.toNat % nMaxLinkedNodes) 0
    nodeBlocks := fun n => nodeBlocks.getD n.toNat (-1)
    flags := fun n => flags.getD n.toNat 0 }

/-- A block with an empty slot grid and an empty load table. -/
def blockOf (blockNum blockFlag : Int) (boundNodes intNodes : List Int) : Block :=
  { blockNum := blockNum, blockFlag := blockFlag, boundNodes := boundNodes, intNodes := intNodes
    nodeRef := fun _ => -1, blockPointers := fun _ => 0 }

/-- The geometry used in the examples: a grid of 4 by 2 slots, a load table of 16 entries with
the catalogue 4,4,4,4,2,2,2,2,1,...,1 and a bitmap of 4 rows of 4 bits a block. -/
def exParams : Params :=
  { XBLOCKSIZE := 4, YBLOCKSIZE := 2, MAXBOUNDSIZE := 8, NBLOCKLINKS := 16, NACCESSROWS := 4,
    NACCESSCOLS := 4, loadLengths := fun k => [4, 4, 4, 4, 2, 2, 2, 2, 1, 1, 1, 1, 1, 1, 1, 1].getD k 0 }

/-- A mesh of eleven nodes. Block 0 owns the interior node 0 and the boundary cycle
1-2-3-4-5-1; block 1 owns 6, 7, 8 (linked from 5, 1, 2); block 2 owns 9, 10 (linked from 3, 4). -/
def ringMesh : Mesh :=
  meshOf 4
    [[2, 3], [2, 5, 7], [1, 3, 8, 0], [2, 4, 9, 0], [3, 5, 10], [4, 1, 6], [5], [1], [2], [3], [4]]
    [0, 0, 0, 0, 0, 0, 1, 1, 1, 2, 2]
    [1, 2, 2, 2, 2, 2, 2, 2, 2, 2, 2]

/-- Block 0 of `ringMesh` at state 1. -/
def ringBlock : Block := blockOf 0 1 [1, 2, 3, 4, 5] [0]

/-- A load table of two slots with the catalogue 4, 2 over rows of 4 bits. -/
def allocParams : Params :=
  { XBLOCKSIZE := 4, YBLOCKSIZE := 2, MAXBOUNDSIZE := 8, NBLOCKLINKS := 2, NACCESSROWS := 2,
    NACCESSCOLS := 4, loadLengths := fun k => [4, 2].getD k 0 }

/-- The connectivity array with the two rows `0011` and `0101`. -/
def allocConn : Nat → Nat := fun r => [3, 5].getD r 0

/-- The placement that solves `allocConn`: the load of width 4 on row 1, the load of width 2 on
row 0 at offset 0. -/
def allocPlace : Nat → Nat × Nat := fun k => if k = 0 then (1, 0) else (0, 0)

/-- Block 0 of `ringMesh` at state 2, with the slot grid `memArrange` gives it. -/
def ringBlockMapped : Block :=
  { blockOf 0 2 [1, 2, 3, 4, 5] [0] with nodeRef := fun i => [1, 2, 3, 4, 5, 0, -1, -1].getD i (-1) }

/-- The mesh `ringMesh` once all three blocks are at state 2: every boundary node is done. -/
def ringMeshMapped : Mesh :=
  { ringMesh with flags := fun n => [1, 4, 4, 4, 4, 4, 4, 4, 4, 4, 4].getD n.toNat 0 }

/-- A load table of two slots with the catalogue 4, 1 and a bitmap of 4 rows a block. -/
def tightParams : Params :=
  { XBLOCKSIZE := 4, YBLOCKSIZE := 2, MAXBOUNDSIZE := 8, NBLOCKLINKS := 2, NACCESSROWS := 4,
    NACCESSCOLS := 4, loadLengths := fun k => [4, 1].getD k 0 }

/-- Columns of the nodes 6 to 10 of `ringMesh` in their blocks (0 elsewhere). -/
def ringCols : Int → Int := fun n => [0, 0, 0, 0, 0, 0, 0, 0, 1, 0, 0].getD n.toNat 0

/-- Rows of the nodes 6 to 10 of `ringMesh` in their blocks (0 elsewhere): the nodes needed
from block 1 lie in its rows 0 and 1, as do those needed from block 2. -/
def ringRows : Int → Int := fun n => [0, 0, 0, 0, 0, 0, 0, 1, 1, 0, 1].getD n.toNat 0

/-- Block 0 of `ringMesh` at state 2 with the value 7 in every entry of its load table. -/
def ringBlockStale : Block :=
  { ringBlockMapped with blockPointers := fun _ => 7 }

/-- The geometry of a grid of 32 by 16 slots with 16 rows of 4 bits a block in the bitmap. -/
def wideParams : Params :=
  { XBLOCKSIZE := 32, YBLOCKSIZE := 16, MAXBOUNDSIZE := 64, NBLOCKLINKS := 16, NACCESSROWS := 16,
    NACCESSCOLS := 4, loadLengths := fun k => [4, 4, 4, 4, 2, 2, 2, 2, 1, 1, 1, 1, 1, 1, 1, 1].getD k 0 }

/-- Columns in which node 6 of `ringMesh` sits in column 4 of its block. -/
def wideCols : Int → Int := fun n => [0, 0, 0, 0, 0, 0, 4, 0, 1, 0, 1].getD n.toNat 0

/-! ## Predicates used in the statements about the packing -/

/-- Bit `b` of row `r` is covered by a filled slot of the packing state `s`: a slot `k` below
`loadPos` (and inside the table) with `loadMaps[k] = 4*r + c` and `c ≤ b < c + loadLengths[k]`,
the load lying inside the 4 columns of the row. -/
def Covered (P : Params) (s : Pack) (r b : Nat) : Prop :=
  ∃ k, k < s.loadPos ∧ k < P.NBLOCKLINKS ∧
    ∃ c, s.loadMaps k = 4 * r + c ∧ c ≤ b ∧ b < c + P.loadLengths k ∧ c + P.loadLengths k ≤ 4

/-- The catalogue holds only the widths 4, 2 and 1, widest first. -/
def WidestFirst (P : Params) : Prop :=
  (∀ k, k < P.NBLOCKLINKS → P.loadLengths k = 4 ∨ P.loadLengths k = 2 ∨ P.loadLengths k = 1) ∧
  (∀ k, k < P.NBLOCKLINKS - 1 → P.loadLengths (k + 1) ≤ P.loadLengths k)

/-- The invariant of the packing: no bit is set that was not set in the bitmap `orig` the
packing started from, the slots used are inside the table, and every bit of `orig` is still set
or covered by a filled slot. -/
def PackInv (P : Params) (nRows : Nat) (orig : Nat → Nat) (s : Pack) : Prop :=
  s.loadPos ≤ P.NBLOCKLINKS ∧
  (∀ r, r < nRows → ∀ b, (s.connArray r).testBit b = true → (orig r).testBit b = true) ∧
  (∀ r, r < nRows → ∀ b, (orig r).testBit b = true →
    (s.connArray r).testBit b = true ∨ Covered P s r b)

/-- The `if` clears only bits that a load of width `w` at its column covers, and that load
lies inside the 4 columns of the row. -/
def Check.Sound (w : Nat) (c : Check) : Prop :=
  c.col + w ≤ 4 ∧
  ∀ v, v < 16 → ∀ b, b < 4 → v.testBit b = true →
    (v &&& c.keep).testBit b = true ∨ (c.col ≤ b ∧ b < c.col + w)

/-- The placement read off the slots of a packing state: slot `k` sits at row `loadMaps[k] / 4`
and column `loadMaps[k] % 4` (at row 0, column 0 when that would leave the row). -/
def placementOf (P : Params) (s : Pack) : Nat → Nat × Nat := fun k =>
  if s.loadMaps k % 4 + P.loadLengths k ≤ 4 then (s.loadMaps k / 4, s.loadMaps k % 4) else (0, 0)

/-- A load table of 17 slots of width 1 with a bitmap of 5 rows of 4 bits a block. -/
def longParams : Params :=
  { XBLOCKSIZE := 32, YBLOCKSIZE := 16, MAXBOUNDSIZE := 64, NBLOCKLINKS := 17, NACCESSROWS := 5,
    NACCESSCOLS := 4, loadLengths := fun k => if k < 17 then 1 else 0 }

/-- The bitmap with the rows `1111`, `1111`, `1111`, `0111`, `0011`: 17 set bits. -/
def longConn : Nat → Nat := fun r => [15, 15, 15, 7, 3].getD r 0

/-- The placement that solves `longConn`: one load of width 1 on each of the 17 set bits. -/
def longPlace : Nat → Nat × Nat := fun k =>
  if k < 12 then (k / 4, k % 4) else if k < 15 then (3, k - 12) else (4, k - 15)

/-- The bitmap of block 0 of the ring mesh under `ringCols`, `ringRows`. -/
def ringConn : Nat → Nat := fun r => [1, 1, 0, 0, 1, 1, 0, 0].getD r 0

/-! ## Predicates used in the statements about `memArrange` -/

/-- The invariant of the flood fill on the nodes placed so far (the final list followed by the
check list): no node twice, only boundary nodes of the block, none of them still flagged 2, and
every node of the block that is flagged 2 is one of its boundary nodes. -/
def FillCore (m : Mesh) (blockNum : Int) (boundNodes : List Int) (flags : Int → Int)
    (placed : List Int) : Prop :=
  placed.Nodup ∧ (∀ n ∈ placed, n ∈ boundNodes) ∧ (∀ n ∈ placed, flags n ≠ 2) ∧
  (∀ n, m.nodeBlocks n = blockNum → flags n = 2 → n ∈ boundNodes)

/-- A block at state 1 as the partitioner leaves it: its two node lists hold valid node
numbers, no node twice, its boundary nodes are owned by the block and carry flag 2, and no
other node of the block carries flag 2. -/
def WellFormed (m : Mesh) (b : Block) : Prop :=
  b.boundNodes.Nodup ∧ b.intNodes.Nodup ∧ (∀ n ∈ b.boundNodes, n ∉ b.intNodes) ∧
  (∀ n ∈ b.boundNodes, 0 ≤ n ∧ n < m.nNodes) ∧ (∀ n ∈ b.intNodes, 0 ≤ n) ∧
  (∀ n ∈ b.boundNodes, m.flags n = 2) ∧
  (∀ n, m.nodeBlocks n = b.blockNum → m.flags n = 2 → n ∈ b.boundNodes) ∧
  (∀ n ∈ b.boundNodes, m.nodeBlocks n = b.blockNum)

/-- The flags `f` are the flags `orig` with some entries set to 3. -/
def Marked (orig f : Int → Int) : Prop := ∀ n, f n = orig n ∨ f n = 3

/-- The invariant of the flood fill loop: `FillCore` for the final list followed by the check
list, and `bothBounds` holds boundary nodes only. -/
def FillInv (m : Mesh) (blockNum : Int) (boundNodes : List Int) (s : FillState) : Prop :=
  FillCore m blockNum boundNodes s.flags (s.filledBound ++ s.toCheck) ∧
  ∀ n ∈ s.bothBounds, n ∈ boundNodes

/-- The links between the boundary nodes of a block form the single cycle `cyc`: `cyc` lists
the boundary nodes, at least three, each once, and a boundary node is linked, among the other
boundary nodes, to exactly the node after it and the node before it in `cyc` (cyclically). -/
def CycleOf (m : Mesh) (boundNodes : List Int) (cyc : List Int) : Prop :=
  cyc.Perm boundNodes ∧ 3 ≤ cyc.length ∧
  ∀ i, i < cyc.length → ∀ x ∈ boundNodes, x ≠ cyc.getD i 0 →
    (x ∈ linksOf m (cyc.getD i 0) ↔
      (x = cyc.getD ((i + 1) % cyc.length) 0 ∨ x = cyc.getD ((i + cyc.length - 1) % cyc.length) 0))

/-- A walk around the boundary cycle: `c` has period `n`, runs through the boundary nodes, each
once a period, and a boundary node `c i` is linked, among the other boundary nodes, to exactly
`c (i+1)` and `c (i+n-1)`. -/
def Walk (m : Mesh) (boundNodes : List Int) (n : Nat) (c : Nat → Int) : Prop :=
  (∀ i, c (i + n) = c i) ∧
  (∀ i j, i < n → j < n → c i = c j → i = j) ∧
  (∀ i, c i ∈ boundNodes) ∧
  boundNodes.length = n ∧
  (∀ i, ∀ x ∈ boundNodes, x ≠ c i → (x ∈ linksOf m (c i) ↔ (x = c (i + 1) ∨ x = c (i + n - 1))))

/-- The state of the flood fill after `k` rounds of a walk `c` around a cycle of `n` nodes:
the final list is `c 0, ..., c k`, the check list holds `c (k+1)` unless the walk is complete,
the nodes of the final list are done, the node on the check list has flag 3 and the nodes
further on are unvisited. -/
def WalkState (m : Mesh) (blockNum : Int) (boundNodes : List Int) (n : Nat) (c : Nat → Int)
    (k : Nat) (s : FillState) : Prop :=
  s.filledBound = (List.range (k + 1)).map c ∧
  s.toCheck = (if k + 1 < n then [c (k + 1)] else []) ∧
  (∀ t, t < n → s.flags (c t) = if t ≤ k then 4 else if t = k + 1 then 3 else 2) ∧
  (∀ x, m.nodeBlocks x = blockNum → s.flags x = 2 → x ∈ boundNodes)

/-! ## Inputs and predicates for the statements about states, errors and frames -/

/-- A grid of 2 by 4 slots of which only the first row of a linked block can be accessed
(`NACCESSROWS` is 1), with the catalogue 4,4,4,4,2,2,2,2,1,...,1. -/
def lowParams : Params :=
  { XBLOCKSIZE := 2, YBLOCKSIZE := 4, MAXBOUNDSIZE := 8, NBLOCKLINKS := 16, NACCESSROWS := 1,
    NACCESSCOLS := 4, loadLengths := fun k => [4, 4, 4, 4, 2, 2, 2, 2, 1, 1, 1, 1, 1, 1, 1, 1].getD k 0 }

/-- Columns of the nodes of `ringMesh` on the grid of 2 by 4 slots: block 1 holds 7, 8, 6 in
its slots 0, 1, 2 and block 2 holds 9, 10 in its slots 0, 1. -/
def lowCols : Int → Int := fun n => [0, 0, 0, 0, 0, 0, 0, 0, 1, 0, 1].getD n.toNat 0

/-- Rows of the nodes of `ringMesh` on the grid of 2 by 4 slots: node 6, in slot 2 of block 1,
lies in row 1; the other nodes needed by block 0 lie in row 0. -/
def lowRows : Int → Int := fun n => [0, 0, 0, 0, 0, 0, 1, 0, 0, 0, 0].getD n.toNat 0

/-- Block 0 of `ringMesh` at state 1 with the node number 11 in its list of interior nodes;
the mesh has the nodes 0 to 10. -/
def strayBlock : Block := blockOf 0 1 [1, 2, 3, 4, 5] [0, 11]

/-- A mesh of nine nodes. Block 0 owns the interior node 0 and the boundary nodes 1, 2, 3, 4:
1 and 2 are linked to each other and to the nodes 5 and 6 of block 1, node 3 is linked only to
node 8 of block 1, node 4 is linked to the interior node 0 and to node 7 of block 2. -/
def splitMesh : Mesh :=
  meshOf 2
    [[4], [2, 5], [1, 6], [8], [0, 7], [1], [2], [4], [3]]
    [0, 0, 0, 0, 0, 1, 1, 2, 1]
    [1, 2, 2, 2, 2, 2, 2, 2, 2]

/-- Block 0 of `splitMesh` at state 1. -/
def splitBlock : Block := blockOf 0 1 [1, 2, 3, 4] [0]

/-- The call `removeLinkFlags()` on the shared state: the flag array of the mesh, which the
function has no statement to write, and the block. -/
def removeLinkFlagsOn (P : Params) (m : Mesh) (b : Block) : (Int → Int) × Block :=
  (m.flags, removeLinkFlags P b)

/-- The nodes of the two lists of the block are owned by the block. -/
def OwnsNodes (m : Mesh) (b : Block) : Prop :=
  (∀ n ∈ b.boundNodes, m.nodeBlocks n = b.blockNum) ∧ (∀ n ∈ b.intNodes, m.nodeBlocks n = b.blockNum)

/-- Every slot of the grid is empty or holds a node owned by the block. -/
def GridOwned (P : Params) (m : Mesh) (b : Block) : Prop :=
  ∀ i, i < P.XBLOCKSIZE * P.YBLOCKSIZE → b.nodeRef i < 0 ∨ m.nodeBlocks (b.nodeRef i) = b.blockNum

/-- The frame invariant of the flood fill: the flag of a node that the block does not own is
the flag the mesh had at the call, the nodes on the final list and on the check list are owned
by the block, and `bothBounds` holds boundary nodes only. -/
def FrameInv (m : Mesh) (blockNum : Int) (boundNodes : List Int) (s : FillState) : Prop :=
  (∀ n, m.nodeBlocks n ≠ blockNum → s.flags n = m.flags n) ∧
  (∀ n ∈ s.filledBound, m.nodeBlocks n = blockNum) ∧
  (∀ n ∈ s.toCheck, m.nodeBlocks n = blockNum) ∧
  (∀ n ∈ s.bothBounds, n ∈ boundNodes)

/-- The state a call leaves behind, when it returns or throws. -/
def Outcome.leaves {σ : Type} : Outcome σ → Option σ
  | .ret _ s => some s
  | .thrown _ s => some s
  | _ => none

/-! ## Inputs and predicates for the statements about seeds, gathering and slot order -/

/-- A mesh of nine nodes. Block 0 owns the interior node 0 and the boundary nodes 1, 2, 3, 4:
the nodes 1, 2, 3 form the open chain 1-2-3 and node 4 has no link to another boundary node;
each boundary node is linked to one node of block 1 (5, 6, 7, 8). -/
def chainMesh : Mesh :=
  meshOf 3
    [[4], [2, 5], [1, 3, 6], [2, 7], [0, 8], [1], [2], [3], [4]]
    [0, 0, 0, 0, 0, 1, 1, 1, 1]
    [1, 2, 2, 2, 2, 2, 2, 2, 2]

/-- The ends 1 and 3 of the chain of `chainMesh` lie on the boundary of the mesh. -/
def chainBounds : Int → Int := fun n => [0, 1, 0, 1, 0, 0, 0, 0, 0].getD n.toNat 0

/-- Block 0 of `chainMesh` at state 1. -/
def chainBlock : Block := blockOf 0 1 [1, 2, 3, 4] [0]

/-- A mesh of three nodes in a row, all owned by block 0, with the flag of interior nodes. -/
def soloMesh : Mesh :=
  meshOf 2 [[1], [0, 2], [1]] [0, 0, 0] [1, 1, 1]

/-- The only block of `soloMesh` at state 1: three interior nodes and no boundary node. -/
def soloBlock : Block := blockOf 0 1 [] [0, 1, 2]

/-- The state invariant of the load table: below state 3 every entry is 0. -/
def TableClear (P : Params) (b : Block) : Prop :=
  b.blockFlag < 3 → ∀ k, k < P.NBLOCKLINKS → b.blockPointers k = 0

/-- The list with every element kept where it is met first and dropped where it is met
again: "each exactly once and in first-encounter order". -/
def firstSeen : List Int → List Int
  | [] => []
  | x :: xs => x :: (firstSeen xs).filter (fun y => y ≠ x)

/-- The links of the boundary nodes of the block, in the order of the two gather loops, that
land on a node owned by another block. -/
def encountered (m : Mesh) (b : Block) : List Int :=
  (b.boundNodes.flatMap (linksOf m)).filter (fun x => m.nodeBlocks x ≠ b.blockNum)

/-- The pattern class of a row mask of 4 bits: 0 for `1111`, 1 for the masks with three bits,
2 for the split masks `1001`, `1010`, `0101`, 3 for the joined masks `0011`, `0110`, `1100`, 4
for the masks with one bit, and 5 for every other value (0 among them). -/
def patternClass (v : Nat) : Nat :=
  if v = 15 then 0
  else if v = 14 ∨ v = 13 ∨ v = 11 ∨ v = 7 then 1
  else if v = 9 ∨ v = 10 ∨ v = 5 then 2
  else if v = 3 ∨ v = 6 ∨ v = 12 then 3
  else if v = 1 ∨ v = 2 ∨ v = 4 ∨ v = 8 then 4
  else 5

/-- The rows of one pattern class, by ascending row index. -/
def classRows (nRows : Nat) (connArray : Nat → Nat) (c : Nat) : List Nat :=
  (List.range nRows).filter (fun r => patternClass (connArray r) = c)

/-- The rows with a mask of one of the five classes, sorted by pattern class and by ascending
row index within a class. -/
def classOrder (nRows : Nat) (connArray : Nat → Nat) : List Nat :=
  (List.range 5).flatMap (classRows nRows connArray)

/-- The packing state `s1` comes from `s` by filling slots from `s.loadPos` on: the slots
below `s.loadPos` and from `s1.loadPos` on are as in `s`, and a row that is 0 stays 0. -/
def Pack.Extends (s s1 : Pack) : Prop :=
  s.loadPos ≤ s1.loadPos ∧
  (∀ k, k < s.loadPos ∨ s1.loadPos ≤ k → s1.loadMaps k = s.loadMaps k) ∧
  (∀ r, s.connArray r = 0 → s1.connArray r = 0)

/-- Columns of all nodes of `ringMesh` on the grid of 4 by 2 slots: block 0 holds
1, 2, 3, 4, 5, 0 in its slots 0 to 5; the nodes of the blocks 1 and 2 as in `ringCols`. -/
def ringColsAll : Int → Int := fun n => [1, 0, 1, 2, 3, 0, 0, 0, 1, 0, 0].getD n.toNat 0

/-- Rows of all nodes of `ringMesh` on the grid of 4 by 2 slots: the nodes 5 and 0 of block 0
lie in row 1; the nodes of the blocks 1 and 2 as in `ringRows`. -/
def ringRowsAll : Int → Int := fun n => [1, 0, 0, 0, 0, 1, 0, 1, 1, 0, 1].getD n.toNat 0

/-- Block 1 of `ringMesh` at state 2: the boundary nodes 6, 7, 8, all linked to block 0 only. -/
def ringBlockOne : Block :=
  { blockOf 1 2 [6, 7, 8] [] with nodeRef := fun i => [6, 7, 8].getD i (-1) }

/-- The connectivity array with the two rows `1111` and `0011`. -/
def allocConnFit : Nat → Nat := fun r => [15, 3].getD r 0

/-- The packing state `s1` comes from `s` by giving the next slots to the rows of the list,
one slot a row: slot `s.loadPos + j` holds `4 * rows[j]` (row `rows[j]`, column 0), the rows
of the list are 0, and nothing else differs. -/
def Pack.Consumed (s : Pack) (rows : List Nat) (s1 : Pack) : Prop :=
  s1.loadPos = s.loadPos + rows.length ∧
  (∀ j, j < rows.length → s1.loadMaps (s.loadPos + j) = 4 * rows.getD j 0) ∧
  (∀ k, k < s.loadPos ∨ s.loadPos + rows.length ≤ k → s1.loadMaps k = s.loadMaps k) ∧
  (∀ r, s1.connArray r = if r ∈ rows then 0 else s.connArray r)

/-- A bitmap of six rows with the masks `0011`, `1111`, `0000`, `1110`, `1111`, `1000`. -/
def classConn : Nat → Nat := fun r => [3, 15, 0, 14, 15, 8].getD r 0

/-! ## Array writes -/

theorem setAt_same {α : Type} (a : Nat → α) (i : Nat) (v : α) : setAt a i v i = v := by
  simp [setAt]

theorem setAt_other {α : Type} (a : Nat → α) (i j : Nat) (v : α) (h : j ≠ i) :
    setAt a i v j = a j := by
  simp [setAt, h]

theorem setAt_restore {α : Type} (a : Nat → α) (i : Nat) (v : α) :
    setAt (setAt a i v) i (a i) = a := by
  funext j
  by_cases h : j = i
  · subst h; simp [setAt]
  · simp [setAt, h]

theorem setAtI_same {α : Type} (a : Int → α) (i : Int) (v : α) : setAtI a i v i = v := by
  simp [setAtI]

theorem setAtI_other {α : Type} (a : Int → α) (i j : Int) (v : α) (h : j ≠ i) :
    setAtI a i v j = a j := by
  simp [setAtI, h]

/-! ## Lists -/

theorem foldl_invariant_mem {α β : Type} (Q : β → Prop) (f : β → α → β) :
    ∀ (l : List α) (init : β), Q init → (∀ acc x, x ∈ l → Q acc → Q (f acc x)) →
      Q (l.foldl f init) := by
  intro l
  induction l with
  | nil => intro init h _; exact h
  | cons a l ih =>
    intro init h hf
    exact ih _ (hf _ _ (List.mem_cons_self _ _) h)
      (fun acc x hx hq => hf acc x (List.mem_cons_of_mem _ hx) hq)

theorem length_le_of_nodup_bounded (l : List Int) (N : Int) (hnd : l.Nodup)
    (hr : ∀ n ∈ l, 0 ≤ n ∧ n < N) : l.length ≤ N.toNat := by
  have hmap : (l.map Int.toNat).Nodup := by
    refine List.Nodup.map_on ?_ hnd
    intro x hx y hy hxy
    have h1 := (hr x hx).1
    have h2 := (hr y hy).1
    omega
  have hsub : l.map Int.toNat ⊆ List.range N.toNat := by
    intro k hk
    rw [List.mem_map] at hk
    obtain ⟨n, hn, rfl⟩ := hk
    rw [List.mem_range]
    have := hr n hn
    omega
  have := (List.subperm_of_subset hmap hsub).length_le
  simpa using this

/-! ## The greedy packing covers every bit it clears -/

theorem testBit_lt_four {v b : Nat} (hv : v < 16) (hb : v.testBit b = true) : b < 4 := by
  by_contra hcon
  have hle : 4 ≤ b := Nat.le_of_not_lt hcon
  have : v < 2 ^ b := lt_of_lt_of_le hv (by
    calc 16 = 2 ^ 4 := by norm_num
      _ ≤ 2 ^ b := Nat.pow_le_pow_right (by decide) hle)
  rw [Nat.testBit_lt_two_pow this] at hb
  cases hb

theorem lt_sixteen_of_testBit {v : Nat} (h : ∀ b, v.testBit b = true → b < 4) : v < 16 := by
  have := Nat.lt_pow_two_of_testBit v (n := 4) (fun i hi => by
    by_contra hcon
    have := h i (by simpa using hcon)
    omega)
  simpa using this

theorem testBit_and_sub (v keep b : Nat) (h : (v &&& keep).testBit b = true) :
    v.testBit b = true := by
  rw [Nat.testBit_and] at h
  simp only [Bool.and_eq_true] at h
  exact h.1

theorem Covered.mono {P : Params} {s s1 : Pack} {r b : Nat}
    (hpos : s.loadPos ≤ s1.loadPos) (hmaps : ∀ k, k < s.loadPos → s1.loadMaps k = s.loadMaps k)
    (h : Covered P s r b) : Covered P s1 r b := by
  obtain ⟨k, hk, hkN, c, hc, h1, h2, h3⟩ := h
  exact ⟨k, by omega, hkN, c, by rw [hmaps k hk]; exact hc, h1, h2, h3⟩

/-- One placement keeps the invariant when the bits it clears lie under the load. -/
theorem place_inv (P : Params) (nRows : Nat) (orig : Nat → Nat) (s s1 : Pack)
    (cnt col newRow : Nat) (hinv : PackInv P nRows orig s)
    (hsub : ∀ b, newRow.testBit b = true → (s.connArray cnt).testBit b = true)
    (hcov : ∀ b, (s.connArray cnt).testBit b = true →
      newRow.testBit b = true ∨ (col ≤ b ∧ b < col + P.loadLengths s.loadPos))
    (hfit : s.loadPos < P.NBLOCKLINKS → col + P.loadLengths s.loadPos ≤ 4)
    (h : place P s (cnt * 4 + col) cnt newRow = some s1) :
    PackInv P nRows orig s1 ∧ s1.loadPos = s.loadPos + 1 := by
  unfold place at h
  split at h
  · rename_i hlt
    injection h with h
    subst h
    refine ⟨⟨by simp only; omega, ?_, ?_⟩, rfl⟩
    · intro r hrn b hb
      simp only at hb
      by_cases hr : r = cnt
      · subst hr
        rw [setAt_same] at hb
        exact hinv.2.1 _ hrn _ (hsub b hb)
      · rw [setAt_other _ _ _ _ hr] at hb
        exact hinv.2.1 _ hrn _ hb
    · intro r hr b hb
      have hold := hinv.2.2 r hr b hb
      have hmono : ∀ {r b}, Covered P s r b →
          Covered P { loadPos := s.loadPos + 1, loadMaps := setAt s.loadMaps s.loadPos (cnt * 4 + col),
                      connArray := setAt s.connArray cnt newRow } r b := by
        intro r b hc
        refine Covered.mono (by simp) ?_ hc
        intro k hk
        simp only
        rw [setAt_other _ _ _ _ (by omega)]
      rcases hold with hset | hc
      · by_cases hrc : r = cnt
        · subst hrc
          rcases hcov b hset with hnew | ⟨h1, h2⟩
          · left
            simp only
            rw [setAt_same]
            exact hnew
          · right
            refine ⟨s.loadPos, by simp, hlt, col, ?_, h1, h2, hfit hlt⟩
            simp only
            rw [setAt_same]
            omega
        · left
          simp only
          rw [setAt_other _ _ _ _ hrc]
          exact hset
      · exact Or.inr (hmono hc)
  · cases h

theorem rows_lt_sixteen {P : Params} {nRows : Nat} {orig : Nat → Nat} {s : Pack}
    (hinv : PackInv P nRows orig s) (hmask : ∀ r, r < nRows → orig r < 16) (r : Nat)
    (hr : r < nRows) : s.connArray r < 16 :=
  lt_sixteen_of_testBit (fun b hb => testBit_lt_four (hmask r hr) (hinv.2.1 r hr b hb))

theorem tryCheck_inv (P : Params) (nRows : Nat) (orig : Nat → Nat) (w : Nat) (c : Check)
    (cnt : Nat) (s s1 : Pack) (brk : Bool) (hmask : ∀ r, r < nRows → orig r < 16)
    (hcnt : cnt < nRows) (hc : c.Sound w)
    (hinv : PackInv P nRows orig s) (hw : P.loadLengths s.loadPos = w)
    (h : tryCheck P w c cnt s = some (s1, brk)) :
    PackInv P nRows orig s1 ∧ (brk = false → P.loadLengths s1.loadPos = w) := by
  unfold tryCheck at h
  split at h
  · split at h
    · cases h
    · rename_i s2 hplace
      injection h with h
      injection h with h1 h2
      subst h1
      have hlt := rows_lt_sixteen hinv hmask cnt hcnt
      have := place_inv P nRows orig s s2 cnt c.col _ hinv
        (fun b hb => testBit_and_sub _ _ _ hb)
        (fun b hb => by
          rw [hw]
          exact hc.2 _ hlt b (testBit_lt_four hlt hb) hb)
        (fun _ => by rw [hw]; exact hc.1) hplace
      refine ⟨this.1, ?_⟩
      intro hb
      rw [← h2] at hb
      simpa using hb
  · injection h with h
    injection h with h1 h2
    subst h1
    exact ⟨hinv, fun _ => hw⟩

theorem runChecks_inv (P : Params) (nRows : Nat) (orig : Nat → Nat) (w : Nat) (cnt : Nat)
    (hmask : ∀ r, r < nRows → orig r < 16) (hcnt : cnt < nRows) :
    ∀ (cs : List Check) (s s1 : Pack) (brk : Bool), (∀ c ∈ cs, c.Sound w) →
      PackInv P nRows orig s → P.loadLengths s.loadPos = w →
      runChecks P w cnt cs s = some (s1, brk) →
      PackInv P nRows orig s1 ∧ (brk = false → P.loadLengths s1.loadPos = w) := by
  intro cs
  induction cs with
  | nil =>
    intro s s1 brk _ hinv hw h
    simp only [runChecks] at h
    injection h with h
    injection h with h1 h2
    subst h1
    exact ⟨hinv, fun _ => hw⟩
  | cons c cs ih =>
    intro s s1 brk hcs hinv hw h
    simp only [runChecks] at h
    split at h
    · cases h
    · rename_i s2 htry
      injection h with h
      injection h with h1 h2
      subst h1
      have := tryCheck_inv P nRows orig w c cnt s s2 true hmask hcnt
        (hcs c (List.mem_cons_self _ _)) hinv hw htry
      exact ⟨this.1, fun hb => by rw [← h2] at hb; cases hb⟩
    · rename_i s2 htry
      have := tryCheck_inv P nRows orig w c cnt s s2 false hmask hcnt
        (hcs c (List.mem_cons_self _ _)) hinv hw htry
      exact ih s2 s1 brk (fun c hc => hcs c (List.mem_cons_of_mem _ hc)) this.1 (this.2 rfl) h

theorem tierRows_inv (P : Params) (nRows : Nat) (orig : Nat → Nat) (w : Nat) (cs : List Check)
    (hmask : ∀ r, r < nRows → orig r < 16) (hcs : ∀ c ∈ cs, c.Sound w) :
    ∀ (rows : List Nat) (s s1 : Pack), (∀ cnt ∈ rows, cnt < nRows) →
      PackInv P nRows orig s → P.loadLengths s.loadPos = w →
      tierRows P w cs rows s = some s1 → PackInv P nRows orig s1 := by
  intro rows
  induction rows with
  | nil =>
    intro s s1 _ hinv _ h
    simp only [tierRows] at h
    injection h with h
    subst h
    exact hinv
  | cons cnt rows ih =>
    intro s s1 hrows hinv hw h
    have hcnt := hrows cnt (List.mem_cons_self _ _)
    simp only [tierRows] at h
    split at h
    · cases h
    · rename_i s2 hrun
      injection h with h
      subst h
      exact (runChecks_inv P nRows orig w cnt hmask hcnt cs s s2 true hcs hinv hw hrun).1
    · rename_i s2 hrun
      have := runChecks_inv P nRows orig w cnt hmask hcnt cs s s2 false hcs hinv hw hrun
      exact ih s2 s1 (fun c hc => hrows c (List.mem_cons_of_mem _ hc)) this.1 (this.2 rfl) h

theorem tierStages_sound : ∀ st ∈ tierStages, ∀ c ∈ st.2, c.Sound st.1 := by
  intro st hst c hc
  simp only [tierStages, List.mem_cons, List.mem_singleton, List.not_mem_nil, or_false] at hst
  rcases hst with rfl | rfl | rfl | rfl | rfl | rfl | rfl <;>
    simp only [List.mem_cons, List.mem_singleton, List.not_mem_nil, or_false] at hc
  all_goals
    rcases hc with rfl | rfl | rfl | rfl
    all_goals
      refine ⟨by decide, ?_⟩
      intro v hv b hb
      interval_cases b <;> interval_cases v <;> decide

theorem runStages_inv (P : Params) (nRows : Nat) (orig : Nat → Nat)
    (hmask : ∀ r, r < nRows → orig r < 16) :
    ∀ (stages : List (Nat × List Check)) (s s1 : Pack), (∀ st ∈ stages, ∀ c ∈ st.2, c.Sound st.1) →
      PackInv P nRows orig s → runStages P nRows stages s = some s1 → PackInv P nRows orig s1 := by
  intro stages
  induction stages with
  | nil =>
    intro s s1 _ hinv h
    simp only [runStages] at h
    injection h with h
    subst h
    exact hinv
  | cons st stages ih =>
    intro s s1 hst hinv h
    obtain ⟨w, cs⟩ := st
    simp only [runStages] at h
    have hrest : ∀ st ∈ stages, ∀ c ∈ st.2, c.Sound st.1 :=
      fun st h => hst st (List.mem_cons_of_mem _ h)
    split at h
    · rename_i hw
      split at h
      · cases h
      · rename_i s2 htier
        have := tierRows_inv P nRows orig w cs hmask (hst (w, cs) (List.mem_cons_self _ _))
          (List.range nRows) s s2 (fun c hc => List.mem_range.1 hc) hinv hw htier
        exact ih s2 s1 hrest this h
    · exact ih s s1 hrest hinv h

theorem place_some_lt {P : Params} {s s1 : Pack} {v cnt newRow : Nat}
    (h : place P s v cnt newRow = some s1) : s.loadPos < P.NBLOCKLINKS := by
  unfold place at h
  split at h
  · assumption
  · cases h

theorem ones_sound : ∀ cntBit, cntBit < 4 → ∀ v, v < 16 → ∀ b, b < 4 → v.testBit b = true →
    (v &&& (15 - (1 <<< cntBit))).testBit b = true ∨ (cntBit ≤ b ∧ b < cntBit + 1) := by
  intro cntBit hc v hv b hb
  interval_cases cntBit <;> interval_cases b <;> interval_cases v <;> decide

theorem next_width_one (P : Params) (hcat : WidestFirst P) (k : Nat)
    (h : k < P.NBLOCKLINKS → P.loadLengths k = 1) :
    k + 1 < P.NBLOCKLINKS → P.loadLengths (k + 1) = 1 := by
  intro hk
  have h1 := h (by omega)
  have h2 := hcat.2 k (by omega)
  rcases hcat.1 (k + 1) hk with h4 | h4 | h4 <;> omega

theorem onesBits_inv (P : Params) (nRows : Nat) (orig : Nat → Nat) (cnt : Nat)
    (hmask : ∀ r, r < nRows → orig r < 16) (hcnt : cnt < nRows) (hcat : WidestFirst P) :
    ∀ (bits : List Nat) (s s1 : Pack), (∀ b ∈ bits, b < 4) → PackInv P nRows orig s →
      (s.loadPos < P.NBLOCKLINKS → P.loadLengths s.loadPos = 1) →
      onesBits P cnt bits s = some s1 →
      PackInv P nRows orig s1 ∧ (s1.loadPos < P.NBLOCKLINKS → P.loadLengths s1.loadPos = 1) := by
  intro bits
  induction bits with
  | nil =>
    intro s s1 _ hinv hw h
    simp only [onesBits] at h
    injection h with h
    subst h
    exact ⟨hinv, hw⟩
  | cons cntBit bits ih =>
    intro s s1 hbits hinv hw h
    have hrest : ∀ b ∈ bits, b < 4 := fun b hb => hbits b (List.mem_cons_of_mem _ hb)
    simp only [onesBits] at h
    split at h
    · split at h
      · cases h
      · rename_i s2 hplace
        have hlt := rows_lt_sixteen hinv hmask cnt hcnt
        have hpos := place_some_lt hplace
        have hp := place_inv P nRows orig s s2 cnt cntBit _ hinv
          (fun b hb => testBit_and_sub _ _ _ hb)
          (fun b hb => by
            rw [hw hpos]
            exact ones_sound cntBit (hbits cntBit (List.mem_cons_self _ _)) _ hlt b
              (testBit_lt_four hlt hb) hb)
          (fun hp => by
            rw [hw hp]
            have := hbits cntBit (List.mem_cons_self _ _)
            omega) hplace
        have hw2 : s2.loadPos < P.NBLOCKLINKS → P.loadLengths s2.loadPos = 1 := by
          rw [hp.2]
          exact next_width_one P hcat s.loadPos hw
        split at h
        · injection h with h
          subst h
          exact ⟨hp.1, hw2⟩
        · exact ih s2 s1 hrest hp.1 hw2 h
    · exact ih s s1 hrest hinv hw h

theorem onesRows_inv (P : Params) (nRows : Nat) (orig : Nat → Nat)
    (hmask : ∀ r, r < nRows → orig r < 16) (hcat : WidestFirst P) :
    ∀ (rows : List Nat) (s s1 : Pack), (∀ cnt ∈ rows, cnt < nRows) → PackInv P nRows orig s →
      (s.loadPos < P.NBLOCKLINKS → P.loadLengths s.loadPos = 1) →
      onesRows P rows s = some s1 → PackInv P nRows orig s1 := by
  intro rows
  induction rows with
  | nil =>
    intro s s1 _ hinv _ h
    simp only [onesRows] at h
    injection h with h
    subst h
    exact hinv
  | cons cnt rows ih =>
    intro s s1 hrows hinv hw h
    have hrest : ∀ c ∈ rows, c < nRows := fun c hc => hrows c (List.mem_cons_of_mem _ hc)
    simp only [onesRows] at h
    split at h
    · split at h
      · cases h
      · rename_i s2 hbits
        have := onesBits_inv P nRows orig cnt hmask (hrows cnt (List.mem_cons_self _ _)) hcat
          [0, 1, 2, 3] s s2 (by decide) hinv hw hbits
        split at h
        · injection h with h
          subst h
          exact this.1
        · exact ih s2 s1 hrest this.1 this.2 h
    · exact ih s s1 hrest hinv hw h

theorem packRound_inv (P : Params) (nRows : Nat) (orig : Nat → Nat)
    (hmask : ∀ r, r < nRows → orig r < 16) (hcat : WidestFirst P) (s s1 : Pack)
    (hinv : PackInv P nRows orig s) (h : packRound P nRows s = some s1) :
    PackInv P nRows orig s1 := by
  unfold packRound at h
  split at h
  · cases h
  · rename_i s2 hst
    have h2 := runStages_inv P nRows orig hmask tierStages s s2 tierStages_sound hinv hst
    split at h
    · rename_i hw
      exact onesRows_inv P nRows orig hmask hcat _ s2 s1 (fun c hc => List.mem_range.1 hc) h2
        (fun _ => hw) h
    · injection h with h
      subst h
      exact h2

theorem packLoop_inv (P : Params) (nRows : Nat) (orig : Nat → Nat)
    (hmask : ∀ r, r < nRows → orig r < 16) (hcat : WidestFirst P) :
    ∀ (fuel : Nat) (s s1 : Pack), PackInv P nRows orig s →
      packLoop P nRows fuel s = .ret 0 s1 →
      PackInv P nRows orig s1 ∧ allZeros nRows s1.connArray = true := by
  intro fuel
  have hend : ∀ s s1 : Pack, PackInv P nRows orig s → packEnd nRows s = .ret 0 s1 →
      PackInv P nRows orig s1 ∧ allZeros nRows s1.connArray = true := by
    intro s s1 hinv h
    unfold packEnd at h
    split at h
    · rename_i hz
      injection h with _ h
      subst h
      exact ⟨hinv, hz⟩
    · injection h with h _
      omega
  induction fuel with
  | zero =>
    intro s s1 _ h
    simp only [packLoop] at h
    cases h
  | succ fuel ih =>
    intro s s1 hinv h
    simp only [packLoop] at h
    split at h
    · split at h
      · cases h
      · rename_i s2 hround
        have h2 := packRound_inv P nRows orig hmask hcat s s2 hinv hround
        split at h
        · exact hend s2 s1 h2 h
        · split at h
          · injection h with h _
            omega
          · exact ih s2 s1 h2 h
    · exact hend s s1 hinv h

theorem packInv_init (P : Params) (nRows : Nat) (orig : Nat → Nat) :
    PackInv P nRows orig { loadPos := 0, loadMaps := fun _ => 0, connArray := orig } :=
  ⟨Nat.zero_le _, fun _ _ _ h => h, fun _ _ _ h => Or.inl h⟩

/-- The packing phase of `linkArrange`: when it ends with 0, every bit of the bitmap it started
from is covered by a filled slot. -/
theorem packLoads_covers (P : Params) (nRows : Nat) (connArray : Nat → Nat) (s : Pack)
    (hmask : ∀ r, r < nRows → connArray r < 16) (hcat : WidestFirst P)
    (h : packLoads P nRows connArray = .ret 0 s) :
    ∀ r, r < nRows → ∀ b, (connArray r).testBit b = true → Covered P s r b := by
  have := packLoop_inv P nRows connArray hmask hcat _ _ s (packInv_init P nRows connArray) h
  intro r hr b hb
  rcases this.1.2.2 r hr b hb with hset | hc
  · have hz := (List.all_eq_true.1 this.2) r (List.mem_range.2 hr)
    simp only [decide_eq_true_eq] at hz
    rw [hz] at hset
    simp at hset
  · exact hc

/-- C1: for a catalogue of `NBLOCKLINKS` widths drawn from 4, 2, 1, widest first, and a block
at state 2 whose connectivity bitmap has rows of 4 bits: when `linkArrange` returns 0, the
greedy packing ended with 0 and every bit set in the bitmap before the packing is covered by a
filled slot, that is, for each row `r` and each bit `bit` set in `connArray[r]` there is a slot
`k` of the table with `loadMaps[k] = 4*r + c` and `c ≤ bit < c + loadLengths[k]` (and the load
ends inside the row, `c + loadLengths[k] ≤ 4`). -/
theorem linkArrange_covers (P : Params) (m : Mesh) (cols rows blockFlags : Int → Int)
    (b b1 : Block) (hstate : b.blockFlag = 2) (hcat : WidestFirst P)
    (hmask : ∀ conn, linkBitmap P m cols rows b = .ret 0 conn →
      ∀ r, r < (gather m b).2.length * P.NACCESSROWS → conn r < 16)
    (h : linkArrange P m cols rows blockFlags b = .ret 0 b1) :
    ∃ conn s, linkBitmap P m cols rows b = .ret 0 conn ∧
      packLoads P ((gather m b).2.length * P.NACCESSROWS) conn = .ret 0 s ∧
      ∀ r, r < (gather m b).2.length * P.NACCESSROWS → ∀ bit, (conn r).testBit bit = true →
        ∃ k, k < s.loadPos ∧ k < P.NBLOCKLINKS ∧
          ∃ c, s.loadMaps k = 4 * r + c ∧ c ≤ bit ∧ bit < c + P.loadLengths k ∧
            c + P.loadLengths k ≤ 4 := by
  unfold linkArrange at h
  rw [if_neg (by omega), if_neg (by omega)] at h
  split at h
  · injection h with h1 _; omega
  · simp only at h
    split at h
    · cases h
    · split at h
      · cases h
      · cases h
      · cases h
      · rename_i code conn hbit
        split at h
        · injection h with h1 _; omega
        · rename_i hcode
          have hcode0 : code = 0 := by
            unfold linkBitmap at hbit
            revert hbit
            generalize neededPairs 0 (gather m b).2 = pairs
            generalize (fun _ => 0 : Nat → Nat) = c0
            intro hbit
            induction pairs generalizing c0 with
            | nil =>
              simp only [buildConn] at hbit
              injection hbit with h1 _
              exact h1.symm
            | cons pr pairs ih =>
              obtain ⟨cnt, p⟩ := pr
              simp only [buildConn] at hbit
              split at hbit
              · injection hbit with h1 _
                exact absurd h1.symm hcode
              · split at hbit
                · cases hbit
                · exact ih _ hbit
          subst hcode0
          split at h
          · cases h
          · cases h
          · cases h
          · rename_i code2 s hpack
            split at h
            · injection h with h1 _; omega
            · rename_i hcode2
              have hcode20 : code2 = 0 := by
                unfold packLoads at hpack
                revert hpack
                generalize ({ loadPos := 0, loadMaps := fun _ => 0, connArray := conn } : Pack) = s0
                generalize P.NBLOCKLINKS + 1 = fuel
                intro hpack
                have hend : ∀ s0 : Pack, packEnd ((gather m b).2.length * P.NACCESSROWS) s0 =
                    .ret code2 s → code2 = 0 := by
                  intro s0 he
                  unfold packEnd at he
                  split at he
                  · injection he with h1 _; exact h1.symm
                  · injection he with h1 _; exact absurd h1.symm hcode2
                induction fuel generalizing s0 with
                | zero => simp only [packLoop] at hpack; cases hpack
                | succ fuel ih =>
                  simp only [packLoop] at hpack
                  split at hpack
                  · split at hpack
                    · cases hpack
                    · split at hpack
                      · exact hend _ hpack
                      · split at hpack
                        · injection hpack with h1 _; exact absurd h1.symm hcode2
                        · exact ih _ hpack
                  · exact hend _ hpack
              subst hcode20
              exact ⟨conn, s, hbit, hpack,
                packLoads_covers P _ conn s (hmask conn hbit) hcat hpack⟩

/-- C1 (witness): block 0 of the ring mesh with the catalogue 4,4,4,4,2,2,2,2,1,...,1. -/
theorem linkArrange_covers_witness :
    ∃ conn s, linkBitmap exParams ringMeshMapped ringCols ringRows ringBlockMapped = .ret 0 conn ∧
      packLoads exParams ((gather ringMeshMapped ringBlockMapped).2.length * exParams.NACCESSROWS)
        conn = .ret 0 s ∧
      ∀ r, r < (gather ringMeshMapped ringBlockMapped).2.length * exParams.NACCESSROWS →
        ∀ bit, (conn r).testBit bit = true →
        ∃ k, k < s.loadPos ∧ k < exParams.NBLOCKLINKS ∧
          ∃ c, s.loadMaps k = 4 * r + c ∧ c ≤ bit ∧ bit < c + exParams.loadLengths k ∧
            c + exParams.loadLengths k ≤ 4 :=
  linkArrange_covers exParams ringMeshMapped ringCols ringRows (fun _ => 2) ringBlockMapped _
    (by decide) (by constructor <;> decide)
    (fun conn h => by
      have e : conn = (linkBitmap exParams ringMeshMapped ringCols ringRows ringBlockMapped).stateOr
          (fun _ => 0) := by rw [h]; rfl
      subst e
      decide)
    rfl

/-! ## The greedy packing gives up at slot 16 -/

theorem longPlace_solves : Solvable longParams 5 longConn := by
  refine ⟨longPlace, ?_, ?_⟩
  · intro k hk
    have hk2 : k < 17 := hk
    interval_cases k <;> decide
  · intro r hr b hb
    have hb4 : b < 4 := by
      by_contra hcon
      have hlt : longConn r < 2 ^ b := by
        have h16 : longConn r < 16 := by interval_cases r <;> decide
        calc longConn r < 16 := h16
          _ = 2 ^ 4 := by norm_num
          _ ≤ 2 ^ b := Nat.pow_le_pow_right (by decide) (by omega)
      rw [Nat.testBit_lt_two_pow hlt] at hb
      cases hb
    interval_cases r <;> interval_cases b <;> first | (exact absurd hb (by decide)) | decide

/-- C5 (code evaluated at the failing input): with a table of 17 slots of width 1 the bitmap
`1111, 1111, 1111, 0111, 0011` has 17 set bits and is covered by putting one load on each of
them, so the claim requires the packing to succeed. The greedy packing returns -10: after slot
15 is filled `loadPos` is 16, the loop over the bits of the last row stops at the literal
`loadPos >= 16` with bit 1 of that row still set, and the round ends with
`if (loadPos >= 16) return -10` although slot 16 of the `NBLOCKLINKS = 17` slots is free; the
guards of the `while` loop and of the loop over the rows compare with `NBLOCKLINKS`. -/
theorem packLoads_gives_up_at_sixteen :
    Solvable longParams (1 * longParams.NACCESSROWS) longConn ∧
      (packLoads longParams (1 * longParams.NACCESSROWS) longConn).code = some (-10) ∧
      ((packLoads longParams (1 * longParams.NACCESSROWS) longConn).stateOr
        ⟨0, fun _ => 0, fun _ => 0⟩).loadPos = 16 ∧
      longParams.NBLOCKLINKS = 17 ∧
      ((packLoads longParams (1 * longParams.NACCESSROWS) longConn).stateOr
        ⟨0, fun _ => 0, fun _ => 0⟩).connArray 4 = 2 :=
  ⟨longPlace_solves, by decide, by decide, by decide, by decide⟩

theorem packLoop_code (P : Params) (nRows : Nat) :
    ∀ (fuel : Nat) (s0 s : Pack) (code : Int), packLoop P nRows fuel s0 = .ret code s →
      (code = 0 ∧ allZeros nRows s.connArray = true) ∨
      (code = -10 ∧ allZeros nRows s.connArray = false) := by
  intro fuel
  have hend : ∀ (s0 s : Pack) (code : Int), packEnd nRows s0 = .ret code s →
      (code = 0 ∧ allZeros nRows s.connArray = true) ∨
      (code = -10 ∧ allZeros nRows s.connArray = false) := by
    intro s0 s code h
    unfold packEnd at h
    split at h
    · rename_i hz
      injection h with h1 h2
      subst h2
      exact Or.inl ⟨h1.symm, hz⟩
    · rename_i hz
      injection h with h1 h2
      subst h2
      exact Or.inr ⟨h1.symm, by simpa using hz⟩
  induction fuel with
  | zero =>
    intro s0 s code h
    simp only [packLoop] at h
    cases h
  | succ fuel ih =>
    intro s0 s code h
    simp only [packLoop] at h
    split at h
    · split at h
      · cases h
      · split at h
        · exact hend _ _ _ h
        · rename_i hz
          split at h
          · injection h with h1 h2
            subst h2
            exact Or.inr ⟨h1.symm, by simpa using hz⟩
          · exact ih _ _ _ h
    · exact hend _ _ _ h

theorem placementOf_covers (P : Params) (s : Pack) (r b : Nat)
    (hpos : ∀ k, k < P.NBLOCKLINKS → 1 ≤ P.loadLengths k) (h : Covered P s r b) :
    ∃ k, k < P.NBLOCKLINKS ∧ (placementOf P s k).1 = r ∧ (placementOf P s k).2 ≤ b ∧
      b < (placementOf P s k).2 + P.loadLengths k := by
  obtain ⟨k, _, hkN, c, hc, h1, h2, h3⟩ := h
  have hw := hpos k hkN
  have hc4 : c < 4 := by omega
  have hmod : s.loadMaps k % 4 = c := by rw [hc]; omega
  have hdiv : s.loadMaps k / 4 = r := by rw [hc]; omega
  refine ⟨k, hkN, ?_, ?_, ?_⟩
  · unfold placementOf
    rw [if_pos (by rw [hmod]; exact h3), hdiv]
  · unfold placementOf
    rw [if_pos (by rw [hmod]; exact h3), hmod]
    exact h1
  · unfold placementOf
    rw [if_pos (by rw [hmod]; exact h3), hmod]
    exact h2

/-- Soundness of the greedy packing, the direction of the packing property that holds for
every table size: for every bitmap of 4-bit rows and every widest-first catalogue, the greedy
packing of `linkArrange` returns 0 or -10 when it returns. When it returns 0 every row is
cleared and the slots it filled are an assignment of the catalogue (slot `k` of width
`loadLengths[k]` at one row and a start column `c` with `c + loadLengths[k] ≤ 4`) that covers
every set bit of the bitmap, so such an assignment exists. When it returns -10 a row is left
with a bit set; an assignment may exist all the same. -/
theorem packLoads_sound (P : Params) (nRows : Nat) (connArray : Nat → Nat) (code : Int) (s : Pack)
    (hmask : ∀ r, r < nRows → connArray r < 16) (hcat : WidestFirst P)
    (h : packLoads P nRows connArray = .ret code s) :
    (code = 0 ∨ code = -10) ∧
    (code = 0 →
      (∀ r, r < nRows → s.connArray r = 0) ∧
      (∀ k, k < P.NBLOCKLINKS → (placementOf P s k).2 + P.loadLengths k ≤ 4) ∧
      (∀ r, r < nRows → ∀ b, (connArray r).testBit b = true →
        ∃ k, k < P.NBLOCKLINKS ∧ (placementOf P s k).1 = r ∧ (placementOf P s k).2 ≤ b ∧
          b < (placementOf P s k).2 + P.loadLengths k)) ∧
    (code = -10 → ∃ r, r < nRows ∧ s.connArray r ≠ 0) := by
  have hcode := packLoop_code P nRows _ _ s code h
  refine ⟨?_, ?_, ?_⟩
  · rcases hcode with ⟨h1, _⟩ | ⟨h1, _⟩
    · exact Or.inl h1
    · exact Or.inr h1
  · intro h0
    subst h0
    have hz : allZeros nRows s.connArray = true := by
      rcases hcode with ⟨_, h2⟩ | ⟨h1, _⟩
      · exact h2
      · omega
    have hpos : ∀ k, k < P.NBLOCKLINKS → 1 ≤ P.loadLengths k := by
      intro k hk
      rcases hcat.1 k hk with h4 | h4 | h4 <;> omega
    refine ⟨?_, ?_, ?_⟩
    · intro r hr
      have := (List.all_eq_true.1 hz) r (List.mem_range.2 hr)
      simpa using this
    · intro k hk
      unfold placementOf
      split
      · assumption
      · rcases hcat.1 k hk with h4 | h4 | h4 <;> omega
    · intro r hr b hb
      exact placementOf_covers P s r b hpos (packLoads_covers P nRows connArray s hmask hcat h r hr b hb)
  · intro h10
    subst h10
    have hz : allZeros nRows s.connArray = false := by
      rcases hcode with ⟨h1, _⟩ | ⟨_, h2⟩
      · omega
      · exact h2
    by_contra hcon
    have : allZeros nRows s.connArray = true := by
      unfold allZeros
      rw [List.all_eq_true]
      intro r hr
      have hr2 := List.mem_range.1 hr
      by_contra h3
      exact hcon ⟨r, hr2, by simpa using h3⟩
    rw [this] at hz
    cases hz

/-- An instance of `packLoads_sound`: the packing of the bitmap
`0001, 0001, 0000, 0000, 0001, 0001, 0000, 0000` under the catalogue 4,4,4,4,2,2,2,2,1,...,1. -/
theorem packLoads_sound_witness :
    ∃ s, packLoads exParams 8 ringConn = .ret 0 s ∧
      ((0 : Int) = 0 ∨ (0 : Int) = -10) ∧
      ((0 : Int) = 0 →
        (∀ r, r < 8 → s.connArray r = 0) ∧
        (∀ k, k < exParams.NBLOCKLINKS → (placementOf exParams s k).2 + exParams.loadLengths k ≤ 4) ∧
        (∀ r, r < 8 → ∀ b, (ringConn r).testBit b = true →
          ∃ k, k < exParams.NBLOCKLINKS ∧ (placementOf exParams s k).1 = r ∧
            (placementOf exParams s k).2 ≤ b ∧
            b < (placementOf exParams s k).2 + exParams.loadLengths k)) ∧
      ((0 : Int) = -10 → ∃ r, r < 8 ∧ s.connArray r ≠ 0) :=
  ⟨_, rfl, packLoads_sound exParams 8 ringConn 0 _ (by decide) (by constructor <;> decide) rfl⟩

/-! ## `updateColsRows` -/

theorem CellsOk.tail {P : Params} {nNodes : Int} {nodeRef : Nat → Int} {c : Nat × Nat}
    {cells : List (Nat × Nat)} (h : CellsOk P nNodes nodeRef (c :: cells)) :
    CellsOk P nNodes nodeRef cells := by
  obtain ⟨h1, h2, h3⟩ := h
  refine ⟨(List.nodup_cons.1 h1).2, fun d hd => h2 d (List.mem_cons_of_mem _ hd), ?_⟩
  intro d hd e he
  exact h3 d (List.mem_cons_of_mem _ hd) e (List.mem_cons_of_mem _ he)

theorem updateCells_spec (P : Params) (nNodes : Int) (nodeRef : Nat → Int) :
    ∀ (cells : List (Nat × Nat)) (cols rows : Int → Int), CellsOk P nNodes nodeRef cells →
      ∃ cols1 rows1, updateCells P nNodes nodeRef cells (cols, rows) = .ret 0 (cols1, rows1) ∧
        (∀ c ∈ cells, 0 ≤ nodeRef (c.1 + c.2 * P.XBLOCKSIZE) →
          cols1 (nodeRef (c.1 + c.2 * P.XBLOCKSIZE)) = c.1 ∧
          rows1 (nodeRef (c.1 + c.2 * P.XBLOCKSIZE)) = c.2) ∧
        (∀ n, (∀ c ∈ cells, nodeRef (c.1 + c.2 * P.XBLOCKSIZE) ≠ n) →
          cols1 n = cols n ∧ rows1 n = rows n) := by
  intro cells
  induction cells with
  | nil =>
    intro cols rows _
    exact ⟨cols, rows, rfl, by simp, by simp⟩
  | cons c cells ih =>
    intro cols rows hok
    obtain ⟨colCnt, rowCnt⟩ := c
    have hnd := hok.1
    have hlt := hok.2.1 (colCnt, rowCnt) (List.mem_cons_self _ _)
    simp only at hlt
    by_cases hneg : 0 ≤ nodeRef (colCnt + rowCnt * P.XBLOCKSIZE)
    · obtain ⟨cols1, rows1, hrun, hin, hout⟩ := ih
        (setAtI cols (nodeRef (colCnt + rowCnt * P.XBLOCKSIZE)) colCnt)
        (setAtI rows (nodeRef (colCnt + rowCnt * P.XBLOCKSIZE)) rowCnt) hok.tail
      refine ⟨cols1, rows1, ?_, ?_, ?_⟩
      · simp only [updateCells]
        rw [if_pos (by omega), if_neg (by omega)]
        exact hrun
      · intro d hd hd0
        rcases List.mem_cons.1 hd with rfl | hd
        · have hfresh : ∀ e ∈ cells, nodeRef (e.1 + e.2 * P.XBLOCKSIZE) ≠
              nodeRef (colCnt + rowCnt * P.XBLOCKSIZE) := by
            intro e he heq
            have := hok.2.2 (colCnt, rowCnt) (List.mem_cons_self _ _) e
              (List.mem_cons_of_mem _ he) hneg heq.symm
            subst this
            exact (List.nodup_cons.1 hnd).1 he
          have := hout _ hfresh
          simp only [setAtI_same] at this
          simpa using this
        · exact hin d hd hd0
      · intro n hn
        have hne : n ≠ nodeRef (colCnt + rowCnt * P.XBLOCKSIZE) :=
          fun h => hn (colCnt, rowCnt) (List.mem_cons_self _ _) h.symm
        have := hout n (fun e he => hn e (List.mem_cons_of_mem _ he))
        rw [setAtI_other _ _ _ _ hne, setAtI_other _ _ _ _ hne] at this
        exact this
    · obtain ⟨cols1, rows1, hrun, hin, hout⟩ := ih cols rows hok.tail
      refine ⟨cols1, rows1, ?_, ?_, ?_⟩
      · simp only [updateCells]
        rw [if_neg hneg]
        exact hrun
      · intro d hd hd0
        rcases List.mem_cons.1 hd with rfl | hd
        · exact absurd hd0 hneg
        · exact hin d hd hd0
      · intro n hn
        exact hout n (fun e he => hn e (List.mem_cons_of_mem _ he))

theorem slot_cell (X Y i : Nat) (hi : i < X * Y) :
    (i % X, i / X) ∈ List.product (List.range X) (List.range Y) ∧ i % X + i / X * X = i := by
  have hX : 0 < X := by
    rcases Nat.eq_zero_or_pos X with h | h
    · subst h; simp at hi
    · exact h
  refine ⟨?_, ?_⟩
  · refine List.pair_mem_product.2 ⟨List.mem_range.2 (Nat.mod_lt _ hX), List.mem_range.2 ?_⟩
    exact Nat.div_lt_of_lt_mul hi
  · rw [Nat.add_comm, Nat.mul_comm]; exact Nat.div_add_mod i X

theorem cell_slot (X Y : Nat) (c : Nat × Nat) (hc : c ∈ List.product (List.range X) (List.range Y)) :
    c.1 + c.2 * X < X * Y ∧ (c.1 + c.2 * X) % X = c.1 ∧ (c.1 + c.2 * X) / X = c.2 := by
  obtain ⟨c1, c2⟩ := c
  have hc2 := List.pair_mem_product.1 hc
  rw [List.mem_range, List.mem_range] at hc2
  obtain ⟨h1, h2⟩ := hc2
  simp only
  refine ⟨?_, ?_, ?_⟩
  · calc c1 + c2 * X < X + c2 * X := by omega
      _ = (c2 + 1) * X := by ring
      _ ≤ Y * X := Nat.mul_le_mul_right _ h2
      _ = X * Y := Nat.mul_comm _ _
  · rw [Nat.add_mul_mod_self_right]; exact Nat.mod_eq_of_lt h1
  · rw [Nat.add_mul_div_right _ _ (by omega), Nat.div_eq_of_lt h1, Nat.zero_add]

theorem gridCells_ok (P : Params) (nNodes : Int) (nodeRef : Nat → Int)
    (hrange : ∀ i, i < P.XBLOCKSIZE * P.YBLOCKSIZE → nodeRef i < nNodes)
    (hnodup : ∀ i, i < P.XBLOCKSIZE * P.YBLOCKSIZE → ∀ j, j < P.XBLOCKSIZE * P.YBLOCKSIZE →
      0 ≤ nodeRef i → nodeRef i = nodeRef j → i = j) :
    CellsOk P nNodes nodeRef (gridCells P) := by
  refine ⟨?_, ?_, ?_⟩
  · exact List.Nodup.product (List.nodup_range _) (List.nodup_range _)
  · intro c hc
    exact hrange _ (cell_slot _ _ c hc).1
  · intro c hc d hd h0 heq
    have hc3 := cell_slot _ _ c hc
    have hd3 := cell_slot _ _ d hd
    have := hnodup _ hc3.1 _ hd3.1 h0 heq
    apply Prod.ext
    · rw [← hc3.2.1, ← hd3.2.1, this]
    · rw [← hc3.2.2, ← hd3.2.2, this]

/-- C3: for a block at state 2 or more whose slot grid holds only node ids below `nNodes` and
no node id twice, `updateColsRows` returns 0 and afterwards every slot `i` that holds a node `n`
has `cols[n] = i mod XBLOCKSIZE` and `rows[n] = i div XBLOCKSIZE`; two slots that hold different
nodes publish different `(column, row)` pairs, so no two nodes share a slot. -/
theorem updateColsRows_publishes (P : Params) (m : Mesh) (b : Block) (cols rows : Int → Int)
    (hflag : 2 ≤ b.blockFlag)
    (hrange : ∀ i, i < P.XBLOCKSIZE * P.YBLOCKSIZE → b.nodeRef i < m.nNodes)
    (hnodup : ∀ i, i < P.XBLOCKSIZE * P.YBLOCKSIZE → ∀ j, j < P.XBLOCKSIZE * P.YBLOCKSIZE →
      0 ≤ b.nodeRef i → b.nodeRef i = b.nodeRef j → i = j) :
    ∃ cols1 rows1, updateColsRows P m b cols rows = .ret 0 (cols1, rows1) ∧
      (∀ i, i < P.XBLOCKSIZE * P.YBLOCKSIZE → 0 ≤ b.nodeRef i →
        cols1 (b.nodeRef i) = (i % P.XBLOCKSIZE : Nat) ∧
        rows1 (b.nodeRef i) = (i / P.XBLOCKSIZE : Nat)) ∧
      (∀ i j, i < P.XBLOCKSIZE * P.YBLOCKSIZE → j < P.XBLOCKSIZE * P.YBLOCKSIZE →
        0 ≤ b.nodeRef i → 0 ≤ b.nodeRef j → b.nodeRef i ≠ b.nodeRef j →
        (cols1 (b.nodeRef i), rows1 (b.nodeRef i)) ≠ (cols1 (b.nodeRef j), rows1 (b.nodeRef j))) := by
  obtain ⟨cols1, rows1, hrun, hin, _⟩ := updateCells_spec P m.nNodes b.nodeRef (gridCells P) cols rows
    (gridCells_ok P m.nNodes b.nodeRef hrange hnodup)
  have hpub : ∀ i, i < P.XBLOCKSIZE * P.YBLOCKSIZE → 0 ≤ b.nodeRef i →
      cols1 (b.nodeRef i) = (i % P.XBLOCKSIZE : Nat) ∧
      rows1 (b.nodeRef i) = (i / P.XBLOCKSIZE : Nat) := by
    intro i hi h0
    obtain ⟨hmem, heq⟩ := slot_cell _ _ i hi
    have := hin _ hmem
    simp only [heq] at this
    exact this h0
  refine ⟨cols1, rows1, ?_, hpub, ?_⟩
  · unfold updateColsRows
    rw [if_neg (by omega)]
    exact hrun
  · intro i j hi hj h0i h0j hne heq
    obtain ⟨hci, hri⟩ := hpub i hi h0i
    obtain ⟨hcj, hrj⟩ := hpub j hj h0j
    rw [hci, hri, hcj, hrj] at heq
    injection heq with h1 h2
    have h1n : i % P.XBLOCKSIZE = j % P.XBLOCKSIZE := by exact_mod_cast h1
    have h2n : i / P.XBLOCKSIZE = j / P.XBLOCKSIZE := by exact_mod_cast h2
    have : i = j := by
      rw [← Nat.div_add_mod i P.XBLOCKSIZE, ← Nat.div_add_mod j P.XBLOCKSIZE, h1n, h2n]
    exact hne (by rw [this])

/-- C3 (witness): block 0 of the ring mesh with the slots 1, 2, 3, 4, 5, 0 filled, on the grid
of 4 by 2 slots. -/
theorem updateColsRows_publishes_witness :
    ∃ cols1 rows1, updateColsRows exParams ringMesh ringBlockMapped (fun _ => 0) (fun _ => 0) =
        .ret 0 (cols1, rows1) ∧
      (∀ i, i < exParams.XBLOCKSIZE * exParams.YBLOCKSIZE → 0 ≤ ringBlockMapped.nodeRef i →
        cols1 (ringBlockMapped.nodeRef i) = (i % exParams.XBLOCKSIZE : Nat) ∧
        rows1 (ringBlockMapped.nodeRef i) = (i / exParams.XBLOCKSIZE : Nat)) ∧
      (∀ i j, i < exParams.XBLOCKSIZE * exParams.YBLOCKSIZE →
        j < exParams.XBLOCKSIZE * exParams.YBLOCKSIZE →
        0 ≤ ringBlockMapped.nodeRef i → 0 ≤ ringBlockMapped.nodeRef j →
        ringBlockMapped.nodeRef i ≠ ringBlockMapped.nodeRef j →
        (cols1 (ringBlockMapped.nodeRef i), rows1 (ringBlockMapped.nodeRef i)) ≠
          (cols1 (ringBlockMapped.nodeRef j), rows1 (ringBlockMapped.nodeRef j))) :=
  updateColsRows_publishes exParams ringMesh ringBlockMapped (fun _ => 0) (fun _ => 0)
    (by decide) (by decide) (by decide)

/-! ## `allocateLoads`: a failed call restores the connectivity array -/

theorem placeBest_array (P : Params) (nLinkedBlocks cnt : Nat) (connArray : Nat → Nat)
    (r sh : Nat) (c1 : Nat → Nat) (h : placeBest P nLinkedBlocks cnt connArray = some (r, sh, c1)) :
    ∃ v, c1 = setAt connArray r v := by
  unfold placeBest at h
  simp only at h
  split at h
  · cases h
  · injection h with h
    injection h with h1 h2
    injection h2 with h2 h3
    exact ⟨_, by rw [← h3, ← h1]⟩

theorem allocateLoadsFrom_failure_restores (P : Params) (nLinkedBlocks : Nat) :
    ∀ (rem cnt : Nat) (loadMaps connArray : Nat → Nat) (s : (Nat → Nat) × (Nat → Nat)),
      allocateLoadsFrom P nLinkedBlocks rem cnt loadMaps connArray = .ret (-1) s →
      s.2 = connArray := by
  intro rem
  induction rem with
  | zero =>
    intro cnt loadMaps connArray s h
    simp only [allocateLoadsFrom] at h
    injection h with _ h2
    rw [← h2]
  | succ rem ih =>
    intro cnt loadMaps connArray s h
    simp only [allocateLoadsFrom] at h
    split at h
    · cases h
    · rename_i r sh c1 hbest
      obtain ⟨v, hv⟩ := placeBest_array P nLinkedBlocks cnt connArray r sh c1 hbest
      split at h
      · injection h with h1 _
        omega
      · split at h
        · rename_i res lm2 c2 hrec
          split at h
          · rename_i hres
            subst hres
            have hc := ih _ _ _ _ hrec
            simp only at hc
            injection h with _ h2
            rw [← h2, hc, hv]
            exact setAt_restore _ _ _
          · split at h
            · injection h with h1 _
              omega
            · injection h with h1 _
              omega
        · cases h
        · cases h
        · cases h

/-- C7: whenever `allocateLoads` returns the failure code -1, whatever the connectivity array
and the starting slot `cnt`, the array it leaves equals the array it was given at every row. -/
theorem allocateLoads_failure_restores (P : Params) (cnt : Nat) (loadMaps : Nat → Nat)
    (nLinkedBlocks : Nat) (connArray : Nat → Nat) (s : (Nat → Nat) × (Nat → Nat))
    (h : allocateLoads P cnt loadMaps nLinkedBlocks connArray = .ret (-1) s) :
    ∀ r, s.2 r = connArray r := by
  intro r
  rw [allocateLoadsFrom_failure_restores P nLinkedBlocks _ _ _ _ s h]

/-! ## `allocateLoads`: the search gives up on solvable arrays -/

theorem testBit_lt_of_lt_two_pow {v b k : Nat} (hv : v < 2 ^ k) (hb : v.testBit b = true) : b < k := by
  by_contra hcon
  have hle : k ≤ b := Nat.le_of_not_lt hcon
  have : v < 2 ^ b := lt_of_lt_of_le hv (Nat.pow_le_pow_right (by decide) hle)
  rw [Nat.testBit_lt_two_pow this] at hb
  cases hb

theorem allocPlace_solves : Solvable allocParams 2 allocConn := by
  refine ⟨allocPlace, ?_, ?_⟩
  · intro k hk
    have hk2 : k < 2 := hk
    interval_cases k <;> decide
  · intro r hr b hb
    interval_cases r
    · have hb4 : b < 2 := testBit_lt_of_lt_two_pow (v := 3) (by decide) hb
      refine ⟨1, by decide, by simp [allocPlace], by simp [allocPlace], ?_⟩
      simp [allocPlace, allocParams]; omega
    · have hb4 : b < 3 := testBit_lt_of_lt_two_pow (v := 5) (by decide) hb
      refine ⟨0, by decide, by simp [allocPlace], by simp [allocPlace], ?_⟩
      simp [allocPlace, allocParams]; omega

/-- C6 (counterexample): the array with the rows `0011` and `0101` is solvable under the
catalogue 4, 2 (width 4 on row 1, width 2 on row 0), yet `allocateLoads(0, ...)` returns -1: it
puts the load of width 4 on row 0, the first row with two bits, and cannot cover row 1 with
the one load of width 2 that is left. -/
theorem allocateLoads_gives_up_on_solvable :
    Solvable allocParams (1 * allocParams.NACCESSROWS) allocConn ∧
      (allocateLoads allocParams 0 (fun _ => 0) 1 allocConn).code = some (-1) :=
  ⟨allocPlace_solves, by decide⟩

/-- C7 (witness): the failing call on the rows `0011`, `0101` leaves both rows as they were. -/
theorem allocateLoads_failure_restores_witness :
    ∃ s, allocateLoads allocParams 0 (fun _ => 0) 1 allocConn = .ret (-1) s ∧
      ∀ r, s.2 r = allocConn r :=
  ⟨_, rfl, allocateLoads_failure_restores allocParams 0 (fun _ => 0) 1 allocConn _ rfl⟩

theorem foldl_invariant {α β : Type} (Q : β → Prop) (f : β → α → β) :
    ∀ (l : List α) (init : β), Q init → (∀ acc x, Q acc → Q (f acc x)) → Q (l.foldl f init) := by
  intro l
  induction l with
  | nil => intro init h _; exact h
  | cons a l ih => intro init h hf; exact ih _ (hf _ _ h) hf

theorem scanCell_row_nonneg (nRowPos loadLength : Nat) (connArray : Nat → Nat) (rowCnt : Nat)
    (acc : Pri) (colCnt : Nat) (h : 0 ≤ acc.row) :
    0 ≤ (scanCell nRowPos loadLength connArray rowCnt acc colCnt).row := by
  unfold scanCell
  simp only
  split
  · simp
  · exact h

theorem scanCell_first (nRowPos loadLength : Nat) (connArray : Nat → Nat) (rowCnt colCnt : Nat) :
    0 ≤ (scanCell nRowPos loadLength connArray rowCnt ⟨-1, -1, -1⟩ colCnt).row := by
  unfold scanCell
  simp only
  split
  · simp
  · rename_i h
    exfalso
    apply h
    have : (0 : Int) ≤ (countBits ((connArray rowCnt >>> (nRowPos - 1 - colCnt)) &&& ((1 <<< loadLength) - 1)) loadLength : Nat) :=
      Int.natCast_nonneg _
    omega

theorem scanPlacements_row_nonneg (nRows nRowPos loadLength : Nat) (connArray : Nat → Nat)
    (hr : 0 < nRows) (hc : 0 < nRowPos) :
    0 ≤ (scanPlacements nRows nRowPos loadLength connArray).row := by
  obtain ⟨k, rfl⟩ : ∃ k, nRows = k + 1 := ⟨nRows - 1, by omega⟩
  obtain ⟨j, rfl⟩ : ∃ j, nRowPos = j + 1 := ⟨nRowPos - 1, by omega⟩
  unfold scanPlacements
  rw [List.range_succ_eq_map (n := k), List.foldl_cons]
  refine foldl_invariant (fun acc : Pri => 0 ≤ acc.row) _ _ _ ?_ ?_
  · rw [List.range_succ_eq_map, List.foldl_cons]
    refine foldl_invariant (fun acc : Pri => 0 ≤ acc.row) _ _ _ ?_ ?_
    · exact scanCell_first _ _ _ _ _
    · intro acc x h
      exact scanCell_row_nonneg _ _ _ _ _ _ h
  · intro acc x h
    refine foldl_invariant (fun acc : Pri => 0 ≤ acc.row) _ _ _ h ?_
    intro acc y h2
    exact scanCell_row_nonneg _ _ _ _ _ _ h2

theorem allZeros_iff (nRows : Nat) (connArray : Nat → Nat) :
    allZeros nRows connArray = true ↔ ∀ r, r < nRows → connArray r = 0 := by
  simp [allZeros, List.all_eq_true]

theorem placeBest_some (P : Params) (nLinkedBlocks cnt : Nat) (connArray : Nat → Nat)
    (hrows : 0 < nLinkedBlocks * P.NACCESSROWS) (hw : P.loadLengths cnt ≤ P.NACCESSCOLS) :
    ∃ r sh v, placeBest P nLinkedBlocks cnt connArray = some (r, sh, setAt connArray r v) := by
  have hpos : 0 < ((P.NACCESSCOLS : Int) - (P.loadLengths cnt : Int) + 1).toNat := by
    have : (P.loadLengths cnt : Int) ≤ (P.NACCESSCOLS : Int) := by exact_mod_cast hw
    omega
  have hrow := scanPlacements_row_nonneg (nLinkedBlocks * P.NACCESSROWS) _ (P.loadLengths cnt)
    connArray hrows hpos
  unfold placeBest
  simp only
  rw [if_neg (by omega)]
  exact ⟨_, _, _, rfl⟩

theorem allocateLoadsFrom_total (P : Params) (nLinkedBlocks : Nat)
    (hrows : 0 < nLinkedBlocks * P.NACCESSROWS) :
    ∀ (rem cnt : Nat) (loadMaps connArray : Nat → Nat),
      (∀ k, cnt ≤ k → k < cnt + rem → P.loadLengths k ≤ P.NACCESSCOLS) →
      (∃ s, allocateLoadsFrom P nLinkedBlocks rem cnt loadMaps connArray = .ret 0 s ∧
              ∀ r, r < nLinkedBlocks * P.NACCESSROWS → s.2 r = 0) ∨
      (∃ s, allocateLoadsFrom P nLinkedBlocks rem cnt loadMaps connArray = .ret (-1) s ∧
              s.2 = connArray) := by
  intro rem
  induction rem with
  | zero =>
    intro cnt loadMaps connArray _
    exact Or.inr ⟨(loadMaps, connArray), by simp [allocateLoadsFrom], rfl⟩
  | succ rem ih =>
    intro cnt loadMaps connArray hw
    obtain ⟨r, sh, v, hbest⟩ := placeBest_some P nLinkedBlocks cnt connArray hrows
      (hw cnt (le_refl _) (by omega))
    simp only [allocateLoadsFrom, hbest]
    split
    · rename_i hz
      exact Or.inl ⟨_, rfl, (allZeros_iff _ _).1 hz⟩
    · rcases ih (cnt + 1) loadMaps (setAt connArray r v) (fun k h1 h2 => hw k (by omega) (by omega))
        with ⟨⟨lm2, c2⟩, h0, hz⟩ | ⟨⟨lm2, c2⟩, h1, hc⟩
      · rw [h0]
        exact Or.inl ⟨(setAt lm2 cnt (r * P.NACCESSCOLS + sh), c2), by simp, hz⟩
      · rw [h1]
        refine Or.inr ⟨(lm2, setAt c2 r (connArray r)), by simp, ?_⟩
        simp only at hc ⊢
        rw [hc]
        exact setAt_restore _ _ _

/-- C6 (amended): for every connectivity array with at least one row, and a catalogue whose
widths fit into a row, `allocateLoads(0, ...)` terminates with 0 or -1; when it returns 0 every
row of the array is 0, and when it returns -1 the array is as it was before the call. A solvable
array is not always solved: every slot is put at the first placement with the most bits, and no
other placement is tried. -/
theorem allocateLoads_terminates (P : Params) (loadMaps : Nat → Nat) (nLinkedBlocks : Nat)
    (connArray : Nat → Nat) (hrows : 0 < nLinkedBlocks * P.NACCESSROWS)
    (hw : ∀ k, k < P.NBLOCKLINKS → P.loadLengths k ≤ P.NACCESSCOLS) :
    (∃ s, allocateLoads P 0 loadMaps nLinkedBlocks connArray = .ret 0 s ∧
            ∀ r, r < nLinkedBlocks * P.NACCESSROWS → s.2 r = 0) ∨
    (∃ s, allocateLoads P 0 loadMaps nLinkedBlocks connArray = .ret (-1) s ∧ s.2 = connArray) :=
  allocateLoadsFrom_total P nLinkedBlocks hrows _ 0 loadMaps connArray
    (fun k _ h2 => hw k (by omega))

/-- C6 (witness): on the rows `0011`, `0101` with the catalogue 4, 2 the call terminates (here
with -1 and the array restored). -/
theorem allocateLoads_terminates_witness :
    (∃ s, allocateLoads allocParams 0 (fun _ => 0) 1 allocConn = .ret 0 s ∧
            ∀ r, r < 1 * allocParams.NACCESSROWS → s.2 r = 0) ∨
    (∃ s, allocateLoads allocParams 0 (fun _ => 0) 1 allocConn = .ret (-1) s ∧ s.2 = allocConn) :=
  allocateLoads_terminates allocParams (fun _ => 0) 1 allocConn (by decide) (by decide)

/-! ## `memArrange`: the rotation misses a run that wraps around the end of the list -/

/-- C8 (code evaluated at the failing input): in the ring mesh block 1 is linked from the
three boundary nodes 5, 1, 2 and block 2 from the two nodes 3, 4, and the flood fill gives the
order 1, 2, 3, 4, 5, in which the nodes linked to block 1 form one cyclic run that starts at
node 5. `memArrange` returns 0 and leaves the order as it is: slot 0 holds node 1 and the last
boundary slot holds node 5, which is linked to block 1 although node 3 is not. The test on the
last node reads `nodeBlocks[linkNode-1]` (block 0 for its links 4, 1, 6) and so does not see
that node 5 is linked to block 1. -/
theorem memArrange_rotation_misses_wrapped_run :
    ∃ flags b1, memArrange exParams ringMesh (fun _ => 0) (fun _ => 1) ringBlock = .ret 0 (flags, b1) ∧
      (List.range 5).map b1.nodeRef = [1, 2, 3, 4, 5] ∧
      surrCount ringMesh [1, 2, 3, 4, 5] 1 = 3 ∧ surrCount ringMesh [1, 2, 3, 4, 5] 2 = 2 ∧
      (List.map (linkedTo ringMesh 1) [1, 2, 3, 4, 5]) = [true, true, false, false, true] ∧
      foundEnd ringMesh 1 5 = false :=
  ⟨_, _, rfl, by decide, by decide, by decide, by decide, by decide⟩

/-! ## `linkArrange`: the load table after a "needs split" return -/

theorem testBit_or_one_shiftLeft (x k j : Nat) :
    (x ||| (1 <<< k)).testBit j = (x.testBit j || decide (k = j)) := by
  rw [Nat.testBit_or, Nat.one_shiftLeft, Nat.testBit_two_pow]

theorem buildConn_bits (P : Params) (cols rows : Int → Int) (nLinkedBlocks : Nat) :
    ∀ (pairs : List (Nat × Int)) (conn0 conn : Nat → Nat),
      buildConn P cols rows nLinkedBlocks pairs conn0 = .ret 0 conn →
      ∀ R bit, (conn R).testBit bit = true ↔
        ((conn0 R).testBit bit = true ∨
          ∃ pr ∈ pairs, R = (rows pr.2 + pr.1 * P.NACCESSROWS).toNat ∧ bit = (cols pr.2).toNat >>> 3) := by
  intro pairs
  induction pairs with
  | nil =>
    intro conn0 conn h R bit
    simp only [buildConn] at h
    injection h with _ h2
    subst h2
    simp
  | cons pr pairs ih =>
    intro conn0 conn h R bit
    obtain ⟨cnt, p⟩ := pr
    simp only [buildConn] at h
    split at h
    · injection h with h1 _; omega
    · split at h
      · cases h
      · rw [ih _ _ h R bit]
        by_cases hR : R = (rows p + cnt * P.NACCESSROWS).toNat
        · subst hR
          rw [setAt_same, testBit_or_one_shiftLeft]
          simp only [Bool.or_eq_true, decide_eq_true_eq, List.mem_cons, exists_eq_or_imp, true_and]
          constructor
          · rintro ((h1 | h2) | h3)
            · exact Or.inl h1
            · exact Or.inr (Or.inl h2.symm)
            · exact Or.inr (Or.inr h3)
          · rintro (h1 | h2 | h3)
            · exact Or.inl (Or.inl h1)
            · exact Or.inl (Or.inr h2.symm)
            · exact Or.inr h3
        · rw [setAt_other _ _ _ _ hR]
          simp only [List.mem_cons, exists_eq_or_imp]
          constructor
          · rintro (h1 | h3)
            · exact Or.inl h1
            · exact Or.inr (Or.inr h3)
          · rintro (h1 | h2 | h3)
            · exact Or.inl h1
            · exact absurd h2.1 hR
            · exact Or.inr h3

theorem mem_neededPairs : ∀ (lbs : List (Int × List Int)) (k i : Nat) (p : Int),
    (i, p) ∈ neededPairs k lbs ↔ ∃ j q, lbs.get? j = some q ∧ i = k + j ∧ p ∈ q.2 := by
  intro lbs
  induction lbs with
  | nil => intro k i p; simp [neededPairs]
  | cons q0 lbs ih =>
    intro k i p
    simp only [neededPairs, List.mem_append, List.mem_map, Prod.mk.injEq, ih]
    constructor
    · rintro (⟨a, ha, rfl, rfl⟩ | ⟨j, q, hq, rfl, hp⟩)
      · exact ⟨0, q0, rfl, rfl, ha⟩
      · exact ⟨j + 1, q, by simpa using hq, by omega, hp⟩
    · rintro ⟨j, q, hq, rfl, hp⟩
      cases j with
      | zero =>
        simp only [List.get?_cons_zero, Option.some.injEq] at hq
        subst hq
        exact Or.inl ⟨p, hp, rfl, rfl⟩
      | succ j =>
        exact Or.inr ⟨j, q, by simpa using hq, by omega, hp⟩

/-- C10 (counterexample): node 6 of the ring mesh is needed from the neighbour at index 0 and
sits in row 0, column 4 of its block. `linkArrange` sets bit `4 >> 3 = 0` of `connArray[0]`, and
the bit at position `4 >> 2 = 1` stays clear. -/
theorem linkBitmap_not_group_of_four :
    ∃ conn, linkBitmap wideParams ringMeshMapped wideCols ringRows ringBlockMapped = .ret 0 conn ∧
      (gather ringMeshMapped ringBlockMapped).2.get? 0 = some (1, [7, 8, 6]) ∧
      wideCols 6 = 4 ∧ (ringRows 6 + (0 : Nat) * wideParams.NACCESSROWS).toNat = 0 ∧
      (conn 0).testBit ((wideCols 6).toNat >>> 2) = false ∧ (conn 0).testBit 0 = true :=
  ⟨_, rfl, by decide, by decide, by decide, by decide, by decide⟩

/-- C10 (amended): when the construction of the bitmap runs to its end, for every needed node
`p` (a node in the list of the neighbour at index `i` of the gathered neighbour list) the bit at
position `cols[p] >> 3`, the group of 8 columns of the node, is set in
`connArray[rows[p] + i*NACCESSROWS]`, and no other bit of the bitmap is set. -/
theorem linkBitmap_bits (P : Params) (m : Mesh) (cols rows : Int → Int) (b : Block)
    (conn : Nat → Nat) (h : linkBitmap P m cols rows b = .ret 0 conn) :
    (∀ i q, (gather m b).2.get? i = some q → ∀ p ∈ q.2,
        (conn (rows p + i * P.NACCESSROWS).toNat).testBit ((cols p).toNat >>> 3) = true) ∧
    (∀ R bit, (conn R).testBit bit = true →
        ∃ i q p, (gather m b).2.get? i = some q ∧ p ∈ q.2 ∧
          R = (rows p + i * P.NACCESSROWS).toNat ∧ bit = (cols p).toNat >>> 3) := by
  have hb := buildConn_bits P cols rows _ _ _ _ h
  constructor
  · intro i q hq p hp
    rw [hb]
    refine Or.inr ⟨(i, p), ?_, rfl, rfl⟩
    rw [mem_neededPairs]
    exact ⟨i, q, hq, by omega, hp⟩
  · intro R bit hset
    rcases (hb R bit).1 hset with h0 | ⟨⟨i, p⟩, hmem, hR, hbit⟩
    · simp at h0
    · rw [mem_neededPairs] at hmem
      obtain ⟨j, q, hq, hij, hp⟩ := hmem
      have : i = j := by omega
      subst this
      exact ⟨i, q, p, hq, hp, hR, hbit⟩

/-- C10 (witness): the bitmap of block 0 of the ring mesh on the grid of 32 by 16 slots. -/
theorem linkBitmap_bits_witness :
    ∃ conn, linkBitmap wideParams ringMeshMapped wideCols ringRows ringBlockMapped = .ret 0 conn ∧
    (∀ i q, (gather ringMeshMapped ringBlockMapped).2.get? i = some q → ∀ p ∈ q.2,
        (conn (ringRows p + i * wideParams.NACCESSROWS).toNat).testBit ((wideCols p).toNat >>> 3) = true) ∧
    (∀ R bit, (conn R).testBit bit = true →
        ∃ i q p, (gather ringMeshMapped ringBlockMapped).2.get? i = some q ∧ p ∈ q.2 ∧
          R = (ringRows p + i * wideParams.NACCESSROWS).toNat ∧ bit = (wideCols p).toNat >>> 3) :=
  ⟨_, rfl, linkBitmap_bits wideParams ringMeshMapped wideCols ringRows ringBlockMapped _ rfl⟩

/-! ## The flood fill of `memArrange` places every boundary node once -/

theorem visitLinks_core (m : Mesh) (blockNum : Int) (boundNodes : List Int) (filled : List Int) :
    ∀ (links : List Int) (flags : Int → Int) (toCheck : List Int) (last : Int),
      FillCore m blockNum boundNodes flags (filled ++ toCheck) →
      FillCore m blockNum boundNodes (visitLinks m blockNum links (flags, toCheck, last)).1
          (filled ++ (visitLinks m blockNum links (flags, toCheck, last)).2.1) ∧
        (∀ n, (visitLinks m blockNum links (flags, toCheck, last)).1 n = 2 → flags n = 2) := by
  intro links
  induction links with
  | nil =>
    intro flags toCheck last h
    exact ⟨h, fun _ h => h⟩
  | cons linkNode links ih =>
    intro flags toCheck last h
    simp only [visitLinks]
    split
    · rename_i hc
      obtain ⟨hnd, hmem, hfl, hown⟩ := h
      have hnew : linkNode ∉ filled ++ toCheck := fun hin => hfl linkNode hin hc.2
      have hcore : FillCore m blockNum boundNodes (setAtI flags linkNode 3)
          (filled ++ (toCheck ++ [linkNode])) := by
        rw [← List.append_assoc]
        refine ⟨?_, ?_, ?_, ?_⟩
        · rw [List.nodup_append]
          refine ⟨hnd, List.nodup_singleton _, ?_⟩
          intro a ha hb
          rw [List.mem_singleton] at hb
          subst hb
          exact hnew ha
        · intro n hn
          rcases List.mem_append.1 hn with h1 | h1
          · exact hmem n h1
          · rw [List.mem_singleton] at h1
            subst h1
            exact hown n hc.1 hc.2
        · intro n hn
          by_cases hnl : n = linkNode
          · subst hnl
            rw [setAtI_same]
            decide
          · rw [setAtI_other _ _ _ _ hnl]
            rcases List.mem_append.1 hn with h1 | h1
            · exact hfl n h1
            · rw [List.mem_singleton] at h1
              exact absurd h1 hnl
        · intro n hb hf
          by_cases hnl : n = linkNode
          · subst hnl
            rw [setAtI_same] at hf
            cases hf
          · rw [setAtI_other _ _ _ _ hnl] at hf
            exact hown n hb hf
      have := ih (setAtI flags linkNode 3) (toCheck ++ [linkNode]) last hcore
      refine ⟨this.1, ?_⟩
      intro n hn
      have h2 := this.2 n hn
      by_cases hnl : n = linkNode
      · subst hnl
        rw [setAtI_same] at h2
        cases h2
      · rw [setAtI_other _ _ _ _ hnl] at h2
        exact h2
    · split
      · exact ih flags toCheck blockNum h
      · exact ih flags toCheck last h

theorem finishRound_core (m : Mesh) (blockNum : Int) (boundNodes : List Int) (doNode : Int)
    (flags : Int → Int) (toCheck filled bothBounds : List Int) (last : Int)
    (h : FillCore m blockNum boundNodes flags ((filled ++ [doNode]) ++ toCheck)) :
    FillCore m blockNum boundNodes
      (finishRound m blockNum doNode flags toCheck filled bothBounds last).flags
      ((finishRound m blockNum doNode flags toCheck filled bothBounds last).filledBound ++
        (finishRound m blockNum doNode flags toCheck filled bothBounds last).toCheck) ∧
    (finishRound m blockNum doNode flags toCheck filled bothBounds last).filledBound =
      filled ++ [doNode] ∧
    (finishRound m blockNum doNode flags toCheck filled bothBounds last).bothBounds = bothBounds := by
  have hv := visitLinks_core m blockNum boundNodes (filled ++ [doNode]) (linksOf m doNode)
    flags toCheck last h
  unfold finishRound
  generalize visitLinks m blockNum (linksOf m doNode) (flags, toCheck, last) = r at hv
  obtain ⟨f1, tc1, l1⟩ := r
  simp only at hv ⊢
  obtain ⟨⟨hnd, hmem, hfl, hown⟩, _⟩ := hv
  refine ⟨⟨hnd, hmem, ?_, ?_⟩, trivial, trivial⟩
  · intro n hn
    by_cases hnd2 : n = doNode
    · subst hnd2
      rw [setAtI_same]
      decide
    · rw [setAtI_other _ _ _ _ hnd2]
      exact hfl n hn
  · intro n hb hf
    by_cases hnd2 : n = doNode
    · subst hnd2
      rw [setAtI_same] at hf
      cases hf
    · rw [setAtI_other _ _ _ _ hnd2] at hf
      exact hown n hb hf

theorem Marked.refl (orig : Int → Int) : Marked orig orig := fun _ => Or.inl rfl

theorem Marked.set {orig f : Int → Int} (h : Marked orig f) (p : Int) :
    Marked orig (setAtI f p 3) := by
  intro n
  by_cases hn : n = p
  · subst hn
    rw [setAtI_same]
    exact Or.inr rfl
  · rw [setAtI_other _ _ _ _ hn]
    exact h n

theorem Marked.two {orig f : Int → Int} (h : Marked orig f) {n : Int} (hn : f n = 2) :
    orig n = 2 := by
  rcases h n with h1 | h1
  · rw [← h1]; exact hn
  · rw [h1] at hn; cases hn

theorem scanBoth_spec (m : Mesh) (last : Int) (orig : Int → Int) :
    ∀ (rest kept : List Int) (flags : Int → Int), Marked orig flags → (∀ n ∈ kept, orig n = 2) →
      Marked orig (scanBoth m last kept rest flags).2.2 ∧
      (∀ n ∈ (scanBoth m last kept rest flags).2.1, n ∈ kept ∨ n ∈ rest) ∧
      ((scanBoth m last kept rest flags).1 ≠ -1 →
        (scanBoth m last kept rest flags).1 ∈ rest ∧ orig (scanBoth m last kept rest flags).1 = 2 ∧
        (scanBoth m last kept rest flags).2.2 (scanBoth m last kept rest flags).1 = 3) ∧
      ((scanBoth m last kept rest flags).1 = -1 →
        ∀ n ∈ (scanBoth m last kept rest flags).2.1, orig n = 2) := by
  intro rest
  induction rest with
  | nil =>
    intro kept flags hm hk
    simp only [scanBoth]
    exact ⟨hm, fun n hn => Or.inl hn, fun h => absurd rfl h, fun _ => hk⟩
  | cons p rest ih =>
    intro kept flags hm hk
    simp only [scanBoth]
    split
    · have := ih kept flags hm hk
      exact ⟨this.1, fun n hn => (this.2.1 n hn).imp id (List.mem_cons_of_mem _),
        fun h => ⟨List.mem_cons_of_mem _ (this.2.2.1 h).1, (this.2.2.1 h).2⟩, this.2.2.2⟩
    · rename_i hp2
      have hp : flags p = 2 := by simpa using hp2
      split
      · split
        · rename_i hne
          simp only
          refine ⟨hm.set p, ?_, ?_, ?_⟩
          · intro n hn
            rcases List.mem_append.1 hn with h1 | h1
            · exact Or.inl h1
            · exact Or.inr (List.mem_cons_of_mem _ h1)
          · intro _
            exact ⟨List.mem_cons_self _ _, hm.two hp, setAtI_same _ _ _⟩
          · intro h
            exact absurd h hne
        · have := ih kept (setAtI flags p 3) (hm.set p) hk
          exact ⟨this.1, fun n hn => (this.2.1 n hn).imp id (List.mem_cons_of_mem _),
            fun h => ⟨List.mem_cons_of_mem _ (this.2.2.1 h).1, (this.2.2.1 h).2⟩, this.2.2.2⟩
      · have hk2 : ∀ n ∈ kept ++ [p], orig n = 2 := by
          intro n hn
          rcases List.mem_append.1 hn with h1 | h1
          · exact hk n h1
          · rw [List.mem_singleton] at h1
            subst h1
            exact hm.two hp
        have := ih (kept ++ [p]) flags hm hk2
        refine ⟨this.1, ?_, ?_, this.2.2.2⟩
        · intro n hn
          rcases this.2.1 n hn with h1 | h1
          · rcases List.mem_append.1 h1 with h2 | h2
            · exact Or.inl h2
            · rw [List.mem_singleton] at h2
              subst h2
              exact Or.inr (List.mem_cons_self _ _)
          · exact Or.inr (List.mem_cons_of_mem _ h1)
        · intro h
          exact ⟨List.mem_cons_of_mem _ (this.2.2.1 h).1, (this.2.2.1 h).2⟩

theorem seedLinked_spec (m : Mesh) (last : Int) (orig : Int → Int) :
    ∀ (nodes : List Int) (flags : Int → Int), Marked orig flags →
      Marked orig (seedLinked m last nodes flags).2 ∧
      ((seedLinked m last nodes flags).1 ≠ -1 →
        (seedLinked m last nodes flags).1 ∈ nodes ∧ orig (seedLinked m last nodes flags).1 = 2 ∧
        (seedLinked m last nodes flags).2 (seedLinked m last nodes flags).1 = 3) := by
  intro nodes
  induction nodes with
  | nil =>
    intro flags hm
    simp only [seedLinked]
    exact ⟨hm, fun h => absurd rfl h⟩
  | cons p nodes ih =>
    intro flags hm
    simp only [seedLinked]
    split
    · rename_i hc
      split
      · simp only
        exact ⟨hm.set p, fun _ => ⟨List.mem_cons_self _ _, hm.two hc.1, setAtI_same _ _ _⟩⟩
      · have := ih (setAtI flags p 3) (hm.set p)
        exact ⟨this.1, fun h => ⟨List.mem_cons_of_mem _ (this.2 h).1, (this.2 h).2⟩⟩
    · have := ih flags hm
      exact ⟨this.1, fun h => ⟨List.mem_cons_of_mem _ (this.2 h).1, (this.2 h).2⟩⟩

theorem seedAny_spec (orig : Int → Int) (nodes : List Int) (flags : Int → Int)
    (hm : Marked orig flags) :
    Marked orig (seedAny nodes flags).2 ∧
    ((seedAny nodes flags).1 ≠ -1 →
      (seedAny nodes flags).1 ∈ nodes ∧ orig (seedAny nodes flags).1 = 2 ∧
      (seedAny nodes flags).2 (seedAny nodes flags).1 = 3) := by
  unfold seedAny
  split
  · rename_i p hp
    simp only
    have hmem := List.mem_of_find?_eq_some hp
    have hpf := List.find?_some hp
    simp only [decide_eq_true_eq] at hpf
    exact ⟨hm.set p, fun _ => ⟨hmem, hm.two hpf, setAtI_same _ _ _⟩⟩
  · exact ⟨hm, fun h => absurd rfl h⟩

theorem reseed_spec (m : Mesh) (boundNodes : List Int) (s : FillState) (d : Int)
    (bb : List Int) (f : Int → Int) (hbb : ∀ n ∈ s.bothBounds, n ∈ boundNodes)
    (h : reseed m boundNodes s = .node d bb f) :
    Marked s.flags f ∧ d ∈ boundNodes ∧ s.flags d = 2 ∧ f d = 3 ∧ ∀ n ∈ bb, n ∈ boundNodes := by
  unfold reseed at h
  split at h
  · have hs := scanBoth_spec m s.lastBlockLinked s.flags s.bothBounds [] s.flags
      (Marked.refl _) (by simp)
    generalize scanBoth m s.lastBlockLinked [] s.bothBounds s.flags = r at h hs
    obtain ⟨d0, bb0, f0⟩ := r
    simp only at h hs
    obtain ⟨hm, hsub, hne, heq⟩ := hs
    have hsub2 : ∀ n ∈ bb0, n ∈ boundNodes := by
      intro n hn
      rcases hsub n hn with h1 | h1
      · simp at h1
      · exact hbb n h1
    split at h
    · rename_i hd0
      split at h
      · cases h
      · rename_i front rest
        injection h with h1 h2 h3
        subst h1 h2 h3
        have hfront := heq hd0 front (List.mem_cons_self _ _)
        exact ⟨hm.set front, hsub2 front (List.mem_cons_self _ _), hfront, setAtI_same _ _ _,
          fun n hn => hsub2 n (List.mem_cons_of_mem _ hn)⟩
    · rename_i hd0
      injection h with h1 h2 h3
      subst h1 h2 h3
      obtain ⟨h4, h5, h6⟩ := hne hd0
      exact ⟨hm, hbb _ h4, h5, h6, hsub2⟩
  · have hs := seedLinked_spec m s.lastBlockLinked s.flags boundNodes s.flags (Marked.refl _)
    generalize seedLinked m s.lastBlockLinked boundNodes s.flags = r at h hs
    obtain ⟨d0, f0⟩ := r
    simp only at h hs
    split at h
    · have hs2 := seedAny_spec s.flags boundNodes f0 hs.1
      generalize seedAny boundNodes f0 = r2 at h hs2
      obtain ⟨d2, f2⟩ := r2
      simp only at h hs2
      split at h
      · cases h
      · rename_i hd2
        injection h with h1 h2 h3
        subst h1 h2 h3
        obtain ⟨h4, h5, h6⟩ := hs2.2 hd2
        exact ⟨hs2.1, h4, h5, h6, hbb⟩
    · rename_i hd0
      injection h with h1 h2 h3
      subst h1 h2 h3
      obtain ⟨h4, h5, h6⟩ := hs.2 hd0
      exact ⟨hs.1, h4, h5, h6, hbb⟩

theorem fillStep_next (m : Mesh) (blockNum : Int) (boundNodes : List Int) (s s1 : FillState)
    (hinv : FillInv m blockNum boundNodes s)
    (h : fillStep m blockNum boundNodes s = .next s1) :
    FillInv m blockNum boundNodes s1 ∧ s1.filledBound.length = s.filledBound.length + 1 := by
  unfold fillStep at h
  split at h
  · rename_i htc
    split at h
    · cases h
    · split at h
      · rename_i d bb f hseed
        injection h with h
        obtain ⟨hm, hd, hd2, hd3, hbb⟩ := reseed_spec m boundNodes s d bb f hinv.2 hseed
        obtain ⟨hnd, hmem, hfl, hown⟩ := hinv.1
        rw [htc, List.append_nil] at hnd hmem hfl
        have hcore : FillCore m blockNum boundNodes f ((s.filledBound ++ [d]) ++ []) := by
          rw [List.append_nil]
          refine ⟨?_, ?_, ?_, ?_⟩
          · rw [List.nodup_append]
            refine ⟨hnd, List.nodup_singleton _, ?_⟩
            intro a ha hb
            rw [List.mem_singleton] at hb
            subst hb
            exact hfl a ha hd2
          · intro n hn
            rcases List.mem_append.1 hn with h1 | h1
            · exact hmem n h1
            · rw [List.mem_singleton] at h1
              subst h1
              exact hd
          · intro n hn
            rcases List.mem_append.1 hn with h1 | h1
            · intro hf
              exact hfl n h1 (hm.two hf)
            · rw [List.mem_singleton] at h1
              subst h1
              rw [hd3]
              decide
          · intro n hb hf
            exact hown n hb (hm.two hf)
        have := finishRound_core m blockNum boundNodes d f [] s.filledBound bb s.lastBlockLinked hcore
        subst h
        refine ⟨⟨this.1, ?_⟩, ?_⟩
        · rw [this.2.2]
          exact hbb
        · rw [this.2.1]
          simp
      · cases h
      · cases h
  · rename_i d tc htc
    injection h with h
    have hcore : FillCore m blockNum boundNodes s.flags ((s.filledBound ++ [d]) ++ tc) := by
      have := hinv.1
      rw [htc] at this
      simpa using this
    have := finishRound_core m blockNum boundNodes d s.flags tc s.filledBound s.bothBounds
      s.lastBlockLinked hcore
    subst h
    refine ⟨⟨this.1, ?_⟩, ?_⟩
    · rw [this.2.2]
      exact hinv.2
    · rw [this.2.1]
      simp

theorem fillStep_done (m : Mesh) (blockNum : Int) (boundNodes : List Int) (s s1 : FillState)
    (h : fillStep m blockNum boundNodes s = .done s1) :
    s1 = s ∧ s.filledBound.length = boundNodes.length := by
  unfold fillStep at h
  split at h
  · split at h
    · rename_i hlen
      injection h with h
      exact ⟨h.symm, hlen⟩
    · split at h <;> cases h
  · cases h

theorem fillLoop_inv (m : Mesh) (blockNum : Int) (boundNodes : List Int) :
    ∀ (fuel : Nat) (s s1 : FillState) (c : Int), FillInv m blockNum boundNodes s →
      forLoop (fillStep m blockNum boundNodes) fuel s = .ret c s1 →
      FillInv m blockNum boundNodes s1 ∧
      (s1.filledBound.length = boundNodes.length ∨
        s1.filledBound.length = s.filledBound.length + fuel) := by
  intro fuel
  induction fuel with
  | zero =>
    intro s s1 c hinv h
    simp only [forLoop] at h
    injection h with _ h
    subst h
    exact ⟨hinv, Or.inr rfl⟩
  | succ fuel ih =>
    intro s s1 c hinv h
    simp only [forLoop] at h
    split at h
    · rename_i s2 hstep
      have hn := fillStep_next m blockNum boundNodes s s2 hinv hstep
      have := ih s2 s1 c hn.1 h
      refine ⟨this.1, ?_⟩
      rcases this.2 with h1 | h1
      · exact Or.inl h1
      · right
        rw [h1, hn.2]
        omega
    · rename_i s2 hstep
      have hd := fillStep_done m blockNum boundNodes s s2 hstep
      injection h with _ h
      subst h
      rw [hd.1]
      exact ⟨hinv, Or.inl hd.2⟩
    · cases h
    · cases h

theorem pickStart_spec (m : Mesh) (blockNum : Int) (nodeBounds : Int → Int)
    (boundNodes : List Int) :
    ((pickStart m blockNum nodeBounds boundNodes).1 = -1 ∨
      (pickStart m blockNum nodeBounds boundNodes).1 ∈ boundNodes) ∧
    ∀ n ∈ (pickStart m blockNum nodeBounds boundNodes).2, n ∈ boundNodes := by
  unfold pickStart
  refine foldl_invariant_mem
    (fun acc : Int × List Int => (acc.1 = -1 ∨ acc.1 ∈ boundNodes) ∧ ∀ n ∈ acc.2, n ∈ boundNodes)
    _ boundNodes (-1, []) ⟨Or.inl rfl, by simp⟩ ?_
  intro acc p hp hacc
  simp only
  refine ⟨?_, ?_⟩
  · split
    · exact Or.inr hp
    · exact hacc.1
  · split
    · intro n hn
      rcases List.mem_append.1 hn with h1 | h1
      · exact hacc.2 n h1
      · rw [List.mem_singleton] at h1
        subst h1
        exact hp
    · exact hacc.2

theorem startOf_spec (boundNodes : List Int) (ps : Int × List Int) (startNode : Int)
    (bb : List Int) (h1 : ps.1 = -1 ∨ ps.1 ∈ boundNodes) (h2 : ∀ n ∈ ps.2, n ∈ boundNodes)
    (h : startOf boundNodes ps = some (startNode, bb)) :
    startNode ∈ boundNodes ∧ ∀ n ∈ bb, n ∈ boundNodes := by
  obtain ⟨p1, p2⟩ := ps
  simp only at h1 h2
  unfold startOf at h
  cases p2 with
  | nil =>
    simp only at h
    split at h
    · rename_i hp
      cases boundNodes with
      | nil => cases h
      | cons front rest =>
        simp only [Option.some.injEq, Prod.mk.injEq] at h
        obtain ⟨rfl, rfl⟩ := h
        exact ⟨List.mem_cons_self _ _, by simp⟩
    · rename_i hp
      simp only [Option.some.injEq, Prod.mk.injEq] at h
      obtain ⟨rfl, rfl⟩ := h
      rcases h1 with h1 | h1
      · exact absurd h1 hp
      · exact ⟨h1, by simp⟩
  | cons f r =>
    simp only at h
    split at h
    · rename_i hp
      cases boundNodes with
      | nil => cases h
      | cons front rest =>
        simp only [Option.some.injEq, Prod.mk.injEq] at h
        obtain ⟨rfl, rfl⟩ := h
        exact ⟨List.mem_cons_self _ _, fun n hn => h2 n (List.mem_cons_of_mem _ hn)⟩
    · simp only [Option.some.injEq, Prod.mk.injEq] at h
      obtain ⟨rfl, rfl⟩ := h
      exact ⟨h2 _ (List.mem_cons_self _ _), fun n hn => h2 n (List.mem_cons_of_mem _ hn)⟩

theorem initFill_inv (m : Mesh) (blockNum : Int) (boundNodes : List Int) (startNode : Int)
    (bb : List Int) (hstart : startNode ∈ boundNodes) (hbb : ∀ n ∈ bb, n ∈ boundNodes)
    (hown : ∀ n, m.nodeBlocks n = blockNum → m.flags n = 2 → n ∈ boundNodes) :
    FillInv m blockNum boundNodes (initFill m blockNum startNode bb) ∧
    (initFill m blockNum startNode bb).filledBound = [startNode] := by
  unfold initFill firstCheck
  split
  · rename_i tc f1 hfc
    split at hfc
    · rename_i linkNode hfind
      injection hfc with hfc1 hfc2
      subst hfc1 hfc2
      have hp := List.find?_some hfind
      simp only [decide_eq_true_eq] at hp
      have hne : linkNode ≠ startNode := by
        intro heq
        rw [heq, setAtI_same] at hp
        have := hp.2
        omega
      have hl2 : m.flags linkNode = 2 := by
        have := hp.2
        rwa [setAtI_other _ _ _ _ hne] at this
      refine ⟨⟨⟨?_, ?_, ?_, ?_⟩, hbb⟩, rfl⟩
      · simp only [List.singleton_append, List.nodup_cons, List.mem_singleton, List.not_mem_nil,
          not_false_eq_true, List.nodup_nil, and_self, and_true]
        exact fun h => hne h.symm
      · intro n hn
        simp only [List.singleton_append, List.mem_cons, List.mem_singleton, List.not_mem_nil,
          or_false] at hn
        rcases hn with rfl | rfl
        · exact hstart
        · exact hown _ hp.1 hl2
      · intro n hn
        simp only [List.singleton_append, List.mem_cons, List.mem_singleton, List.not_mem_nil,
          or_false] at hn
        simp only
        rcases hn with rfl | rfl
        · rw [setAtI_other _ _ _ _ (Ne.symm hne), setAtI_same]
          decide
        · rw [setAtI_same]
          decide
      · intro n hb hf
        simp only at hf
        by_cases h1 : n = linkNode
        · subst h1
          rw [setAtI_same] at hf
          cases hf
        · rw [setAtI_other _ _ _ _ h1] at hf
          by_cases h2 : n = startNode
          · subst h2
            rw [setAtI_same] at hf
            cases hf
          · rw [setAtI_other _ _ _ _ h2] at hf
            exact hown n hb hf
    · injection hfc with hfc1 hfc2
      subst hfc1 hfc2
      refine ⟨⟨⟨?_, ?_, ?_, ?_⟩, hbb⟩, rfl⟩
      · simp
      · intro n hn
        simp only [List.append_nil, List.mem_singleton] at hn
        subst hn
        exact hstart
      · intro n hn
        simp only [List.append_nil, List.mem_singleton] at hn
        subst hn
        simp only
        rw [setAtI_same]
        decide
      · intro n hb hf
        simp only at hf
        by_cases h2 : n = startNode
        · subst h2
          rw [setAtI_same] at hf
          cases hf
        · rw [setAtI_other _ _ _ _ h2] at hf
          exact hown n hb hf

/-- The flood fill, when it ends, has put every boundary node on the final list once. -/
theorem floodFill_perm (m : Mesh) (blockNum : Int) (nodeBounds : Int → Int)
    (boundNodes : List Int) (c : Int) (s : FillState) (hnd : boundNodes.Nodup)
    (hrange : ∀ n ∈ boundNodes, 0 ≤ n ∧ n < m.nNodes)
    (hown : ∀ n, m.nodeBlocks n = blockNum → m.flags n = 2 → n ∈ boundNodes)
    (h : floodFill m blockNum nodeBounds boundNodes = .ret c s) :
    s.filledBound.Perm boundNodes := by
  unfold floodFill at h
  have hps := pickStart_spec m blockNum nodeBounds boundNodes
  split at h
  · cases h
  · rename_i startNode bb hst
    obtain ⟨hstart, hbb⟩ := startOf_spec boundNodes _ startNode bb hps.1 hps.2 hst
    obtain ⟨hinit, hfilled⟩ := initFill_inv m blockNum boundNodes startNode bb hstart hbb hown
    have hloop := fillLoop_inv m blockNum boundNodes _ _ s c hinit h
    rw [hfilled] at hloop
    simp only [List.length_singleton] at hloop
    obtain ⟨⟨⟨hnd2, hmem, _, _⟩, _⟩, hlen⟩ := hloop
    have hsubperm : s.filledBound.Subperm boundNodes :=
      List.subperm_of_subset hnd2.of_append_left
        (fun n hn => hmem n (List.mem_append_left _ hn))
    have hle := hsubperm.length_le
    have hle2 := length_le_of_nodup_bounded boundNodes m.nNodes hnd hrange
    refine hsubperm.perm_of_length_le ?_
    rcases hlen with h1 | h1
    · omega
    · omega

/-! ## `memArrange`: the slot grid after a successful call -/

theorem nodup_getElem?_inj {l : List Int} (hnd : l.Nodup) {i j : Nat} {a : Int}
    (hi : l[i]? = some a) (hj : l[j]? = some a) : i = j := by
  rw [List.getElem?_eq_some] at hi hj
  obtain ⟨hi1, hi2⟩ := hi
  obtain ⟨hj1, hj2⟩ := hj
  have key : l[i] = l[j] := hi2.trans hj2.symm
  exact hnd.getElem_inj_iff.1 key

theorem rotateBound_perm (m : Mesh) (blockNum : Int) (filledBound : List Int) :
    (rotateBound m blockNum filledBound).Perm filledBound := by
  unfold rotateBound
  simp only
  exact List.perm_append_comm.trans (by rw [List.take_append_drop])

theorem writeBound_spec (P : Params) (nNodes : Int) :
    ∀ (l : List Int) (cnt : Nat) (nodeRef nodeRef1 : Nat → Int) (c : Int),
      writeBound P nNodes l cnt nodeRef = .ret c nodeRef1 →
      (∀ i x, l[i]? = some x → nodeRef1 (cnt + i) = x ∧ cnt + i < P.XBLOCKSIZE * P.YBLOCKSIZE) ∧
      (∀ j, j < cnt ∨ cnt + l.length ≤ j → nodeRef1 j = nodeRef j) := by
  intro l
  induction l with
  | nil =>
    intro cnt nodeRef nodeRef1 c h
    simp only [writeBound] at h
    injection h with _ h
    subst h
    exact ⟨by simp, fun _ _ => rfl⟩
  | cons p l ih =>
    intro cnt nodeRef nodeRef1 c h
    simp only [writeBound] at h
    split at h
    · cases h
    · split at h
      · rename_i hlt
        obtain ⟨h1, h2⟩ := ih (cnt + 1) _ nodeRef1 c h
        refine ⟨?_, ?_⟩
        · intro i x hi
          cases i with
          | zero =>
            simp only [List.getElem?_cons_zero, Option.some.injEq] at hi
            subst hi
            refine ⟨?_, hlt⟩
            rw [Nat.add_zero, h2 cnt (Or.inl (by omega))]
            exact setAt_same _ _ _
          | succ i =>
            simp only [List.getElem?_cons_succ] at hi
            have := h1 i x hi
            rw [show cnt + (i + 1) = cnt + 1 + i by omega]
            exact this
        · intro j hj
          simp only [List.length_cons] at hj
          rw [h2 j (by omega)]
          exact setAt_other _ _ _ _ (by omega)
      · cases h

theorem writeInt_spec (P : Params) :
    ∀ (l : List Int) (cnt : Nat) (nodeRef : Nat → Int),
      cnt + l.length ≤ P.XBLOCKSIZE * P.YBLOCKSIZE →
      (∀ i x, l[i]? = some x → writeInt P l cnt nodeRef (cnt + i) = x) ∧
      (∀ j, j < cnt ∨ cnt + l.length ≤ j → writeInt P l cnt nodeRef j = nodeRef j) := by
  intro l
  induction l with
  | nil =>
    intro cnt nodeRef _
    simp [writeInt]
  | cons p l ih =>
    intro cnt nodeRef hcap
    simp only [List.length_cons] at hcap
    simp only [writeInt]
    rw [if_pos (by omega)]
    obtain ⟨h1, h2⟩ := ih (cnt + 1) (setAt nodeRef cnt p) (by omega)
    refine ⟨?_, ?_⟩
    · intro i x hi
      cases i with
      | zero =>
        simp only [List.getElem?_cons_zero, Option.some.injEq] at hi
        subst hi
        have := h2 cnt (Or.inl (by omega))
        rw [setAt_same] at this
        exact this
      | succ i =>
        simp only [List.getElem?_cons_succ] at hi
        rw [show cnt + (i + 1) = cnt + 1 + i by omega]
        exact h1 i x hi
    · intro j hj
      simp only [List.length_cons] at hj
      rw [h2 j (by omega)]
      exact setAt_other _ _ _ _ (by omega)

/-- What a successful `memArrange` on a block at state 1 does, in terms of the list
`ordered = rotateBound ...` of the flood fill. -/
theorem memArrange_success (P : Params) (m : Mesh) (nodeBounds blockFlags : Int → Int)
    (b : Block) (flags1 : Int → Int) (b1 : Block) (hstate : b.blockFlag = 1)
    (h : memArrange P m nodeBounds blockFlags b = .ret 0 (flags1, b1)) :
    ∃ c s c2 nr, floodFill m b.blockNum nodeBounds b.boundNodes = .ret c s ∧
      writeBound P m.nNodes (rotateBound m b.blockNum s.filledBound) 0
        (clearNodeRef P b.nodeRef) = .ret c2 nr ∧
      flags1 = s.flags ∧
      b1 = { b with
        nodeRef := writeInt P b.intNodes
          (rotateBound m b.blockNum s.filledBound).length nr,
        blockFlag := 2 } := by
  unfold memArrange at h
  rw [if_neg (by omega)] at h
  split at h
  · cases h
  · split at h
    · injection h with h1 _; omega
    · rw [if_neg (by omega)] at h
      split at h
      · injection h with h1 _; omega
      · split at h
        · cases h
        · cases h
        · cases h
        · rename_i c s hfill
          simp only at h
          split at h
          · cases h
          · cases h
          · cases h
          · rename_i c2 nr hwrite
            injection h with _ h
            injection h with h1 h2
            exact ⟨c, s, c2, nr, hfill, hwrite, h1.symm, h2.symm⟩

/-- C4: for a well-formed block at state 1 with `|boundNodes| + |intNodes|` at most
`XBLOCKSIZE*YBLOCKSIZE` on which `memArrange` returns 0: the slots `0..|boundNodes|-1` hold an
ordering of the boundary nodes (a permutation of `boundNodes`), the next `|intNodes|` slots hold
the interior nodes in the order of `intNodes`, all other slots of the grid are -1, every node
of the block sits in exactly one slot, and `blockFlag` is 2. -/
theorem memArrange_fills_slots (P : Params) (m : Mesh) (nodeBounds blockFlags : Int → Int)
    (b : Block) (flags1 : Int → Int) (b1 : Block) (hstate : b.blockFlag = 1)
    (hcap : b.boundNodes.length + b.intNodes.length ≤ P.XBLOCKSIZE * P.YBLOCKSIZE)
    (hwf : WellFormed m b)
    (h : memArrange P m nodeBounds blockFlags b = .ret 0 (flags1, b1)) :
    ∃ ordered : List Int, ordered.Perm b.boundNodes ∧
      (∀ i x, ordered[i]? = some x → b1.nodeRef i = x) ∧
      (∀ j x, b.intNodes[j]? = some x → b1.nodeRef (b.boundNodes.length + j) = x) ∧
      (∀ i, b.boundNodes.length + b.intNodes.length ≤ i → i < P.XBLOCKSIZE * P.YBLOCKSIZE →
        b1.nodeRef i = -1) ∧
      (∀ n, n ∈ b.boundNodes ∨ n ∈ b.intNodes →
        ∃ i, (i < P.XBLOCKSIZE * P.YBLOCKSIZE ∧ b1.nodeRef i = n) ∧
          ∀ j, j < P.XBLOCKSIZE * P.YBLOCKSIZE ∧ b1.nodeRef j = n → j = i) ∧
      b1.blockFlag = 2 := by
  obtain ⟨hndB, hndI, hdisj, hrange, hintpos, hflags, hown, _⟩ := hwf
  obtain ⟨c, s, c2, nr, hfill, hwrite, _, hb1⟩ :=
    memArrange_success P m nodeBounds blockFlags b flags1 b1 hstate h
  have hperm0 := floodFill_perm m b.blockNum nodeBounds b.boundNodes c s hndB hrange hown hfill
  generalize hord : rotateBound m b.blockNum s.filledBound = ordered
    at hwrite hb1
  have hperm : ordered.Perm b.boundNodes := by
    rw [← hord]
    exact (rotateBound_perm _ _ _).trans hperm0
  have hlen : ordered.length = b.boundNodes.length := hperm.length_eq
  have hndO : ordered.Nodup := hperm.nodup_iff.2 hndB
  obtain ⟨hw1, hw2⟩ := writeBound_spec P m.nNodes ordered 0 _ nr c2 hwrite
  obtain ⟨hi1, hi2⟩ := writeInt_spec P b.intNodes ordered.length nr (by omega)
  have href : b1.nodeRef = writeInt P b.intNodes ordered.length nr := by rw [hb1]
  -- the three ranges of the grid
  have hlow : ∀ i x, ordered[i]? = some x → b1.nodeRef i = x := by
    intro i x hi
    have hil : i < ordered.length := by
      rw [List.getElem?_eq_some] at hi
      exact hi.1
    rw [href, hi2 i (Or.inl hil)]
    have := (hw1 i x hi).1
    rwa [Nat.zero_add] at this
  have hmid : ∀ j x, b.intNodes[j]? = some x → b1.nodeRef (b.boundNodes.length + j) = x := by
    intro j x hj
    rw [href, ← hlen]
    exact hi1 j x hj
  have hhigh : ∀ i, b.boundNodes.length + b.intNodes.length ≤ i →
      i < P.XBLOCKSIZE * P.YBLOCKSIZE → b1.nodeRef i = -1 := by
    intro i hi hi2'
    rw [href, hi2 i (Or.inr (by omega)), hw2 i (Or.inr (by omega))]
    simp [clearNodeRef, hi2']
  -- what a slot of the grid holds
  have hslot : ∀ j, j < P.XBLOCKSIZE * P.YBLOCKSIZE →
      (j < ordered.length ∧ ordered[j]? = some (b1.nodeRef j)) ∨
      (∃ k, j = b.boundNodes.length + k ∧ b.intNodes[k]? = some (b1.nodeRef j)) ∨
      b1.nodeRef j = -1 := by
    intro j hj
    by_cases h1 : j < ordered.length
    · left
      refine ⟨h1, ?_⟩
      have hx : ordered[j]? = some ordered[j] := List.getElem?_eq_getElem h1
      rw [hlow j _ hx]
      exact hx
    · by_cases h2 : j < b.boundNodes.length + b.intNodes.length
      · right; left
        refine ⟨j - b.boundNodes.length, by omega, ?_⟩
        have hk : j - b.boundNodes.length < b.intNodes.length := by omega
        have hx : b.intNodes[j - b.boundNodes.length]? = some b.intNodes[j - b.boundNodes.length] :=
          List.getElem?_eq_getElem hk
        have := hmid _ _ hx
        rw [show b.boundNodes.length + (j - b.boundNodes.length) = j by omega] at this
        rw [this]
        exact hx
      · right; right
        exact hhigh j (by omega) hj
  refine ⟨ordered, hperm, hlow, hmid, hhigh, ?_, by rw [hb1]⟩
  intro n hn
  rcases hn with hn | hn
  · -- a boundary node
    have hno : n ∈ ordered := hperm.mem_iff.2 hn
    obtain ⟨i, hi⟩ := List.mem_iff_getElem?.1 hno
    have hil : i < ordered.length := by
      rw [List.getElem?_eq_some] at hi
      exact hi.1
    refine ⟨i, ⟨by omega, hlow i n hi⟩, ?_⟩
    rintro j ⟨hj, hjn⟩
    rcases hslot j hj with ⟨_, h1⟩ | ⟨k, _, h1⟩ | h1
    · rw [hjn] at h1
      exact nodup_getElem?_inj hndO h1 hi
    · rw [hjn] at h1
      exact absurd (List.mem_iff_getElem?.2 ⟨k, h1⟩) (hdisj n hn)
    · have := (hrange n hn).1
      omega
  · -- an interior node
    obtain ⟨k, hk⟩ := List.mem_iff_getElem?.1 hn
    have hkl : k < b.intNodes.length := by
      rw [List.getElem?_eq_some] at hk
      exact hk.1
    refine ⟨b.boundNodes.length + k, ⟨by omega, hmid k n hk⟩, ?_⟩
    rintro j ⟨hj, hjn⟩
    rcases hslot j hj with ⟨_, h1⟩ | ⟨k2, hk2, h1⟩ | h1
    · rw [hjn] at h1
      have : n ∈ b.boundNodes := hperm.mem_iff.1 (List.mem_iff_getElem?.2 ⟨j, h1⟩)
      exact absurd hn (hdisj n this)
    · rw [hjn] at h1
      have := nodup_getElem?_inj hndI h1 hk
      omega
    · have := hintpos n hn
      omega

/-! ## The flood fill on a boundary cycle -/

theorem visitLinks_none (m : Mesh) (blockNum : Int) :
    ∀ (links : List Int) (flags : Int → Int) (toCheck : List Int) (last : Int),
      (∀ x ∈ links, ¬ (m.nodeBlocks x = blockNum ∧ flags x = 2)) →
      (visitLinks m blockNum links (flags, toCheck, last)).1 = flags ∧
      (visitLinks m blockNum links (flags, toCheck, last)).2.1 = toCheck := by
  intro links
  induction links with
  | nil => intro flags toCheck last _; exact ⟨rfl, rfl⟩
  | cons x links ih =>
    intro flags toCheck last h
    simp only [visitLinks]
    rw [if_neg (h x (List.mem_cons_self _ _))]
    have hrest : ∀ y ∈ links, ¬ (m.nodeBlocks y = blockNum ∧ flags y = 2) :=
      fun y hy => h y (List.mem_cons_of_mem _ hy)
    split
    · exact ih flags toCheck blockNum hrest
    · exact ih flags toCheck last hrest

theorem visitLinks_single (m : Mesh) (blockNum : Int) (y : Int) :
    ∀ (links : List Int) (flags : Int → Int) (toCheck : List Int) (last : Int),
      (∀ x ∈ links, m.nodeBlocks x = blockNum → flags x = 2 → x = y) →
      y ∈ links → m.nodeBlocks y = blockNum → flags y = 2 →
      (visitLinks m blockNum links (flags, toCheck, last)).1 = setAtI flags y 3 ∧
      (visitLinks m blockNum links (flags, toCheck, last)).2.1 = toCheck ++ [y] := by
  intro links
  induction links with
  | nil => intro flags toCheck last _ hy; cases hy
  | cons x links ih =>
    intro flags toCheck last h hy hyb hyf
    simp only [visitLinks]
    by_cases hq : m.nodeBlocks x = blockNum ∧ flags x = 2
    · rw [if_pos hq]
      have hxy : x = y := h x (List.mem_cons_self _ _) hq.1 hq.2
      subst hxy
      refine visitLinks_none m blockNum links (setAtI flags x 3) (toCheck ++ [x]) last ?_
      intro z hz hzq
      have hzf := hzq.2
      by_cases hzx : z = x
      · subst hzx
        rw [setAtI_same] at hzf
        cases hzf
      · rw [setAtI_other _ _ _ _ hzx] at hzf
        exact hzx (h z (List.mem_cons_of_mem _ hz) hzq.1 hzf)
    · rw [if_neg hq]
      have hyl : y ∈ links := by
        rcases List.mem_cons.1 hy with h1 | h1
        · subst h1
          exact absurd ⟨hyb, hyf⟩ hq
        · exact h1
      have hrest : ∀ z ∈ links, m.nodeBlocks z = blockNum → flags z = 2 → z = y :=
        fun z hz => h z (List.mem_cons_of_mem _ hz)
      split
      · exact ih flags toCheck blockNum hrest hyl hyb hyf
      · exact ih flags toCheck last hrest hyl hyb hyf

theorem Walk.add_mul {m : Mesh} {boundNodes : List Int} {n : Nat} {c : Nat → Int}
    (hw : Walk m boundNodes n c) (i k : Nat) : c (i + n * k) = c i := by
  induction k with
  | zero => rfl
  | succ k ih =>
    rw [Nat.mul_succ, ← Nat.add_assoc, hw.1, ih]

theorem Walk.mod {m : Mesh} {boundNodes : List Int} {n : Nat} {c : Nat → Int}
    (hw : Walk m boundNodes n c) (i : Nat) : c (i % n) = c i := by
  have := hw.add_mul (i % n) (i / n)
  rw [Nat.mod_add_div] at this
  exact this.symm

theorem Walk.length {m : Mesh} {boundNodes : List Int} {n : Nat} {c : Nat → Int}
    (hw : Walk m boundNodes n c) : boundNodes.length = n := hw.2.2.2.1

theorem succ_mod_eq (n i : Nat) (hn : 2 ≤ n) :
    (i + 1) % n = if i % n + 1 < n then i % n + 1 else 0 := by
  have ht : i % n < n := Nat.mod_lt _ (by omega)
  rw [Nat.add_mod, Nat.mod_eq_of_lt (show 1 < n by omega)]
  split
  · rename_i h
    exact Nat.mod_eq_of_lt h
  · have : i % n + 1 = n := by omega
    rw [this, Nat.mod_self]

theorem pred_mod_eq (n i : Nat) (hn : 2 ≤ n) :
    (i + n - 1) % n = if i % n = 0 then n - 1 else i % n - 1 := by
  have ht : i % n < n := Nat.mod_lt _ (by omega)
  rw [show i + n - 1 = i + (n - 1) by omega, Nat.add_mod,
    Nat.mod_eq_of_lt (show n - 1 < n by omega)]
  split
  · rename_i h
    rw [h, Nat.zero_add]
    exact Nat.mod_eq_of_lt (by omega)
  · rw [show i % n + (n - 1) = i % n - 1 + n by omega, Nat.add_mod_right]
    exact Nat.mod_eq_of_lt (by omega)

theorem Walk.ne_succ {m : Mesh} {boundNodes : List Int} {n : Nat} {c : Nat → Int}
    (hw : Walk m boundNodes n c) (hn : 2 ≤ n) (a : Nat) : c (a + 1) ≠ c a := by
  intro h
  rw [← hw.mod (a + 1), ← hw.mod a] at h
  have h1 : (a + 1) % n < n := Nat.mod_lt _ (by omega)
  have h2 : a % n < n := Nat.mod_lt _ (by omega)
  have := hw.2.1 _ _ h1 h2 h
  rw [succ_mod_eq n a hn] at this
  split at this <;> omega

/-- A walk started `j` steps later is a walk. -/
theorem Walk.shift {m : Mesh} {boundNodes : List Int} {n : Nat} {c : Nat → Int}
    (hw : Walk m boundNodes n c) (hn : 2 ≤ n) (j : Nat) :
    Walk m boundNodes n (fun i => c (i + j)) := by
  obtain ⟨hper, hinj, hmem, hlen, hadj⟩ := hw
  refine ⟨?_, ?_, fun i => hmem _, hlen, ?_⟩
  · intro i
    simp only
    rw [show i + n + j = i + j + n by omega]
    exact hper _
  · intro i i2 hi hi2 h
    simp only at h
    have hw2 : Walk m boundNodes n c := ⟨hper, hinj, hmem, hlen, hadj⟩
    rw [← hw2.mod (i + j), ← hw2.mod (i2 + j)] at h
    have := hinj _ _ (Nat.mod_lt _ (by omega)) (Nat.mod_lt _ (by omega)) h
    have hmodeq : i + j ≡ i2 + j [MOD n] := this
    exact (Nat.ModEq.add_right_cancel' j hmodeq).eq_of_lt_of_lt hi hi2
  · intro i x hx hne
    simp only at hne ⊢
    rw [hadj (i + j) x hx hne, show i + j + 1 = i + 1 + j by omega,
      show i + j + n - 1 = i + n - 1 + j by omega]

/-- A walk run backwards is a walk. -/
theorem Walk.mirror {m : Mesh} {boundNodes : List Int} {n : Nat} {c : Nat → Int}
    (hw : Walk m boundNodes n c) (hn : 2 ≤ n) :
    Walk m boundNodes n (fun i => c (n - 1 - i % n)) := by
  obtain ⟨hper, hinj, hmem, hlen, hadj⟩ := hw
  refine ⟨?_, ?_, fun i => hmem _, hlen, ?_⟩
  · intro i
    simp only
    rw [Nat.add_mod_right]
  · intro i i2 hi hi2 h
    simp only at h
    rw [Nat.mod_eq_of_lt hi, Nat.mod_eq_of_lt hi2] at h
    have := hinj _ _ (by omega) (by omega) h
    omega
  · intro i x hx hne
    simp only at hne ⊢
    have ht : i % n < n := Nat.mod_lt _ (by omega)
    rw [hadj (n - 1 - i % n) x hx hne, succ_mod_eq n i hn, pred_mod_eq n i hn]
    have hpn : ∀ a, c (a + n) = c a := hper
    by_cases h0 : i % n = 0
    · rw [if_pos h0, h0, if_pos (by omega)]
      have e1 : c (n - 1 - 0 + 1) = c (n - 1 - (n - 1)) := by
        rw [show n - 1 - 0 + 1 = 0 + n by omega, hpn 0, show n - 1 - (n - 1) = 0 by omega]
      have e2 : c (n - 1 - 0 + n - 1) = c (n - 1 - (0 + 1)) := by
        rw [show n - 1 - 0 + n - 1 = n - 1 - (0 + 1) + n by omega, hpn]
      rw [e1, e2]
      exact or_comm
    · rw [if_neg h0]
      by_cases h1 : i % n + 1 < n
      · rw [if_pos h1]
        have e1 : c (n - 1 - i % n + 1) = c (n - 1 - (i % n - 1)) := by
          rw [show n - 1 - i % n + 1 = n - 1 - (i % n - 1) by omega]
        have e2 : c (n - 1 - i % n + n - 1) = c (n - 1 - (i % n + 1)) := by
          rw [show n - 1 - i % n + n - 1 = n - 1 - (i % n + 1) + n by omega, hpn]
        rw [e1, e2]
        exact or_comm
      · rw [if_neg h1]
        have e1 : c (n - 1 - i % n + 1) = c (n - 1 - (i % n - 1)) := by
          rw [show n - 1 - i % n + 1 = n - 1 - (i % n - 1) by omega]
        have e2 : c (n - 1 - i % n + n - 1) = c (n - 1 - 0) := by
          rw [show n - 1 - i % n + n - 1 = n - 1 - 0 by omega]
        rw [e1, e2]
        exact or_comm

theorem finishRound_eq (m : Mesh) (blockNum : Int) (doNode : Int) (flags : Int → Int)
    (toCheck filled bothBounds : List Int) (last : Int) :
    finishRound m blockNum doNode flags toCheck filled bothBounds last =
      { flags := setAtI (visitLinks m blockNum (linksOf m doNode) (flags, toCheck, last)).1 doNode 4,
        toCheck := (visitLinks m blockNum (linksOf m doNode) (flags, toCheck, last)).2.1,
        filledBound := filled ++ [doNode], bothBounds := bothBounds,
        lastBlockLinked := (visitLinks m blockNum (linksOf m doNode) (flags, toCheck, last)).2.2 } := by
  unfold finishRound
  generalize visitLinks m blockNum (linksOf m doNode) (flags, toCheck, last) = r
  obtain ⟨f1, tc1, l1⟩ := r
  rfl

theorem walk_step (m : Mesh) (blockNum : Int) (boundNodes : List Int) (n : Nat) (c : Nat → Int)
    (k : Nat) (s : FillState) (hw : Walk m boundNodes n c)
    (hown : ∀ x ∈ boundNodes, m.nodeBlocks x = blockNum)
    (hst : WalkState m blockNum boundNodes n c k s) (hk : k + 1 < n) :
    ∃ s1, fillStep m blockNum boundNodes s = .next s1 ∧
      WalkState m blockNum boundNodes n c (k + 1) s1 := by
  obtain ⟨hfilled, htc, hflags, hD⟩ := hst
  obtain ⟨hper, hinj, hmem, hlen0, hadj⟩ := hw
  rw [if_pos hk] at htc
  have hfd : s.flags (c (k + 1)) = 3 := by
    have := hflags (k + 1) hk
    rw [if_neg (by omega), if_pos rfl] at this
    exact this
  have hfk : s.flags (c k) = 4 := by
    have := hflags k (by omega)
    rw [if_pos (le_refl _)] at this
    exact this
  have hprev : c (k + 1 + n - 1) = c k := by
    rw [show k + 1 + n - 1 = k + n by omega]
    exact hper k
  -- a link of `c (k+1)` that is an unvisited node of the block is `c (k+2)`
  have huniq : ∀ x ∈ linksOf m (c (k + 1)), m.nodeBlocks x = blockNum → s.flags x = 2 →
      x = c (k + 2) := by
    intro x hx hxb hxf
    have hxin := hD x hxb hxf
    have hne : x ≠ c (k + 1) := by
      intro heq
      rw [heq, hfd] at hxf
      cases hxf
    rcases (hadj (k + 1) x hxin hne).1 hx with h1 | h1
    · exact h1
    · rw [hprev] at h1
      rw [h1, hfk] at hxf
      cases hxf
  have hstep : fillStep m blockNum boundNodes s =
      .next (finishRound m blockNum (c (k + 1)) s.flags [] s.filledBound s.bothBounds
        s.lastBlockLinked) := by
    unfold fillStep
    rw [htc]
  refine ⟨_, hstep, ?_⟩
  rw [finishRound_eq]
  have hfilled2 : s.filledBound ++ [c (k + 1)] = (List.range (k + 1 + 1)).map c := by
    rw [hfilled, List.range_succ (n := k + 1), List.map_append]
    rfl
  by_cases hk2 : k + 2 < n
  · -- the walk goes on to `c (k+2)`
    have hne21 : c (k + 2) ≠ c (k + 1) := fun h => by
      have := hinj _ _ hk2 hk h
      omega
    have hy2 : s.flags (c (k + 2)) = 2 := by
      have := hflags (k + 2) hk2
      rw [if_neg (by omega), if_neg (by omega)] at this
      exact this
    have hyl : c (k + 2) ∈ linksOf m (c (k + 1)) :=
      (hadj (k + 1) (c (k + 2)) (hmem _) hne21).2 (Or.inl rfl)
    obtain ⟨hv1, hv2⟩ := visitLinks_single m blockNum (c (k + 2)) (linksOf m (c (k + 1)))
      s.flags [] s.lastBlockLinked huniq hyl (hown _ (hmem _)) hy2
    rw [hv1, hv2]
    refine ⟨hfilled2, ?_, ?_, ?_⟩
    · simp only [List.nil_append]
      rw [if_pos (by omega)]
    · intro t ht
      simp only
      by_cases ht1 : t = k + 1
      · subst ht1
        rw [setAtI_same, if_pos (le_refl _)]
      · have hne1 : c t ≠ c (k + 1) := fun h => ht1 (hinj _ _ ht hk h)
        rw [setAtI_other _ _ _ _ hne1]
        by_cases ht2 : t = k + 2
        · subst ht2
          rw [setAtI_same, if_neg (by omega), if_pos rfl]
        · have hne2 : c t ≠ c (k + 2) := fun h => ht2 (hinj _ _ ht hk2 h)
          rw [setAtI_other _ _ _ _ hne2, hflags t ht]
          by_cases ht3 : t ≤ k
          · rw [if_pos ht3, if_pos (by omega)]
          · rw [if_neg ht3, if_neg ht1, if_neg (by omega), if_neg (by omega)]
    · intro x hxb hxf
      simp only at hxf
      by_cases hx1 : x = c (k + 1)
      · subst hx1
        rw [setAtI_same] at hxf
        cases hxf
      · rw [setAtI_other _ _ _ _ hx1] at hxf
        by_cases hx2 : x = c (k + 2)
        · subst hx2
          exact hmem _
        · rw [setAtI_other _ _ _ _ hx2] at hxf
          exact hD x hxb hxf
  · -- the walk is complete
    have hkn : k + 2 = n := by omega
    have hnone : ∀ x ∈ linksOf m (c (k + 1)), ¬ (m.nodeBlocks x = blockNum ∧ s.flags x = 2) := by
      rintro x hx ⟨hxb, hxf⟩
      have := huniq x hx hxb hxf
      have h0 : c (k + 2) = c 0 := by
        rw [hkn]
        have := hper 0
        rwa [Nat.zero_add] at this
      rw [this, h0] at hxf
      have h4 := hflags 0 (by omega)
      rw [if_pos (Nat.zero_le _)] at h4
      rw [h4] at hxf
      cases hxf
    obtain ⟨hv1, hv2⟩ := visitLinks_none m blockNum (linksOf m (c (k + 1))) s.flags []
      s.lastBlockLinked hnone
    rw [hv1, hv2]
    refine ⟨hfilled2, ?_, ?_, ?_⟩
    · simp only
      rw [if_neg (by omega)]
    · intro t ht
      simp only
      by_cases ht1 : t = k + 1
      · subst ht1
        rw [setAtI_same, if_pos (le_refl _)]
      · have hne1 : c t ≠ c (k + 1) := fun h => ht1 (hinj _ _ ht hk h)
        rw [setAtI_other _ _ _ _ hne1, hflags t ht]
        have ht3 : t ≤ k := by omega
        rw [if_pos ht3, if_pos (by omega)]
    · intro x hxb hxf
      simp only at hxf
      by_cases hx1 : x = c (k + 1)
      · subst hx1
        rw [setAtI_same] at hxf
        cases hxf
      · rw [setAtI_other _ _ _ _ hx1] at hxf
        exact hD x hxb hxf

theorem walk_loop (m : Mesh) (blockNum : Int) (boundNodes : List Int) (n : Nat) (c : Nat → Int)
    (hw : Walk m boundNodes n c)
    (hown : ∀ x ∈ boundNodes, m.nodeBlocks x = blockNum) :
    ∀ (fuel k : Nat) (s : FillState), WalkState m blockNum boundNodes n c k s → k + 1 ≤ n →
      n ≤ k + 1 + fuel →
      ∃ s1, forLoop (fillStep m blockNum boundNodes) fuel s = .ret 0 s1 ∧
        s1.filledBound = (List.range n).map c := by
  intro fuel
  induction fuel with
  | zero =>
    intro k s hst hk hfuel
    have hkn : k + 1 = n := by omega
    refine ⟨s, rfl, ?_⟩
    rw [hst.1, hkn]
  | succ fuel ih =>
    intro k s hst hk hfuel
    by_cases hkn : k + 1 = n
    · refine ⟨s, ?_, by rw [hst.1, hkn]⟩
      have htc : s.toCheck = [] := by
        rw [hst.2.1, if_neg (by omega)]
      have hlen : s.filledBound.length = boundNodes.length := by
        rw [hst.1, hw.length]
        simp [hkn]
      simp only [forLoop]
      have : fillStep m blockNum boundNodes s = .done s := by
        unfold fillStep
        rw [htc]
        simp only
        rw [if_pos hlen]
      rw [this]
    · obtain ⟨s1, hs1, hst1⟩ := walk_step m blockNum boundNodes n c k s hw hown hst (by omega)
      obtain ⟨s2, hs2, hf2⟩ := ih (k + 1) s1 hst1 (by omega) (by omega)
      refine ⟨s2, ?_, hf2⟩
      simp only [forLoop]
      rw [hs1]
      exact hs2

theorem walk_of_cycle (m : Mesh) (boundNodes cyc : List Int) (hnd : boundNodes.Nodup)
    (hcyc : CycleOf m boundNodes cyc) :
    Walk m boundNodes cyc.length (fun i => cyc.getD (i % cyc.length) 0) := by
  obtain ⟨hperm, hlen3, hadj⟩ := hcyc
  have hn : 0 < cyc.length := by omega
  have hndc : cyc.Nodup := hperm.nodup_iff.2 hnd
  refine ⟨?_, ?_, ?_, hperm.length_eq.symm, ?_⟩
  · intro i
    simp only
    rw [Nat.add_mod_right]
  · intro i j hi hj h
    simp only at h
    rw [Nat.mod_eq_of_lt hi, Nat.mod_eq_of_lt hj, List.getD_eq_getElem _ _ hi,
      List.getD_eq_getElem _ _ hj] at h
    exact (hndc.getElem_inj_iff).1 h
  · intro i
    simp only
    rw [List.getD_eq_getElem _ _ (Nat.mod_lt _ hn)]
    exact hperm.mem_iff.1 (List.getElem_mem _)
  · intro i x hx hne
    simp only at hne ⊢
    rw [hadj (i % cyc.length) (Nat.mod_lt _ hn) x hx hne, Nat.mod_add_mod,
      show i % cyc.length + cyc.length - 1 = i % cyc.length + (cyc.length - 1) by omega,
      Nat.mod_add_mod, show i + (cyc.length - 1) = i + cyc.length - 1 by omega]

theorem Walk.surj {m : Mesh} {boundNodes : List Int} {n : Nat} {c : Nat → Int}
    (hw : Walk m boundNodes n c) (x : Int) (hx : x ∈ boundNodes) : ∃ i, i < n ∧ c i = x := by
  have hmapnd : ((List.range n).map c).Nodup := by
    refine List.Nodup.map_on ?_ (List.nodup_range n)
    intro i hi j hj hij
    exact hw.2.1 i j (List.mem_range.1 hi) (List.mem_range.1 hj) hij
  have h1 : ((List.range n).map c).Subperm boundNodes :=
    List.subperm_of_subset hmapnd (fun x hx => by
      rw [List.mem_map] at hx
      obtain ⟨i, _, rfl⟩ := hx
      exact hw.2.2.1 i)
  have hperm := h1.perm_of_length_le (by simp [hw.length])
  have := hperm.mem_iff.2 hx
  rw [List.mem_map] at this
  obtain ⟨i, hi, hix⟩ := this
  exact ⟨i, List.mem_range.1 hi, hix⟩

/-- A walk can be started at any boundary node in the direction of any of its two boundary
links. -/
theorem walk_from_start (m : Mesh) (boundNodes : List Int) (n : Nat) (c0 : Nat → Int)
    (hw : Walk m boundNodes n c0) (hn : 2 ≤ n) (start x0 : Int) (hs : start ∈ boundNodes)
    (hx : x0 ∈ boundNodes) (hne : x0 ≠ start) (hl : x0 ∈ linksOf m start) :
    ∃ c, Walk m boundNodes n c ∧ c 0 = start ∧ c 1 = x0 := by
  obtain ⟨j, _, hj⟩ := hw.surj start hs
  have hws := hw.shift hn j
  have h0 : (fun i => c0 (i + j)) 0 = start := by
    simp only [Nat.zero_add]
    exact hj
  have hadj := hws.2.2.2.2 0 x0 hx (by rw [h0]; exact hne)
  rw [h0] at hadj
  rcases hadj.1 hl with h1 | h1
  · exact ⟨_, hws, h0, h1.symm⟩
  · refine ⟨_, (hws.mirror hn).shift hn (n - 1), ?_, ?_⟩
    · simp only [Nat.zero_add]
      rw [Nat.mod_eq_of_lt (by omega), show n - 1 - (n - 1) = 0 by omega, Nat.zero_add]
      exact hj
    · rw [h1]
      simp only
      rw [show 1 + (n - 1) = n by omega, Nat.mod_self]
      congr 1
      omega

theorem floodFill_cycle (m : Mesh) (blockNum : Int) (nodeBounds : Int → Int)
    (boundNodes cyc : List Int) (c0 : Int) (s : FillState) (hnd : boundNodes.Nodup)
    (hrange : ∀ n ∈ boundNodes, 0 ≤ n ∧ n < m.nNodes)
    (hflags : ∀ n ∈ boundNodes, m.flags n = 2)
    (hownD : ∀ n, m.nodeBlocks n = blockNum → m.flags n = 2 → n ∈ boundNodes)
    (hownB : ∀ n ∈ boundNodes, m.nodeBlocks n = blockNum)
    (hcyc : CycleOf m boundNodes cyc)
    (h : floodFill m blockNum nodeBounds boundNodes = .ret c0 s) :
    ∃ c, Walk m boundNodes boundNodes.length c ∧
      s.filledBound = (List.range boundNodes.length).map c := by
  have hW0 := walk_of_cycle m boundNodes cyc hnd hcyc
  have hlen : cyc.length = boundNodes.length := hcyc.1.length_eq
  have hn3 : 3 ≤ boundNodes.length := by rw [← hlen]; exact hcyc.2.1
  rw [hlen] at hW0
  unfold floodFill at h
  have hps := pickStart_spec m blockNum nodeBounds boundNodes
  split at h
  · cases h
  · rename_i start bb hst
    obtain ⟨hstart, _⟩ := startOf_spec boundNodes _ start bb hps.1 hps.2 hst
    -- some link of the start node is an unvisited boundary node
    obtain ⟨j, _, hj⟩ := hW0.surj start hstart
    have hws := hW0.shift (by omega) j
    have hnext : (fun i => cyc.getD (i % boundNodes.length) 0) (1 + j) ∈ boundNodes :=
      hW0.2.2.1 _
    have hnext_ne : (fun i => cyc.getD (i % boundNodes.length) 0) (1 + j) ≠ start := by
      have := hws.ne_succ (by omega) 0
      simp only [Nat.zero_add] at this
      rw [hj] at this
      exact this
    have hnext_link : (fun i => cyc.getD (i % boundNodes.length) 0) (1 + j) ∈ linksOf m start := by
      have := (hws.2.2.2.2 0 _ hnext (by simp only [Nat.zero_add]; rw [hj]; exact hnext_ne)).2
        (Or.inl rfl)
      simp only [Nat.zero_add] at this
      rw [hj] at this
      exact this
    cases hfind : (linksOf m start).find?
        (fun linkNode => m.nodeBlocks linkNode = blockNum ∧ setAtI m.flags start 4 linkNode = 2) with
    | none =>
      exfalso
      have := List.find?_eq_none.1 hfind _ hnext_link
      apply this
      simp only [decide_eq_true_eq]
      exact ⟨hownB _ hnext, by rw [setAtI_other _ _ _ _ hnext_ne]; exact hflags _ hnext⟩
    | some x0 =>
      have hp := List.find?_some hfind
      simp only [decide_eq_true_eq] at hp
      have hx0l := List.mem_of_find?_eq_some hfind
      have hx0ne : x0 ≠ start := by
        intro heq
        rw [heq, setAtI_same] at hp
        have := hp.2
        omega
      have hx0f : m.flags x0 = 2 := by
        have := hp.2
        rwa [setAtI_other _ _ _ _ hx0ne] at this
      have hx0b : x0 ∈ boundNodes := hownD x0 hp.1 hx0f
      obtain ⟨c, hwc, hc0, hc1⟩ := walk_from_start m boundNodes _ _ hW0 (by omega) start x0
        hstart hx0b hx0ne hx0l
      have hinit : WalkState m blockNum boundNodes boundNodes.length c 0
          (initFill m blockNum start bb) := by
        unfold initFill firstCheck
        rw [hfind]
        refine ⟨?_, ?_, ?_, ?_⟩
        · show [start] = [c 0]
          rw [hc0]
        · simp only
          rw [if_pos (by omega), hc1]
        · intro t ht
          simp only
          by_cases ht0 : t = 0
          · subst ht0
            rw [hc0, setAtI_other _ _ _ _ (Ne.symm hx0ne), setAtI_same, if_pos (le_refl _)]
          · by_cases ht1 : t = 1
            · subst ht1
              rw [hc1, setAtI_same, if_neg (by omega), if_pos rfl]
            · have hne1 : c t ≠ x0 := by
                rw [← hc1]
                exact fun h => ht1 (hwc.2.1 _ _ ht (by omega) h)
              have hne0 : c t ≠ start := by
                rw [← hc0]
                exact fun h => ht0 (hwc.2.1 _ _ ht (by omega) h)
              rw [setAtI_other _ _ _ _ hne1, setAtI_other _ _ _ _ hne0, hflags _ (hwc.2.2.1 t),
                if_neg (by omega), if_neg (by omega)]
        · intro x hxb hxf
          simp only at hxf
          by_cases h1 : x = x0
          · subst h1
            exact hx0b
          · rw [setAtI_other _ _ _ _ h1] at hxf
            by_cases h2 : x = start
            · subst h2
              exact hstart
            · rw [setAtI_other _ _ _ _ h2] at hxf
              exact hownD x hxb hxf
      have hfuel := length_le_of_nodup_bounded boundNodes m.nNodes hnd hrange
      obtain ⟨s1, hs1, hf1⟩ := walk_loop m blockNum boundNodes _ c hwc hownB m.nNodes.toNat 0 _
        hinit (by omega) (by omega)
      rw [hs1] at h
      injection h with _ h
      subst h
      exact ⟨c, hwc, hf1⟩

theorem writeInt_below (P : Params) :
    ∀ (l : List Int) (cnt : Nat) (nodeRef : Nat → Int) (j : Nat), j < cnt →
      writeInt P l cnt nodeRef j = nodeRef j := by
  intro l
  induction l with
  | nil => intro cnt nodeRef j _; rfl
  | cons p l ih =>
    intro cnt nodeRef j hj
    simp only [writeInt]
    split
    · rw [ih (cnt + 1) _ j (by omega)]
      exact setAt_other _ _ _ _ (by omega)
    · rfl

theorem getElem?_map_range (c : Nat → Int) (n k : Nat) (hk : k < n) :
    ((List.range n).map c)[k]? = some (c k) := by
  rw [List.getElem?_map, List.getElem?_range hk]
  rfl

theorem rotated_walk (c : Nat → Int) (n p : Nat) (hper : ∀ i, c (i + n) = c i) :
    ∃ q, ∀ i, i < n →
      (((List.range n).map c).drop p ++ ((List.range n).map c).take p)[i]? = some (c (q + i)) := by
  by_cases hp : p ≤ n
  · refine ⟨p, ?_⟩
    intro i hi
    by_cases h1 : i < n - p
    · rw [List.getElem?_append_left (by simp; omega), List.getElem?_drop]
      exact getElem?_map_range c n (p + i) (by omega)
    · rw [List.getElem?_append_right (by simp; omega)]
      simp only [List.length_drop, List.length_map, List.length_range]
      rw [List.getElem?_take, if_pos (by omega), getElem?_map_range c n _ (by omega)]
      rw [← hper (i - (n - p)), show i - (n - p) + n = p + i by omega]
  · refine ⟨0, ?_⟩
    intro i hi
    rw [List.drop_of_length_le (by simp; omega), List.nil_append,
      List.take_of_length_le (by simp; omega), Nat.zero_add]
    exact getElem?_map_range c n i hi

/-- C2: for a well-formed block at state 1 whose boundary nodes all carry flag 2 and whose
links between boundary nodes form a single cycle, a successful `memArrange` writes into the
slots `0..|boundNodes|-1` a permutation of the boundary nodes in which every node is linked to
the node in the next slot, the node in the last of these slots being linked to the node in
slot 0. -/
theorem memArrange_orders_cycle (P : Params) (m : Mesh) (nodeBounds blockFlags : Int → Int)
    (b : Block) (flags1 : Int → Int) (b1 : Block) (cyc : List Int) (hstate : b.blockFlag = 1)
    (hwf : WellFormed m b) (hcyc : CycleOf m b.boundNodes cyc)
    (h : memArrange P m nodeBounds blockFlags b = .ret 0 (flags1, b1)) :
    ((List.range b.boundNodes.length).map b1.nodeRef).Perm b.boundNodes ∧
    ∀ i, i < b.boundNodes.length →
      b1.nodeRef ((i + 1) % b.boundNodes.length) ∈ linksOf m (b1.nodeRef i) := by
  obtain ⟨hndB, _, _, hrange, _, hflags, hownD, hownB⟩ := hwf
  obtain ⟨c0, s, c2, nr, hfill, hwrite, _, hb1⟩ :=
    memArrange_success P m nodeBounds blockFlags b flags1 b1 hstate h
  obtain ⟨c, hwc, hfilled⟩ := floodFill_cycle m b.blockNum nodeBounds b.boundNodes cyc c0 s
    hndB hrange hflags hownD hownB hcyc hfill
  have hn3 : 3 ≤ b.boundNodes.length := by
    rw [← hcyc.1.length_eq]; exact hcyc.2.1
  generalize hord : rotateBound m b.blockNum s.filledBound = ordered
    at hwrite hb1
  obtain ⟨q, hq⟩ : ∃ q, ∀ i, i < b.boundNodes.length → ordered[i]? = some (c (q + i)) := by
    rw [← hord]
    unfold rotateBound
    simp only
    rw [hfilled]
    exact rotated_walk c _ _ hwc.1
  obtain ⟨hw1, _⟩ := writeBound_spec P m.nNodes ordered 0 _ nr c2 hwrite
  have href : b1.nodeRef = writeInt P b.intNodes ordered.length nr := by rw [hb1]
  have hperm0 := floodFill_perm m b.blockNum nodeBounds b.boundNodes c0 s hndB hrange hownD hfill
  have hperm : ordered.Perm b.boundNodes := by
    rw [← hord]
    exact (rotateBound_perm _ _ _).trans hperm0
  have hlen : ordered.length = b.boundNodes.length := hperm.length_eq
  have hslot : ∀ i, i < b.boundNodes.length → b1.nodeRef i = c (q + i) := by
    intro i hi
    rw [href, writeInt_below P _ _ _ i (by omega)]
    have := (hw1 i _ (hq i hi)).1
    rwa [Nat.zero_add] at this
  refine ⟨?_, ?_⟩
  · have heq : (List.range b.boundNodes.length).map b1.nodeRef = ordered := by
      apply List.ext_getElem?
      intro i
      by_cases hi : i < b.boundNodes.length
      · rw [hq i hi, List.getElem?_map, List.getElem?_range hi]
        simp only [Option.map_some']
        rw [hslot i hi]
      · rw [List.getElem?_eq_none (by simp; omega), List.getElem?_eq_none (by omega)]
    rw [heq]
    exact hperm
  · intro i hi
    have hnext : b1.nodeRef ((i + 1) % b.boundNodes.length) = c (q + i + 1) := by
      by_cases hi1 : i + 1 < b.boundNodes.length
      · rw [Nat.mod_eq_of_lt hi1, hslot _ hi1]
        rfl
      · have : i + 1 = b.boundNodes.length := by omega
        rw [this, Nat.mod_self, hslot 0 (by omega), ← hwc.1 (q + 0)]
        congr 1
        omega
    rw [hnext, hslot i hi]
    exact (hwc.2.2.2.2 (q + i) _ (hwc.2.2.1 _) (hwc.ne_succ (by omega) (q + i))).2 (Or.inl rfl)

/-! ## The ring mesh as an input of `memArrange` -/

theorem ringBlock_wellFormed : WellFormed ringMesh ringBlock := by
  refine ⟨by decide, by decide, by decide, by decide, by decide, by decide, ?_, by decide⟩
  intro n hb hf
  have hb2 : [0, 0, 0, 0, 0, 0, 1, 1, 1, 2, 2].getD n.toNat (-1) = (0 : Int) := hb
  have hf2 : [1, 2, 2, 2, 2, 2, 2, 2, 2, 2, 2].getD n.toNat 0 = (2 : Int) := hf
  have hlt : n.toNat < 11 := by
    by_contra hcon
    rw [List.getD_eq_default _ _ (by simp; omega)] at hb2
    omega
  generalize hk : n.toNat = k at hb2 hf2 hlt
  have hn : n = (k : Int) ∨ (n < 0 ∧ k = 0) := by omega
  interval_cases k
  · simp at hf2
  all_goals first
    | (simp at hb2; done)
    | (rcases hn with rfl | ⟨_, h0⟩
       · decide
       · omega)

theorem ringMesh_cycle : CycleOf ringMesh ringBlock.boundNodes [1, 2, 3, 4, 5] := by
  refine ⟨by decide, by decide, ?_⟩
  decide

/-- C2 (witness): block 0 of the ring mesh, whose boundary is the cycle 1-2-3-4-5-1. -/
theorem memArrange_orders_cycle_witness :
    ∃ flags1 b1, memArrange exParams ringMesh (fun _ => 0) (fun _ => 1) ringBlock =
        .ret 0 (flags1, b1) ∧
      ((List.range ringBlock.boundNodes.length).map b1.nodeRef).Perm ringBlock.boundNodes ∧
      ∀ i, i < ringBlock.boundNodes.length →
        b1.nodeRef ((i + 1) % ringBlock.boundNodes.length) ∈ linksOf ringMesh (b1.nodeRef i) :=
  ⟨_, _, rfl, memArrange_orders_cycle exParams ringMesh (fun _ => 0) (fun _ => 1) ringBlock _ _
    [1, 2, 3, 4, 5] (by decide) ringBlock_wellFormed ringMesh_cycle rfl⟩

/-- C4 (witness): block 0 of the ring mesh on the grid of 4 by 2 slots. -/
theorem memArrange_fills_slots_witness :
    ∃ flags1 b1, memArrange exParams ringMesh (fun _ => 0) (fun _ => 1) ringBlock =
        .ret 0 (flags1, b1) ∧
      ∃ ordered : List Int, ordered.Perm ringBlock.boundNodes ∧
        (∀ i x, ordered[i]? = some x → b1.nodeRef i = x) ∧
        (∀ j x, ringBlock.intNodes[j]? = some x →
          b1.nodeRef (ringBlock.boundNodes.length + j) = x) ∧
        (∀ i, ringBlock.boundNodes.length + ringBlock.intNodes.length ≤ i →
          i < exParams.XBLOCKSIZE * exParams.YBLOCKSIZE → b1.nodeRef i = -1) ∧
        (∀ n, n ∈ ringBlock.boundNodes ∨ n ∈ ringBlock.intNodes →
          ∃ i, (i < exParams.XBLOCKSIZE * exParams.YBLOCKSIZE ∧ b1.nodeRef i = n) ∧
            ∀ j, j < exParams.XBLOCKSIZE * exParams.YBLOCKSIZE ∧ b1.nodeRef j = n → j = i) ∧
        b1.blockFlag = 2 :=
  ⟨_, _, rfl, memArrange_fills_slots exParams ringMesh (fun _ => 0) (fun _ => 1) ringBlock _ _
    (by decide) (by decide) ringBlock_wellFormed rfl⟩

/-! ## `linkArrange`: a needed node in row `NACCESSROWS` -/

/-- C11 (code evaluated at the failing input): on the grid of 2 by 4 slots with one accessible
row a block, node 6 of the ring mesh is needed from the neighbour at index 0 (block 1) and lies
in row 1, outside the rows `0..NACCESSROWS-1`. The test `rows[*p] > NACCESSROWS` lets it pass:
the construction of the bitmap runs to its end and writes the bit of node 6 to the index
`rows[6] + 0*NACCESSROWS = 1`, which lies in the row range `[1*NACCESSROWS, 2*NACCESSROWS)` of
the neighbour at index 1 (block 2), and `linkArrange` returns 0, not -10, with a load table
that holds row 0 of block 1 and row 0 of block 2 only. -/
theorem linkArrange_accepts_row_at_bound :
    ∃ conn b1,
      linkBitmap lowParams ringMeshMapped lowCols lowRows ringBlockMapped = .ret 0 conn ∧
      linkArrange lowParams ringMeshMapped lowCols lowRows (fun _ => 2) ringBlockMapped = .ret 0 b1 ∧
      (gather ringMeshMapped ringBlockMapped).2 = [(1, [7, 8, 6]), (2, [9, 10])] ∧
      lowRows 6 = lowParams.NACCESSROWS ∧
      (lowRows 6 + (0 : Nat) * lowParams.NACCESSROWS).toNat = 1 ∧
      1 * lowParams.NACCESSROWS ≤ 1 ∧ 1 < 2 * lowParams.NACCESSROWS ∧
      (List.range 2).map conn = [1, 1] ∧
      (List.range 16).map b1.blockPointers =
        [256, 512, 256, 256, 256, 256, 256, 256, 256, 256, 256, 256, 256, 256, 256, 256] :=
  ⟨_, _, rfl, rfl, by decide, by decide, by decide, by decide, by decide, by decide, by decide⟩

/-! ## `linkArrange`: the entries of the load table -/

theorem buildConn_code (P : Params) (cols rows : Int → Int) (nLinkedBlocks : Nat) :
    ∀ (pairs : List (Nat × Int)) (conn0 conn : Nat → Nat) (code : Int),
      buildConn P cols rows nLinkedBlocks pairs conn0 = .ret code conn → code = 0 ∨ code = -10 := by
  intro pairs
  induction pairs with
  | nil =>
    intro conn0 conn code h
    simp only [buildConn] at h
    injection h with h1 _
    exact Or.inl h1.symm
  | cons pr pairs ih =>
    intro conn0 conn code h
    obtain ⟨cnt, p⟩ := pr
    simp only [buildConn] at h
    split at h
    · injection h with h1 _
      exact Or.inr h1.symm
    · split at h
      · cases h
      · exact ih _ _ _ h

theorem shiftRight_eq_ediv (x : Int) (s : Nat) : x >>> s = x / ((2 ^ s : Nat) : Int) := by
  cases x with
  | ofNat n =>
    show Int.ofNat (n >>> s) = Int.ofNat n / ((2 ^ s : Nat) : Int)
    rw [Nat.shiftRight_eq_div_pow]
    rfl
  | negSucc n =>
    show Int.negSucc (n >>> s) = Int.negSucc n / ((2 ^ s : Nat) : Int)
    rw [Nat.shiftRight_eq_div_pow]
    have hpos : 0 < 2 ^ s := Nat.two_pow_pos s
    generalize 2 ^ s = d at hpos
    cases d with
    | zero => omega
    | succ d => rfl

theorem ldiff_fifteen (n : Nat) : Nat.ldiff 15 n = 15 - n % 16 := by
  have h1 : Nat.ldiff 15 n = 15 ^^^ (n &&& 15) := by
    apply Nat.eq_of_testBit_eq
    intro k
    rw [Nat.testBit_ldiff, Nat.testBit_xor, Nat.testBit_and]
    cases Nat.testBit 15 k <;> cases Nat.testBit n k <;> rfl
  rw [h1, show (15 : Nat) = 2 ^ 4 - 1 from rfl, Nat.and_pow_two_sub_one_eq_mod]
  have h2 : n % 2 ^ 4 < 16 := Nat.mod_lt _ (by decide)
  rw [show n % 16 = n % 2 ^ 4 from rfl]
  generalize n % 2 ^ 4 = r at h2
  revert r
  decide

theorem land_fifteen (x : Int) : Int.land x 15 = x % 16 := by
  cases x with
  | ofNat n =>
    show ((n &&& 15 : Nat) : Int) = (n : Int) % 16
    rw [show (15 : Nat) = 2 ^ 4 - 1 from rfl, Nat.and_pow_two_sub_one_eq_mod]
    omega
  | negSucc n =>
    show ((Nat.ldiff 15 n : Nat) : Int) = Int.negSucc n % 16
    rw [ldiff_fifteen, Int.negSucc_eq]
    omega

theorem pointerOf_spec (P : Params) (lbs : List (Int × List Int)) (i row col : Nat) (v : Int)
    (hrow : row < P.NACCESSROWS) (hcol : col < P.NACCESSCOLS)
    (h : pointerOf P lbs ((i * P.NACCESSROWS + row) * P.NACCESSCOLS + col) = some v) :
    ∃ q, lbs.get? i = some q ∧ v = q.1 * 256 + (row : Int) * 16 + col := by
  have hC : 0 < P.NACCESSCOLS := by omega
  have hR : 0 < P.NACCESSROWS := by omega
  have e1 : ((i * P.NACCESSROWS + row) * P.NACCESSCOLS + col) / P.NACCESSCOLS =
      i * P.NACCESSROWS + row := by
    rw [Nat.add_comm, Nat.add_mul_div_right _ _ hC, Nat.div_eq_of_lt hcol, Nat.zero_add]
  have e2 : ((i * P.NACCESSROWS + row) * P.NACCESSCOLS + col) % P.NACCESSCOLS = col := by
    rw [Nat.add_comm, Nat.add_mul_mod_self_right, Nat.mod_eq_of_lt hcol]
  have e3 : (i * P.NACCESSROWS + row) / P.NACCESSROWS = i := by
    rw [Nat.add_comm, Nat.add_mul_div_right _ _ hR, Nat.div_eq_of_lt hrow, Nat.zero_add]
  have e4 : (i * P.NACCESSROWS + row) % P.NACCESSROWS = row := by
    rw [Nat.add_comm, Nat.add_mul_mod_self_right, Nat.mod_eq_of_lt hrow]
  unfold pointerOf at h
  rw [if_neg (by omega)] at h
  simp only [e1, e2, e3, e4] at h
  split at h
  · cases h
  · rename_i q hq
    split at h
    · cases h
    · injection h with h1
      exact ⟨q, hq, h1.symm⟩

theorem publish_spec (P : Params) (lbs : List (Int × List Int)) (loadMaps : Nat → Nat) :
    ∀ (ks : List Nat) (bp0 bp : Nat → Int), ks.Nodup →
      publish P lbs loadMaps ks bp0 = some bp →
      (∀ k, k ∉ ks → bp k = bp0 k) ∧
      (∀ k ∈ ks, pointerOf P lbs (loadMaps k) = some (bp k)) := by
  intro ks
  induction ks with
  | nil =>
    intro bp0 bp _ h
    simp only [publish] at h
    injection h with h1
    subst h1
    exact ⟨fun _ _ => rfl, fun k hk => absurd hk (List.not_mem_nil k)⟩
  | cons cnt rest ih =>
    intro bp0 bp hnd h
    simp only [publish] at h
    split at h
    · cases h
    · rename_i v hv
      obtain ⟨hfr, hin⟩ := ih _ _ (List.nodup_cons.1 hnd).2 h
      constructor
      · intro k hk
        rw [hfr k (fun hmem => hk (List.mem_cons_of_mem _ hmem))]
        exact setAt_other _ _ _ _ (fun e => hk (e ▸ List.mem_cons_self _ _))
      · intro k hk
        rcases List.mem_cons.1 hk with e | hmem
        · subst e
          rw [hfr k (List.nodup_cons.1 hnd).1, setAt_same]
          exact hv
        · exact hin k hmem

theorem linkArrange_success (P : Params) (m : Mesh) (cols rows blockFlags : Int → Int)
    (b b1 : Block) (hstate : b.blockFlag = 2)
    (h : linkArrange P m cols rows blockFlags b = .ret 0 b1) :
    ∃ conn s bp, linkBitmap P m cols rows b = .ret 0 conn ∧
      packLoads P ((gather m b).2.length * P.NACCESSROWS) conn = .ret 0 s ∧
      publish P (gather m b).2 s.loadMaps (List.range P.NBLOCKLINKS)
        (clearPointers P b.blockPointers) = some bp ∧
      b1 = { b with blockPointers := bp, blockFlag := 3 } := by
  unfold linkArrange at h
  rw [if_neg (by omega), if_neg (by omega)] at h
  split at h
  · injection h with h1 _; omega
  · simp only at h
    split at h
    · cases h
    · split at h
      · cases h
      · cases h
      · cases h
      · rename_i code conn hbit
        split at h
        · injection h with h1 _; omega
        · rename_i hcode
          have hcode0 : code = 0 := by
            rcases buildConn_code P cols rows _ _ _ _ _ hbit with h0 | h0
            · exact h0
            · exact absurd h0 hcode
          subst hcode0
          split at h
          · cases h
          · cases h
          · cases h
          · rename_i code2 s hpack
            split at h
            · injection h with h1 _; omega
            · rename_i hcode2
              have hcode20 : code2 = 0 := by
                rcases packLoop_code P _ _ _ _ _ hpack with h0 | h0
                · exact h0.1
                · exact absurd h0.1 hcode2
              subst hcode20
              split at h
              · cases h
              · rename_i bp hpub
                injection h with _ h2
                exact ⟨conn, s, bp, hbit, hpack, hpub, h2.symm⟩

/-- C12: when `linkArrange` on a block at state 2 returns 0, `blockFlag` is 3, and for every
slot `k` of the load table (the filled ones among them) whose entry of `loadMaps` is
`(i*NACCESSROWS + row)*NACCESSCOLS + col` with `row < NACCESSROWS` and `col < NACCESSCOLS`,
the neighbour at index `i` of the gathered list exists and, with `B` its block number,
`blockPointers[k] = (B << 8) + (row << 4) + col`; when `NACCESSROWS <= 16` and
`NACCESSCOLS <= 16` the three parts are read back as `ptr >> 8`, `(ptr >> 4) & 15` and
`ptr & 15`. -/
theorem linkArrange_publishes (P : Params) (m : Mesh) (cols rows blockFlags : Int → Int)
    (b b1 : Block) (hstate : b.blockFlag = 2)
    (h : linkArrange P m cols rows blockFlags b = .ret 0 b1) :
    b1.blockFlag = 3 ∧
    ∃ conn s, linkBitmap P m cols rows b = .ret 0 conn ∧
      packLoads P ((gather m b).2.length * P.NACCESSROWS) conn = .ret 0 s ∧
      ∀ k, k < P.NBLOCKLINKS → ∀ i row col,
        s.loadMaps k = (i * P.NACCESSROWS + row) * P.NACCESSCOLS + col →
        row < P.NACCESSROWS → col < P.NACCESSCOLS →
        ∃ q, (gather m b).2.get? i = some q ∧
          b1.blockPointers k = q.1 * 256 + (row : Int) * 16 + col ∧
          (P.NACCESSROWS ≤ 16 → P.NACCESSCOLS ≤ 16 →
            b1.blockPointers k >>> (8 : Nat) = q.1 ∧
            Int.land (b1.blockPointers k >>> (4 : Nat)) 15 = row ∧
            Int.land (b1.blockPointers k) 15 = col) := by
  obtain ⟨conn, s, bp, hbit, hpack, hpub, hb1⟩ :=
    linkArrange_success P m cols rows blockFlags b b1 hstate h
  subst hb1
  refine ⟨rfl, conn, s, hbit, hpack, ?_⟩
  intro k hk i row col hform hrow hcol
  have hp := (publish_spec P _ _ _ _ _ (List.nodup_range _) hpub).2 k (List.mem_range.2 hk)
  rw [hform] at hp
  obtain ⟨q, hq, hv⟩ := pointerOf_spec P _ i row col _ hrow hcol hp
  refine ⟨q, hq, hv, ?_⟩
  intro hR hC
  show bp k >>> (8 : Nat) = q.1 ∧ Int.land (bp k >>> (4 : Nat)) 15 = row ∧ Int.land (bp k) 15 = col
  rw [land_fifteen, land_fifteen, shiftRight_eq_ediv, shiftRight_eq_ediv, hv]
  have h8 : ((2 ^ 8 : Nat) : Int) = 256 := by decide
  have h4 : ((2 ^ 4 : Nat) : Int) = 16 := by decide
  rw [h8, h4]
  omega

/-- C12 (witness): block 0 of the ring mesh with the catalogue 4,4,4,4,2,2,2,2,1,...,1. -/
theorem linkArrange_publishes_witness :
    ∃ b1, linkArrange exParams ringMeshMapped ringCols ringRows (fun _ => 2) ringBlockMapped =
        .ret 0 b1 ∧
    b1.blockFlag = 3 ∧
    ∃ conn s, linkBitmap exParams ringMeshMapped ringCols ringRows ringBlockMapped = .ret 0 conn ∧
      packLoads exParams ((gather ringMeshMapped ringBlockMapped).2.length * exParams.NACCESSROWS)
        conn = .ret 0 s ∧
      ∀ k, k < exParams.NBLOCKLINKS → ∀ i row col,
        s.loadMaps k = (i * exParams.NACCESSROWS + row) * exParams.NACCESSCOLS + col →
        row < exParams.NACCESSROWS → col < exParams.NACCESSCOLS →
        ∃ q, (gather ringMeshMapped ringBlockMapped).2.get? i = some q ∧
          b1.blockPointers k = q.1 * 256 + (row : Int) * 16 + col ∧
          (exParams.NACCESSROWS ≤ 16 → exParams.NACCESSCOLS ≤ 16 →
            b1.blockPointers k >>> (8 : Nat) = q.1 ∧
            Int.land (b1.blockPointers k >>> (4 : Nat)) 15 = row ∧
            Int.land (b1.blockPointers k) 15 = col) :=
  ⟨_, rfl, linkArrange_publishes exParams ringMeshMapped ringCols ringRows (fun _ => 2)
    ringBlockMapped _ (by decide) rfl⟩

/-! ## The state checks at the head of `memArrange` and `linkArrange` -/

/-- C13: a block with `blockFlag >= 2` makes `memArrange` return 0 with the node flags and the
block (state, slot grid, load table, node lists) as they were, and a block with
`blockFlag >= 3` makes `linkArrange` return 0 with the block as it was, whatever the size of
the block, its boundary and the states of the other blocks are. -/
theorem memArrange_linkArrange_idempotent (P : Params) (m : Mesh)
    (nodeBounds cols rows blockFlags : Int → Int) (b : Block) :
    (b.blockFlag ≥ 2 → memArrange P m nodeBounds blockFlags b = .ret 0 (m.flags, b)) ∧
    (b.blockFlag ≥ 3 → linkArrange P m cols rows blockFlags b = .ret 0 b) := by
  constructor
  · intro h
    unfold memArrange
    rw [if_pos h]
  · intro h
    unfold linkArrange
    rw [if_pos h]

/-- C13 (witness): block 0 of the ring mesh at state 2, and at state 3, with every other block
at state 0. -/
theorem memArrange_linkArrange_idempotent_witness :
    memArrange exParams ringMeshMapped (fun _ => 0) (fun _ => 0) ringBlockMapped =
        .ret 0 (ringMeshMapped.flags, ringBlockMapped) ∧
      linkArrange exParams ringMeshMapped ringCols ringRows (fun _ => 0)
          { ringBlockMapped with blockFlag := 3 } =
        .ret 0 { ringBlockMapped with blockFlag := 3 } :=
  ⟨(memArrange_linkArrange_idempotent exParams ringMeshMapped (fun _ => 0) ringCols ringRows
      (fun _ => 0) ringBlockMapped).1 (by decide),
   (memArrange_linkArrange_idempotent exParams ringMeshMapped (fun _ => 0) ringCols ringRows
      (fun _ => 0) { ringBlockMapped with blockFlag := 3 }).2 (by decide)⟩

/-- C14: `memArrange` on a block at state 1 that owns a node and has no more than
`MAXBOUNDSIZE` boundary nodes returns -2 when some attached block has `blockFlag < 1`, and
`linkArrange` on a block at state 2 returns -2 when some attached block has `blockFlag < 2`;
both leave the node flags and the block (state, slot grid, load table) as they were. -/
theorem retry_later_leaves_state (P : Params) (m : Mesh)
    (nodeBounds cols rows blockFlags : Int → Int) (b : Block) :
    (b.blockFlag = 1 → b.size ≠ 0 → b.boundNodes.length ≤ P.MAXBOUNDSIZE →
      (∃ p ∈ getLinks m b, blockFlags p < 1) →
      memArrange P m nodeBounds blockFlags b = .ret (-2) (m.flags, b)) ∧
    (b.blockFlag = 2 → (∃ p ∈ getLinks m b, blockFlags p < 2) →
      linkArrange P m cols rows blockFlags b = .ret (-2) b) := by
  constructor
  · intro hstate hsize hbound hatt
    have hany : (getLinks m b).any (fun p => blockFlags p < 1) = true := by
      obtain ⟨p, hp, hlt⟩ := hatt
      exact List.any_eq_true.2 ⟨p, hp, by simpa using hlt⟩
    unfold memArrange
    rw [if_neg (by omega), if_neg hsize, if_neg (by omega), if_neg (by omega), if_pos hany]
  · intro hstate hatt
    have hany : (getLinks m b).any (fun p => blockFlags p < 2) = true := by
      obtain ⟨p, hp, hlt⟩ := hatt
      exact List.any_eq_true.2 ⟨p, hp, by simpa using hlt⟩
    unfold linkArrange
    rw [if_neg (by omega), if_neg (by omega), if_pos hany]

/-- C14 (witness): block 0 of the ring mesh at state 1 while block 2 is at state 0, and at
state 2 while block 2 is at state 1. -/
theorem retry_later_leaves_state_witness :
    memArrange exParams ringMesh (fun _ => 0) (fun p => if p = 2 then 0 else 1) ringBlock =
        .ret (-2) (ringMesh.flags, ringBlock) ∧
      linkArrange exParams ringMeshMapped ringCols ringRows (fun p => if p = 2 then 1 else 2)
          ringBlockMapped = .ret (-2) ringBlockMapped :=
  ⟨(retry_later_leaves_state exParams ringMesh (fun _ => 0) ringCols ringRows
      (fun p => if p = 2 then 0 else 1) ringBlock).1 (by decide) (by decide) (by decide)
      ⟨2, by decide, by decide⟩,
   (retry_later_leaves_state exParams ringMeshMapped (fun _ => 0) ringCols ringRows
      (fun p => if p = 2 then 1 else 2) ringBlockMapped).2 (by decide) ⟨2, by decide, by decide⟩⟩

/-- C15: a block with `blockFlag < 2` that owns a node and has more than `MAXBOUNDSIZE`
boundary nodes makes `memArrange` return -10 with every node flag, the slot grid and
`blockFlag` as they were. -/
theorem memArrange_over_capacity (P : Params) (m : Mesh) (nodeBounds blockFlags : Int → Int)
    (b : Block) (hstate : b.blockFlag < 2) (hsize : b.size ≠ 0)
    (hbound : b.boundNodes.length > P.MAXBOUNDSIZE) :
    memArrange P m nodeBounds blockFlags b = .ret (-10) (m.flags, b) := by
  unfold memArrange
  rw [if_neg (by omega), if_neg hsize, if_pos hbound]

/-- C15 (witness): block 0 of the ring mesh, with five boundary nodes, at state 0 under a
limit of four boundary nodes. -/
theorem memArrange_over_capacity_witness :
    memArrange { exParams with MAXBOUNDSIZE := 4 } ringMesh (fun _ => 0) (fun _ => 1)
        { ringBlock with blockFlag := 0 } =
      .ret (-10) (ringMesh.flags, { ringBlock with blockFlag := 0 }) :=
  memArrange_over_capacity { exParams with MAXBOUNDSIZE := 4 } ringMesh (fun _ => 0) (fun _ => 1)
    { ringBlock with blockFlag := 0 } (by decide) (by decide) (by decide)

/-! ## The resets `removeOrderFlags` and `removeLinkFlags` -/

theorem foldl_setAtI (v : Int) : ∀ (l : List Int) (f : Int → Int) (n : Int),
    (l.foldl (fun flags p => setAtI flags p v) f) n = if n ∈ l then v else f n := by
  intro l
  induction l with
  | nil => intro f n; simp
  | cons p l ih =>
    intro f n
    rw [List.foldl_cons, ih]
    by_cases h1 : n ∈ l
    · rw [if_pos h1, if_pos (List.mem_cons_of_mem _ h1)]
    · rw [if_neg h1]
      by_cases h2 : n = p
      · rw [h2, setAtI_same, if_pos (List.mem_cons_self _ _)]
      · rw [setAtI_other _ _ _ _ h2, if_neg]
        intro hmem
        rcases List.mem_cons.1 hmem with h | h
        · exact h2 h
        · exact h1 h

theorem memArrange_lists (P : Params) (m : Mesh) (nodeBounds blockFlags : Int → Int)
    (b b1 : Block) (code : Int) (flags1 : Int → Int)
    (h : memArrange P m nodeBounds blockFlags b = .ret code (flags1, b1)) :
    b1.boundNodes = b.boundNodes ∧ b1.intNodes = b.intNodes ∧ b1.blockNum = b.blockNum := by
  unfold memArrange at h
  split at h
  · injection h with _ h2; injection h2 with _ h3; subst h3; exact ⟨rfl, rfl, rfl⟩
  · split at h
    · cases h
    · split at h
      · injection h with _ h2; injection h2 with _ h3; subst h3; exact ⟨rfl, rfl, rfl⟩
      · split at h
        · cases h
        · split at h
          · injection h with _ h2; injection h2 with _ h3; subst h3; exact ⟨rfl, rfl, rfl⟩
          · split at h
            · cases h
            · cases h
            · cases h
            · simp only at h
              split at h
              · cases h
              · cases h
              · cases h
              · injection h with _ h2; injection h2 with _ h3; subst h3; exact ⟨rfl, rfl, rfl⟩

/-- C16: for a block in any state whose boundary nodes are not also listed as interior nodes,
after `removeOrderFlags` the state is 1, every slot of `nodeRef` holds -1, every entry of the
load table is 0, every interior node has flag 1 and every boundary node has flag 2. In
particular, when the nodes of the block carried these flags (interior 1, boundary 2) before a
call of `memArrange` that returned 0, `removeOrderFlags` after that call gives every node of
the block the flag it had before the call. -/
theorem removeOrderFlags_resets (P : Params) (m : Mesh) (b : Block)
    (hdisj : ∀ n ∈ b.boundNodes, n ∉ b.intNodes) :
    (removeOrderFlags P m b).2.blockFlag = 1 ∧
    (∀ i, i < P.XBLOCKSIZE * P.YBLOCKSIZE → (removeOrderFlags P m b).2.nodeRef i = -1) ∧
    (∀ k, k < P.NBLOCKLINKS → (removeOrderFlags P m b).2.blockPointers k = 0) ∧
    (∀ n ∈ b.intNodes, (removeOrderFlags P m b).1 n = 1) ∧
    (∀ n ∈ b.boundNodes, (removeOrderFlags P m b).1 n = 2) ∧
    (∀ (nodeBounds blockFlags flags1 : Int → Int) (b1 : Block),
      (∀ n ∈ b.intNodes, m.flags n = 1) → (∀ n ∈ b.boundNodes, m.flags n = 2) →
      memArrange P m nodeBounds blockFlags b = .ret 0 (flags1, b1) →
      ∀ n, n ∈ b.boundNodes ∨ n ∈ b.intNodes →
        (removeOrderFlags P { m with flags := flags1 } b1).1 n = m.flags n) := by
  have hint : ∀ (f : Int → Int) (bn inn : List Int), (∀ n ∈ bn, n ∉ inn) → ∀ n ∈ inn,
      (bn.foldl (fun flags p => setAtI flags p 2)
        (inn.foldl (fun flags p => setAtI flags p 1) f)) n = 1 := by
    intro f bn inn hd n hn
    rw [foldl_setAtI, foldl_setAtI, if_neg (fun hb => hd n hb hn), if_pos hn]
  have hbnd : ∀ (f : Int → Int) (bn inn : List Int), ∀ n ∈ bn,
      (bn.foldl (fun flags p => setAtI flags p 2)
        (inn.foldl (fun flags p => setAtI flags p 1) f)) n = 2 := by
    intro f bn inn n hn
    rw [foldl_setAtI, if_pos hn]
  refine ⟨rfl, ?_, ?_, ?_, ?_, ?_⟩
  · intro i hi
    simp [removeOrderFlags, clearNodeRef, hi]
  · intro k hk
    simp [removeOrderFlags, clearPointers, hk]
  · intro n hn
    exact hint m.flags b.boundNodes b.intNodes hdisj n hn
  · intro n hn
    exact hbnd m.flags b.boundNodes b.intNodes n hn
  · intro nodeBounds blockFlags flags1 b1 hi hb hcall n hn
    obtain ⟨e1, e2, _⟩ := memArrange_lists P m nodeBounds blockFlags b b1 0 flags1 hcall
    show (b1.boundNodes.foldl (fun flags p => setAtI flags p 2)
        (b1.intNodes.foldl (fun flags p => setAtI flags p 1) flags1)) n = m.flags n
    rw [e1, e2]
    rcases hn with hn | hn
    · rw [hbnd flags1 _ _ n hn, hb n hn]
    · rw [hint flags1 _ _ hdisj n hn, hi n hn]

/-- C16 (witness): block 0 of the ring mesh, reset as it is and reset after `memArrange`. -/
theorem removeOrderFlags_resets_witness :
    (removeOrderFlags exParams ringMesh ringBlock).2.blockFlag = 1 ∧
    (∀ i, i < exParams.XBLOCKSIZE * exParams.YBLOCKSIZE →
      (removeOrderFlags exParams ringMesh ringBlock).2.nodeRef i = -1) ∧
    (∀ k, k < exParams.NBLOCKLINKS → (removeOrderFlags exParams ringMesh ringBlock).2.blockPointers k = 0) ∧
    (∀ n ∈ ringBlock.intNodes, (removeOrderFlags exParams ringMesh ringBlock).1 n = 1) ∧
    (∀ n ∈ ringBlock.boundNodes, (removeOrderFlags exParams ringMesh ringBlock).1 n = 2) ∧
    ∃ flags1 b1, memArrange exParams ringMesh (fun _ => 0) (fun _ => 1) ringBlock = .ret 0 (flags1, b1) ∧
      flags1 1 = 4 ∧
      ∀ n, n ∈ ringBlock.boundNodes ∨ n ∈ ringBlock.intNodes →
        (removeOrderFlags exParams { ringMesh with flags := flags1 } b1).1 n = ringMesh.flags n :=
  have h := removeOrderFlags_resets exParams ringMesh ringBlock (by decide)
  ⟨h.1, h.2.1, h.2.2.1, h.2.2.2.1, h.2.2.2.2.1, _, _, rfl, by decide,
    h.2.2.2.2.2 (fun _ => 0) (fun _ => 1) _ _ (by decide) (by decide) rfl⟩

/-- C17: `removeLinkFlags` leaves the node flags and the block as they are when
`blockFlag <= 2`; when `blockFlag >= 3` it sets `blockFlag` to 2 and every entry of the load
table to 0 and leaves the slot grid `nodeRef`, the node lists and all node flags as they are. -/
theorem removeLinkFlags_frame (P : Params) (m : Mesh) (b : Block) :
    (b.blockFlag ≤ 2 → removeLinkFlagsOn P m b = (m.flags, b)) ∧
    (b.blockFlag ≥ 3 →
      (removeLinkFlagsOn P m b).2.blockFlag = 2 ∧
      (∀ k, k < P.NBLOCKLINKS → (removeLinkFlagsOn P m b).2.blockPointers k = 0) ∧
      (removeLinkFlagsOn P m b).2.nodeRef = b.nodeRef ∧
      (removeLinkFlagsOn P m b).1 = m.flags ∧
      (removeLinkFlagsOn P m b).2.boundNodes = b.boundNodes ∧
      (removeLinkFlagsOn P m b).2.intNodes = b.intNodes ∧
      (removeLinkFlagsOn P m b).2.blockNum = b.blockNum) := by
  constructor
  · intro h
    unfold removeLinkFlagsOn removeLinkFlags
    rw [if_pos h]
  · intro h
    unfold removeLinkFlagsOn removeLinkFlags
    rw [if_neg (by omega)]
    refine ⟨rfl, ?_, rfl, rfl, rfl, rfl, rfl⟩
    intro k hk
    simp [clearPointers, hk]

/-- C17 (witness): block 0 of the ring mesh at state 2, and at state 3 with 7 in every entry
of its load table. -/
theorem removeLinkFlags_frame_witness :
    removeLinkFlagsOn exParams ringMeshMapped ringBlockStale = (ringMeshMapped.flags, ringBlockStale) ∧
    ((removeLinkFlagsOn exParams ringMeshMapped { ringBlockStale with blockFlag := 3 }).2.blockFlag = 2 ∧
      (∀ k, k < exParams.NBLOCKLINKS →
        (removeLinkFlagsOn exParams ringMeshMapped { ringBlockStale with blockFlag := 3 }).2.blockPointers k = 0) ∧
      (removeLinkFlagsOn exParams ringMeshMapped { ringBlockStale with blockFlag := 3 }).2.nodeRef =
        ringBlockStale.nodeRef ∧
      (removeLinkFlagsOn exParams ringMeshMapped { ringBlockStale with blockFlag := 3 }).1 =
        ringMeshMapped.flags ∧
      (removeLinkFlagsOn exParams ringMeshMapped { ringBlockStale with blockFlag := 3 }).2.boundNodes =
        ringBlockStale.boundNodes ∧
      (removeLinkFlagsOn exParams ringMeshMapped { ringBlockStale with blockFlag := 3 }).2.intNodes =
        ringBlockStale.intNodes ∧
      (removeLinkFlagsOn exParams ringMeshMapped { ringBlockStale with blockFlag := 3 }).2.blockNum =
        ringBlockStale.blockNum) :=
  ⟨(removeLinkFlags_frame exParams ringMeshMapped ringBlockStale).1 (by decide),
   (removeLinkFlags_frame exParams ringMeshMapped { ringBlockStale with blockFlag := 3 }).2 (by decide)⟩

/-! ## `memArrange`: node numbers outside the mesh -/

/-- C18 (code evaluated at the failing input): the ring mesh has the nodes 0 to 10 and the
block lists the number 11 among its interior nodes. `memArrange` returns 0 and moves the block
to state 2 with 11 stored in slot 6 of `nodeRef`: the test `*p > nNodes` is made for the
boundary nodes only, and it would let the number `nNodes` pass there as well. The error 2413 is
thrown by the later call of `updateColsRows`, which tests `node >= nNodes`. -/
theorem memArrange_stores_node_out_of_range :
    ∃ flags b1, memArrange exParams ringMesh (fun _ => 0) (fun _ => 1) strayBlock = .ret 0 (flags, b1) ∧
      ringMesh.nNodes = 11 ∧ b1.blockFlag = 2 ∧
      (List.range 8).map b1.nodeRef = [1, 2, 3, 4, 5, 0, 11, -1] ∧
      (writeBound exParams ringMesh.nNodes [11] 0 (fun _ => -1)).code = some 0 ∧
      (updateColsRows exParams ringMesh b1 (fun _ => 0) (fun _ => 0)).errNum = some 2413 :=
  ⟨_, _, rfl, by decide, by decide, by decide, by decide, by decide⟩

/-! ## Ownership frame: the flood fill writes flags of nodes of the block only -/

theorem scanBoth_writes (m : Mesh) (last : Int) :
    ∀ (rest kept : List Int) (flags : Int → Int) (n : Int), n ∉ rest →
      (scanBoth m last kept rest flags).2.2 n = flags n := by
  intro rest
  induction rest with
  | nil =>
    intro kept flags n _
    simp only [scanBoth]
  | cons p rest ih =>
    intro kept flags n hn
    have hnp : n ≠ p := fun e => hn (e ▸ List.mem_cons_self _ _)
    have hnr : n ∉ rest := fun hmem => hn (List.mem_cons_of_mem _ hmem)
    simp only [scanBoth]
    split
    · exact ih kept flags n hnr
    · split
      · split
        · exact setAtI_other _ _ _ _ hnp
        · rw [ih kept (setAtI flags p 3) n hnr]
          exact setAtI_other _ _ _ _ hnp
      · exact ih (kept ++ [p]) flags n hnr

theorem seedLinked_writes (m : Mesh) (last : Int) :
    ∀ (nodes : List Int) (flags : Int → Int) (n : Int), n ∉ nodes →
      (seedLinked m last nodes flags).2 n = flags n := by
  intro nodes
  induction nodes with
  | nil =>
    intro flags n _
    simp only [seedLinked]
  | cons p nodes ih =>
    intro flags n hn
    have hnp : n ≠ p := fun e => hn (e ▸ List.mem_cons_self _ _)
    have hnr : n ∉ nodes := fun hmem => hn (List.mem_cons_of_mem _ hmem)
    simp only [seedLinked]
    split
    · split
      · exact setAtI_other _ _ _ _ hnp
      · rw [ih (setAtI flags p 3) n hnr]
        exact setAtI_other _ _ _ _ hnp
    · exact ih flags n hnr

theorem seedAny_writes (nodes : List Int) (flags : Int → Int) (n : Int) (hn : n ∉ nodes) :
    (seedAny nodes flags).2 n = flags n := by
  unfold seedAny
  split
  · rename_i p hp
    have hmem := List.mem_of_find?_eq_some hp
    exact setAtI_other _ _ _ _ (fun e => hn (e ▸ hmem))
  · rfl

theorem reseed_writes (m : Mesh) (boundNodes : List Int) (s : FillState)
    (hbb : ∀ n ∈ s.bothBounds, n ∈ boundNodes) :
    (∀ d bb f, reseed m boundNodes s = .node d bb f → ∀ n, n ∉ boundNodes → f n = s.flags n) ∧
    (∀ f, reseed m boundNodes s = .noFreeNode f → ∀ n, n ∉ boundNodes → f n = s.flags n) := by
  have hnb : ∀ n, n ∉ boundNodes → n ∉ s.bothBounds := fun n hn hmem => hn (hbb n hmem)
  constructor
  · intro d bb f h n hn
    have hd := (reseed_spec m boundNodes s d bb f hbb h).2.1
    have hnd : n ≠ d := fun e => hn (e ▸ hd)
    unfold reseed at h
    split at h
    · have hw := scanBoth_writes m s.lastBlockLinked s.bothBounds [] s.flags n (hnb n hn)
      have hs := scanBoth_spec m s.lastBlockLinked s.flags s.bothBounds [] s.flags
        (Marked.refl _) (by simp)
      generalize scanBoth m s.lastBlockLinked [] s.bothBounds s.flags = r at h hw hs
      obtain ⟨d0, bb0, f0⟩ := r
      simp only at h hw hs
      split at h
      · split at h
        · cases h
        · injection h with h1 h2 h3
          subst h1 h2 h3
          rw [setAtI_other _ _ _ _ hnd]
          exact hw
      · injection h with h1 h2 h3
        subst h1 h2 h3
        exact hw
    · have hw := seedLinked_writes m s.lastBlockLinked boundNodes s.flags n hn
      generalize seedLinked m s.lastBlockLinked boundNodes s.flags = r at h hw
      obtain ⟨d0, f0⟩ := r
      simp only at h hw
      split at h
      · have hw2 := seedAny_writes boundNodes f0 n hn
        generalize seedAny boundNodes f0 = r2 at h hw2
        obtain ⟨d2, f2⟩ := r2
        simp only at h hw2
        split at h
        · cases h
        · injection h with h1 h2 h3
          subst h1 h2 h3
          rw [hw2, hw]
      · injection h with h1 h2 h3
        subst h1 h2 h3
        exact hw
  · intro f h n hn
    unfold reseed at h
    split at h
    · generalize scanBoth m s.lastBlockLinked [] s.bothBounds s.flags = r at h
      obtain ⟨d0, bb0, f0⟩ := r
      simp only at h
      split at h
      · split at h
        · cases h
        · cases h
      · cases h
    · have hw := seedLinked_writes m s.lastBlockLinked boundNodes s.flags n hn
      generalize seedLinked m s.lastBlockLinked boundNodes s.flags = r at h hw
      obtain ⟨d0, f0⟩ := r
      simp only at h hw
      split at h
      · have hw2 := seedAny_writes boundNodes f0 n hn
        generalize seedAny boundNodes f0 = r2 at h hw2
        obtain ⟨d2, f2⟩ := r2
        simp only at h hw2
        split at h
        · injection h with h1
          subst h1
          rw [hw2, hw]
        · cases h
      · cases h

theorem visitLinks_frame (m : Mesh) (blockNum : Int) :
    ∀ (links : List Int) (flags : Int → Int) (toCheck : List Int) (last : Int),
      (∀ n ∈ toCheck, m.nodeBlocks n = blockNum) →
      (∀ n, m.nodeBlocks n ≠ blockNum →
        (visitLinks m blockNum links (flags, toCheck, last)).1 n = flags n) ∧
      (∀ n ∈ (visitLinks m blockNum links (flags, toCheck, last)).2.1,
        m.nodeBlocks n = blockNum) := by
  intro links
  induction links with
  | nil =>
    intro flags toCheck last h
    exact ⟨fun _ _ => rfl, h⟩
  | cons linkNode links ih =>
    intro flags toCheck last h
    simp only [visitLinks]
    split
    · rename_i hc
      have h2 : ∀ n ∈ toCheck ++ [linkNode], m.nodeBlocks n = blockNum := by
        intro n hn
        rcases List.mem_append.1 hn with h1 | h1
        · exact h n h1
        · rw [List.mem_singleton] at h1
          subst h1
          exact hc.1
      have := ih (setAtI flags linkNode 3) (toCheck ++ [linkNode]) last h2
      refine ⟨?_, this.2⟩
      intro n hn
      rw [this.1 n hn]
      exact setAtI_other _ _ _ _ (fun e => hn (e ▸ hc.1))
    · split
      · exact ih flags toCheck blockNum h
      · exact ih flags toCheck last h

theorem finishRound_frame (m : Mesh) (blockNum : Int) (boundNodes : List Int) (doNode : Int)
    (flags : Int → Int) (toCheck filled bothBounds : List Int) (last : Int)
    (hflags : ∀ n, m.nodeBlocks n ≠ blockNum → flags n = m.flags n)
    (hdo : m.nodeBlocks doNode = blockNum)
    (hfilled : ∀ n ∈ filled, m.nodeBlocks n = blockNum)
    (hcheck : ∀ n ∈ toCheck, m.nodeBlocks n = blockNum)
    (hbb : ∀ n ∈ bothBounds, n ∈ boundNodes) :
    FrameInv m blockNum boundNodes
      (finishRound m blockNum doNode flags toCheck filled bothBounds last) := by
  have hv := visitLinks_frame m blockNum (linksOf m doNode) flags toCheck last hcheck
  unfold finishRound
  generalize visitLinks m blockNum (linksOf m doNode) (flags, toCheck, last) = r at hv
  obtain ⟨f1, tc1, l1⟩ := r
  simp only at hv ⊢
  refine ⟨?_, ?_, hv.2, hbb⟩
  · intro n hn
    have hnd : n ≠ doNode := fun e => hn (e ▸ hdo)
    show setAtI f1 doNode 4 n = m.flags n
    rw [setAtI_other _ _ _ _ hnd, hv.1 n hn, hflags n hn]
  · intro n hn
    rcases List.mem_append.1 hn with h1 | h1
    · exact hfilled n h1
    · rw [List.mem_singleton] at h1
      subst h1
      exact hdo

theorem fillStep_frame (m : Mesh) (blockNum : Int) (boundNodes : List Int) (s : FillState)
    (hb : ∀ n ∈ boundNodes, m.nodeBlocks n = blockNum)
    (hinv : FrameInv m blockNum boundNodes s) :
    (∀ s1, fillStep m blockNum boundNodes s = .next s1 → FrameInv m blockNum boundNodes s1) ∧
    (∀ s1, fillStep m blockNum boundNodes s = .done s1 → FrameInv m blockNum boundNodes s1) ∧
    (∀ e s1, fillStep m blockNum boundNodes s = .thrown e s1 →
      ∀ n, m.nodeBlocks n ≠ blockNum → s1.flags n = m.flags n) := by
  obtain ⟨hfl, hfilled, hcheck, hbb⟩ := hinv
  have hout : ∀ n, m.nodeBlocks n ≠ blockNum → n ∉ boundNodes := fun n hn hmem => hn (hb n hmem)
  have hw := reseed_writes m boundNodes s hbb
  refine ⟨?_, ?_, ?_⟩
  · intro s1 h
    unfold fillStep at h
    split at h
    · split at h
      · cases h
      · split at h
        · rename_i d bb f hseed
          injection h with h
          subst h
          obtain ⟨_, hd, _, _, hbb2⟩ := reseed_spec m boundNodes s d bb f hbb hseed
          refine finishRound_frame m blockNum boundNodes d f [] s.filledBound bb _ ?_ (hb d hd)
            hfilled (by simp) hbb2
          intro n hn
          rw [hw.1 d bb f hseed n (hout n hn), hfl n hn]
        · cases h
        · cases h
    · rename_i doNode toCheck htc
      injection h with h
      subst h
      rw [htc] at hcheck
      exact finishRound_frame m blockNum boundNodes doNode s.flags toCheck s.filledBound
        s.bothBounds _ hfl (hcheck doNode (List.mem_cons_self _ _)) hfilled
        (fun n hn => hcheck n (List.mem_cons_of_mem _ hn)) hbb
  · intro s1 h
    obtain ⟨e, _⟩ := fillStep_done m blockNum boundNodes s s1 h
    subst e
    exact ⟨hfl, hfilled, hcheck, hbb⟩
  · intro e s1 h
    unfold fillStep at h
    split at h
    · split at h
      · cases h
      · split at h
        · cases h
        · rename_i f hseed
          injection h with _ h
          subst h
          intro n hn
          show f n = m.flags n
          rw [hw.2 f hseed n (hout n hn), hfl n hn]
        · cases h
    · cases h

theorem fillLoop_frame (m : Mesh) (blockNum : Int) (boundNodes : List Int)
    (hb : ∀ n ∈ boundNodes, m.nodeBlocks n = blockNum) :
    ∀ (fuel : Nat) (s : FillState), FrameInv m blockNum boundNodes s →
      (∀ c s1, forLoop (fillStep m blockNum boundNodes) fuel s = .ret c s1 →
        FrameInv m blockNum boundNodes s1) ∧
      (∀ e s1, forLoop (fillStep m blockNum boundNodes) fuel s = .thrown e s1 →
        ∀ n, m.nodeBlocks n ≠ blockNum → s1.flags n = m.flags n) := by
  intro fuel
  induction fuel with
  | zero =>
    intro s hinv
    constructor
    · intro c s1 h
      simp only [forLoop] at h
      injection h with _ h
      subst h
      exact hinv
    · intro e s1 h
      simp only [forLoop] at h
      cases h
  | succ fuel ih =>
    intro s hinv
    obtain ⟨hnext, hdone, hthrown⟩ := fillStep_frame m blockNum boundNodes s hb hinv
    constructor
    · intro c s1 h
      simp only [forLoop] at h
      split at h
      · rename_i s2 hs2
        exact (ih s2 (hnext s2 hs2)).1 c s1 h
      · rename_i s2 hs2
        injection h with _ h
        subst h
        exact hdone _ hs2
      · cases h
      · cases h
    · intro e s1 h
      simp only [forLoop] at h
      split at h
      · rename_i s2 hs2
        exact (ih s2 (hnext s2 hs2)).2 e s1 h
      · cases h
      · rename_i e2 s2 hs2
        injection h with h1 h2
        subst h1 h2
        exact hthrown _ _ hs2
      · cases h

theorem initFill_frame (m : Mesh) (blockNum : Int) (boundNodes : List Int) (startNode : Int)
    (bb : List Int) (hstart : m.nodeBlocks startNode = blockNum)
    (hbb : ∀ n ∈ bb, n ∈ boundNodes) :
    FrameInv m blockNum boundNodes (initFill m blockNum startNode bb) := by
  have hfl : ∀ n, m.nodeBlocks n ≠ blockNum → setAtI m.flags startNode 4 n = m.flags n := by
    intro n hn
    have hns : n ≠ startNode := fun e => hn (e ▸ hstart)
    exact setAtI_other _ _ _ _ hns
  have hone : ∀ n ∈ [startNode], m.nodeBlocks n = blockNum := by
    intro n hn
    rw [List.mem_singleton] at hn
    subst hn
    exact hstart
  unfold initFill firstCheck
  split
  · rename_i tc f1 hfc
    split at hfc
    · rename_i linkNode hfind
      injection hfc with hfc1 hfc2
      subst hfc1 hfc2
      have hp := List.find?_some hfind
      simp only [decide_eq_true_eq] at hp
      refine ⟨?_, hone, ?_, hbb⟩
      · intro n hn
        have hnl : n ≠ linkNode := fun e => hn (e ▸ hp.1)
        show setAtI (setAtI m.flags startNode 4) linkNode 3 n = m.flags n
        rw [setAtI_other _ _ _ _ hnl]
        exact hfl n hn
      · intro n hn
        rw [List.mem_singleton] at hn
        subst hn
        exact hp.1
    · injection hfc with hfc1 hfc2
      subst hfc1 hfc2
      exact ⟨hfl, hone, by simp, hbb⟩

theorem floodFill_frame (m : Mesh) (blockNum : Int) (nodeBounds : Int → Int)
    (boundNodes : List Int) (hb : ∀ n ∈ boundNodes, m.nodeBlocks n = blockNum) :
    (∀ c s, floodFill m blockNum nodeBounds boundNodes = .ret c s →
      FrameInv m blockNum boundNodes s) ∧
    (∀ e s, floodFill m blockNum nodeBounds boundNodes = .thrown e s →
      ∀ n, m.nodeBlocks n ≠ blockNum → s.flags n = m.flags n) := by
  have hps := pickStart_spec m blockNum nodeBounds boundNodes
  constructor
  · intro c s h
    unfold floodFill at h
    split at h
    · cases h
    · rename_i startNode bb hst
      obtain ⟨hstart, hbb⟩ := startOf_spec boundNodes _ startNode bb hps.1 hps.2 hst
      exact (fillLoop_frame m blockNum boundNodes hb _ _
        (initFill_frame m blockNum boundNodes startNode bb (hb _ hstart) hbb)).1 c s h
  · intro e s h
    unfold floodFill at h
    split at h
    · cases h
    · rename_i startNode bb hst
      obtain ⟨hstart, hbb⟩ := startOf_spec boundNodes _ startNode bb hps.1 hps.2 hst
      exact (fillLoop_frame m blockNum boundNodes hb _ _
        (initFill_frame m blockNum boundNodes startNode bb (hb _ hstart) hbb)).2 e s h

theorem setAt_all (Q : Int → Prop) (N : Nat) (a : Nat → Int) (k : Nat) (v : Int)
    (ha : ∀ i, i < N → Q (a i)) (hv : Q v) : ∀ i, i < N → Q (setAt a k v i) := by
  intro i hi
  by_cases hik : i = k
  · subst hik
    rw [setAt_same]
    exact hv
  · rw [setAt_other _ _ _ _ hik]
    exact ha i hi

theorem writeBound_all (P : Params) (nNodes : Int) (Q : Int → Prop) (N : Nat) :
    ∀ (l : List Int) (cnt : Nat) (nodeRef nodeRef1 : Nat → Int) (c : Int),
      (∀ x ∈ l, Q x) → (∀ i, i < N → Q (nodeRef i)) →
      writeBound P nNodes l cnt nodeRef = .ret c nodeRef1 → ∀ i, i < N → Q (nodeRef1 i) := by
  intro l
  induction l with
  | nil =>
    intro cnt nodeRef nodeRef1 c _ ha h
    simp only [writeBound] at h
    injection h with _ h
    subst h
    exact ha
  | cons p l ih =>
    intro cnt nodeRef nodeRef1 c hl ha h
    simp only [writeBound] at h
    split at h
    · cases h
    · split at h
      · exact ih _ _ _ _ (fun x hx => hl x (List.mem_cons_of_mem _ hx))
          (setAt_all Q N nodeRef cnt p ha (hl p (List.mem_cons_self _ _))) h
      · cases h

theorem writeInt_all (P : Params) (Q : Int → Prop) (N : Nat) :
    ∀ (l : List Int) (cnt : Nat) (nodeRef : Nat → Int),
      (∀ x ∈ l, Q x) → (∀ i, i < N → Q (nodeRef i)) →
      ∀ i, i < N → Q (writeInt P l cnt nodeRef i) := by
  intro l
  induction l with
  | nil =>
    intro cnt nodeRef _ ha
    simp only [writeInt]
    exact ha
  | cons p l ih =>
    intro cnt nodeRef hl ha
    simp only [writeInt]
    split
    · exact ih _ _ (fun x hx => hl x (List.mem_cons_of_mem _ hx))
        (setAt_all Q N nodeRef cnt p ha (hl p (List.mem_cons_self _ _)))
    · exact ha

theorem memArrange_frame (P : Params) (m : Mesh) (nodeBounds blockFlags : Int → Int)
    (b : Block) (hown : OwnsNodes m b) (st : (Int → Int) × Block)
    (h : (memArrange P m nodeBounds blockFlags b).leaves = some st) :
    ∀ n, m.nodeBlocks n ≠ b.blockNum → st.1 n = m.flags n := by
  have hff := floodFill_frame m b.blockNum nodeBounds b.boundNodes hown.1
  have hsame : ∀ st1 : (Int → Int) × Block, some (m.flags, b) = some st1 →
      ∀ n, m.nodeBlocks n ≠ b.blockNum → st1.1 n = m.flags n := by
    intro st1 e n _
    injection e with e
    subst e
    rfl
  unfold memArrange at h
  split at h
  · exact hsame st h
  · split at h
    · exact hsame st h
    · split at h
      · exact hsame st h
      · split at h
        · exact hsame st h
        · split at h
          · exact hsame st h
          · split at h
            · rename_i e s hfill
              simp only [Outcome.leaves] at h
              injection h with h
              subst h
              exact hff.2 e s hfill
            · simp only [Outcome.leaves] at h
              cases h
            · simp only [Outcome.leaves] at h
              cases h
            · rename_i c s hfill
              simp only at h
              split at h
              · simp only [Outcome.leaves] at h
                injection h with h
                subst h
                exact (hff.1 c s hfill).1
              · simp only [Outcome.leaves] at h
                cases h
              · simp only [Outcome.leaves] at h
                cases h
              · simp only [Outcome.leaves] at h
                injection h with h
                subst h
                exact (hff.1 c s hfill).1

theorem memArrange_grid (P : Params) (m : Mesh) (nodeBounds blockFlags : Int → Int)
    (b : Block) (hown : OwnsNodes m b) (flags1 : Int → Int) (b1 : Block)
    (hstate : b.blockFlag < 2 ∨ GridOwned P m b)
    (h : memArrange P m nodeBounds blockFlags b = .ret 0 (flags1, b1)) :
    GridOwned P m b1 := by
  have hff := floodFill_frame m b.blockNum nodeBounds b.boundNodes hown.1
  unfold memArrange at h
  split at h
  · rename_i hge
    injection h with _ h
    injection h with _ h
    subst h
    rcases hstate with h1 | h1
    · omega
    · exact h1
  · split at h
    · cases h
    · split at h
      · injection h with h _
        omega
      · split at h
        · cases h
        · split at h
          · injection h with h _
            omega
          · split at h
            · cases h
            · cases h
            · cases h
            · rename_i c s hfill
              simp only at h
              split at h
              · cases h
              · cases h
              · cases h
              · rename_i c2 nr hwrite
                injection h with _ h
                injection h with _ h
                subst h
                have hfilled := (hff.1 c s hfill).2.1
                have hrot : ∀ x ∈ rotateBound m b.blockNum s.filledBound,
                    x < 0 ∨ m.nodeBlocks x = b.blockNum := by
                  intro x hx
                  unfold rotateBound at hx
                  simp only at hx
                  rcases List.mem_append.1 hx with h1 | h1
                  · exact Or.inr (hfilled x (List.mem_of_mem_drop h1))
                  · exact Or.inr (hfilled x (List.mem_of_mem_take h1))
                have hclear : ∀ i, i < P.XBLOCKSIZE * P.YBLOCKSIZE →
                    (clearNodeRef P b.nodeRef i < 0 ∨
                      m.nodeBlocks (clearNodeRef P b.nodeRef i) = b.blockNum) := by
                  intro i hi
                  left
                  simp [clearNodeRef, hi]
                have hnr := writeBound_all P m.nNodes
                  (fun x => x < 0 ∨ m.nodeBlocks x = b.blockNum) (P.XBLOCKSIZE * P.YBLOCKSIZE)
                  _ _ _ _ _ hrot hclear hwrite
                exact writeInt_all P (fun x => x < 0 ∨ m.nodeBlocks x = b.blockNum)
                  (P.XBLOCKSIZE * P.YBLOCKSIZE) _ _ _ (fun x hx => Or.inr (hown.2 x hx)) hnr

theorem updateCells_frame (P : Params) (nNodes : Int) (nodeRef : Nat → Int) (Q : Int → Prop) :
    ∀ (cells : List (Nat × Nat)) (cols rows : Int → Int) (st : (Int → Int) × (Int → Int)),
      (∀ c ∈ cells, nodeRef (c.1 + c.2 * P.XBLOCKSIZE) < 0 ∨ Q (nodeRef (c.1 + c.2 * P.XBLOCKSIZE))) →
      (updateCells P nNodes nodeRef cells (cols, rows)).leaves = some st →
      ∀ n, ¬ Q n → st.1 n = cols n ∧ st.2 n = rows n := by
  intro cells
  induction cells with
  | nil =>
    intro cols rows st _ h n _
    simp only [updateCells, Outcome.leaves] at h
    injection h with h
    subst h
    exact ⟨rfl, rfl⟩
  | cons c cells ih =>
    intro cols rows st hc h n hn
    obtain ⟨colCnt, rowCnt⟩ := c
    have hc0 := hc (colCnt, rowCnt) (List.mem_cons_self _ _)
    have hrest : ∀ d ∈ cells, nodeRef (d.1 + d.2 * P.XBLOCKSIZE) < 0 ∨
        Q (nodeRef (d.1 + d.2 * P.XBLOCKSIZE)) := fun d hd => hc d (List.mem_cons_of_mem _ hd)
    simp only [updateCells] at h hc0
    split at h
    · rename_i hpos
      split at h
      · simp only [Outcome.leaves] at h
        injection h with h
        subst h
        exact ⟨rfl, rfl⟩
      · have hq : Q (nodeRef (colCnt + rowCnt * P.XBLOCKSIZE)) := by
          rcases hc0 with h1 | h1
          · omega
          · exact h1
        have hne : n ≠ nodeRef (colCnt + rowCnt * P.XBLOCKSIZE) := fun e => hn (e ▸ hq)
        have := ih _ _ st hrest h n hn
        rw [setAtI_other _ _ _ _ hne, setAtI_other _ _ _ _ hne] at this
        exact this
    · exact ih _ _ st hrest h n hn

/-- C19: for a block `b` whose boundary and interior nodes are all owned by `b`, whatever the
outcome of the call (a return with any code or a thrown error): `memArrange` leaves the flag of
every node that `b` does not own as it was (it has no access to `cols` and `rows`), and
`updateColsRows`, which has no access to the flags, leaves the `cols` and `rows` entries of
every node that `b` does not own as they were when every filled slot of the grid holds a node
owned by `b`; the slot grid is in that state after every call of `memArrange` that returns 0 on
a block below state 2, and `memArrange` keeps it in that state otherwise. -/
theorem ownership_frame (P : Params) (m : Mesh) (nodeBounds blockFlags cols rows : Int → Int)
    (b : Block) (hown : OwnsNodes m b) :
    (∀ st, (memArrange P m nodeBounds blockFlags b).leaves = some st →
      ∀ n, m.nodeBlocks n ≠ b.blockNum → st.1 n = m.flags n) ∧
    (∀ flags1 b1, memArrange P m nodeBounds blockFlags b = .ret 0 (flags1, b1) →
      b.blockFlag < 2 ∨ GridOwned P m b → GridOwned P m b1) ∧
    (GridOwned P m b → ∀ st, (updateColsRows P m b cols rows).leaves = some st →
      ∀ n, m.nodeBlocks n ≠ b.blockNum → st.1 n = cols n ∧ st.2 n = rows n) := by
  refine ⟨?_, ?_, ?_⟩
  · intro st h
    exact memArrange_frame P m nodeBounds blockFlags b hown st h
  · intro flags1 b1 h hstate
    exact memArrange_grid P m nodeBounds blockFlags b hown flags1 b1 hstate h
  · intro hgrid st h n hn
    unfold updateColsRows at h
    split at h
    · simp only [Outcome.leaves] at h
      injection h with h
      subst h
      exact ⟨rfl, rfl⟩
    · refine updateCells_frame P m.nNodes b.nodeRef (fun x => m.nodeBlocks x = b.blockNum)
        (gridCells P) cols rows st ?_ h n hn
      intro c hc
      exact hgrid _ (cell_slot _ _ c hc).1

/-- C19 (witness): block 0 of the ring mesh: `memArrange` at state 1, and `updateColsRows` on
the block that `memArrange` leaves. -/
theorem ownership_frame_witness :
    OwnsNodes ringMesh ringBlock ∧
    ∃ flags1 b1 cols1 rows1,
      memArrange exParams ringMesh (fun _ => 0) (fun _ => 1) ringBlock = .ret 0 (flags1, b1) ∧
      updateColsRows exParams ringMesh b1 ringCols ringRows = .ret 0 (cols1, rows1) ∧
      (∀ n, ringMesh.nodeBlocks n ≠ ringBlock.blockNum → flags1 n = ringMesh.flags n) ∧
      GridOwned exParams ringMesh b1 ∧
      (∀ n, ringMesh.nodeBlocks n ≠ ringBlock.blockNum →
        cols1 n = ringCols n ∧ rows1 n = ringRows n) :=
  have hown : OwnsNodes ringMesh ringBlock := by constructor <;> decide
  have h1 := ownership_frame exParams ringMesh (fun _ => 0) (fun _ => 1) ringCols ringRows
    ringBlock hown
  have hgrid := h1.2.1 _ _ rfl (Or.inl (by decide))
  ⟨hown, _, _, _, _, rfl, rfl, h1.1 _ rfl, hgrid,
    (ownership_frame exParams ringMesh (fun _ => 0) (fun _ => 1) ringCols ringRows _
      (by constructor <;> decide)).2.2 hgrid _ rfl⟩

/-! ## `memArrange`: the value remembered as "last linked" -/

/-- C20 (code evaluated at the failing input): block 0 of `splitMesh` has the boundary nodes
1, 2, 3, 4, none of them on the boundary of the mesh. The flood fill starts at node 1 and
processes node 2, which has a link to node 6 of block 1; after that round the remembered value
is 0, the number of the block itself, not 1 (the statement is `lastBlockLinked = blockNum`).
The check list is then empty with the nodes 3 and 4 unplaced and no both-boundary candidate.
Node 3 is linked to block 1 and comes first in the boundary list; node 4 is not linked to
block 1. The scan for a node linked to the remembered block takes node 4, because it has a
link to node 0 of block 0 (with the value 1 it would take node 3): the fill ends with the order
1, 2, 4, 3. -/
theorem memArrange_last_linked_is_own_block :
    ∃ s, floodFill splitMesh 0 (fun _ => 0) splitBlock.boundNodes = .ret 0 s ∧
      startOf splitBlock.boundNodes (pickStart splitMesh 0 (fun _ => 0) splitBlock.boundNodes) =
        some (1, []) ∧
      (initFill splitMesh 0 1 []).toCheck = [2] ∧
      splitMesh.nodeBlocks 6 = 1 ∧ 6 ∈ linksOf splitMesh 2 ∧
      (finishRound splitMesh 0 2 (initFill splitMesh 0 1 []).flags [] [1] [] (-1)).lastBlockLinked = 0 ∧
      (finishRound splitMesh 0 2 (initFill splitMesh 0 1 []).flags [] [1] [] (-1)).toCheck = [] ∧
      linkedTo splitMesh 1 3 = true ∧ linkedTo splitMesh 1 4 = false ∧
      (seedLinked splitMesh 0 splitBlock.boundNodes
        (finishRound splitMesh 0 2 (initFill splitMesh 0 1 []).flags [] [1] [] (-1)).flags).1 = 4 ∧
      (seedLinked splitMesh 1 splitBlock.boundNodes
        (finishRound splitMesh 0 2 (initFill splitMesh 0 1 []).flags [] [1] [] (-1)).flags).1 = 3 ∧
      s.filledBound = [1, 2, 4, 3] ∧ s.lastBlockLinked = 0 :=
  ⟨_, rfl, by decide, by decide, by decide, by decide, by decide, by decide, by decide, by decide,
    by decide, by decide, by decide, by decide⟩

/-! ## `memArrange`: `front()` of an empty list -/

/-- C21 (code evaluated at the failing input): block 0 of `chainMesh` is at state 1 and its
boundary nodes 1, 2, 3, 4 carry flag 2. The ends 1 and 3 of the chain 1-2-3 are the
both-boundary candidates; the fill starts at node 1 and places 1, 2, 3. The check list is then
empty with node 4 unplaced and unvisited, and `bothBounds` still holds node 3, so the code takes
the branch `bothBounds.size() > 0`: the scan erases node 3 (its flag is 4), finds no seed, and
the statement `doNode = bothBounds.front()` is executed on the empty list. The call neither
appends an unvisited boundary node nor throws the error 2411. -/
theorem memArrange_seed_from_emptied_bothBounds :
    memArrange exParams chainMesh chainBounds (fun _ => 1) chainBlock = .undefined ∧
    startOf chainBlock.boundNodes (pickStart chainMesh 0 chainBounds chainBlock.boundNodes) =
      some (1, [3]) ∧
    (∃ s, forLoop (fillStep chainMesh 0 chainBlock.boundNodes) 2 (initFill chainMesh 0 1 [3]) =
        .ret 0 s ∧
      s.filledBound = [1, 2, 3] ∧ s.toCheck = [] ∧ s.bothBounds = [3] ∧ s.flags 3 = 4 ∧
      s.flags 4 = 2 ∧
      (scanBoth chainMesh s.lastBlockLinked [] s.bothBounds s.flags).1 = -1 ∧
      (scanBoth chainMesh s.lastBlockLinked [] s.bothBounds s.flags).2.1 = [] ∧
      (seedAny chainBlock.boundNodes s.flags).1 = 4) :=
  ⟨rfl, by decide, _, rfl, by decide, by decide, by decide, by decide, by decide, by decide,
    by decide, by decide⟩

/-- C27 (code evaluated at the failing input): the only block of `soloMesh` is at state 1,
owns three interior nodes, has no boundary node and no attached block. The loop over the
boundary finds no start node and no both-boundary candidate, and the statement
`startNode = boundNodes.front().nodeNum` is executed on the empty boundary list: the call does
not return 0. -/
theorem memArrange_front_of_empty_boundary :
    memArrange exParams soloMesh (fun _ => 0) (fun _ => 1) soloBlock = .undefined ∧
    soloBlock.blockFlag = 1 ∧ soloBlock.size = 3 ∧ soloBlock.boundNodes = [] ∧
    getLinks soloMesh soloBlock = [] ∧
    pickStart soloMesh 0 (fun _ => 0) soloBlock.boundNodes = (-1, []) ∧
    startOf soloBlock.boundNodes (pickStart soloMesh 0 (fun _ => 0) soloBlock.boundNodes) = none :=
  ⟨rfl, by decide, by decide, by decide, by decide, by decide, by decide⟩

/-! ## `allocateLoads`: a successful call covers every bit -/

theorem and_div_two (x M : Nat) : (x &&& M) / 2 = x / 2 &&& M / 2 := by
  apply Nat.eq_of_testBit_eq
  intro i
  rw [Nat.testBit_and, ← Nat.testBit_add_one, ← Nat.testBit_add_one, ← Nat.testBit_add_one,
    Nat.testBit_and]

theorem and_mod_two (x M : Nat) :
    ((x &&& M) % 2 = 1 ↔ (x % 2 = 1 ∧ M % 2 = 1)) := by
  have h := Nat.testBit_and x M 0
  rw [Nat.testBit_zero, Nat.testBit_zero, Nat.testBit_zero] at h
  by_cases h1 : (x &&& M) % 2 = 1 <;> by_cases h2 : x % 2 = 1 <;> by_cases h3 : M % 2 = 1 <;>
    simp_all

theorem sub_and_testBit : ∀ (bit x M : Nat),
    (x - (x &&& M)).testBit bit = (x.testBit bit && !M.testBit bit) := by
  intro bit
  induction bit with
  | zero =>
    intro x M
    have hle : x &&& M ≤ x := Nat.and_le_left
    have hm := and_mod_two x M
    rw [Nat.testBit_zero, Nat.testBit_zero, Nat.testBit_zero]
    by_cases h2 : x % 2 = 1 <;> by_cases h3 : M % 2 = 1
    · have h1 : (x &&& M) % 2 = 1 := hm.2 ⟨h2, h3⟩
      have : (x - (x &&& M)) % 2 ≠ 1 := by omega
      simp [this, h2, h3]
    · have h1 : ¬ (x &&& M) % 2 = 1 := fun h => h3 (hm.1 h).2
      have : (x - (x &&& M)) % 2 = 1 := by omega
      simp [this, h2, h3]
    · have h1 : ¬ (x &&& M) % 2 = 1 := fun h => h2 (hm.1 h).1
      have : (x - (x &&& M)) % 2 ≠ 1 := by omega
      simp [this, h2, h3]
    · have h1 : ¬ (x &&& M) % 2 = 1 := fun h => h2 (hm.1 h).1
      have : (x - (x &&& M)) % 2 ≠ 1 := by omega
      simp [this, h2, h3]
  | succ bit ih =>
    intro x M
    have hle : x &&& M ≤ x := Nat.and_le_left
    have hle2 : x / 2 &&& M / 2 ≤ x / 2 := Nat.and_le_left
    have hd := and_div_two x M
    have hm := and_mod_two x M
    have hdiv : (x - (x &&& M)) / 2 = x / 2 - (x / 2 &&& M / 2) := by
      rw [← hd]
      rw [← hd] at hle2
      by_cases h1 : (x &&& M) % 2 = 1
      · have := (hm.1 h1).1
        omega
      · omega
    rw [Nat.testBit_add_one, Nat.testBit_add_one, Nat.testBit_add_one, hdiv, ih]

theorem window_testBit (L sh bit : Nat) :
    ((((1 : Nat) <<< L) - 1) <<< sh).testBit bit = decide (sh ≤ bit ∧ bit < sh + L) := by
  rw [Nat.testBit_shiftLeft, Nat.one_shiftLeft, Nat.testBit_two_pow_sub_one]
  by_cases h1 : sh ≤ bit
  · by_cases h2 : bit - sh < L
    · have : bit < sh + L := by omega
      simp [h1, h2, this]
    · have : ¬ bit < sh + L := by omega
      simp [h1, h2, this]
  · have h3 : ¬ bit ≥ sh := by omega
    simp [h1, h3]

theorem scanCell_bounds (nRows nRowPos loadLength : Nat) (connArray : Nat → Nat) (rowCnt : Nat)
    (acc : Pri) (colCnt : Nat) (hr : rowCnt < nRows) (hc : colCnt < nRowPos)
    (h : acc.row < 0 ∨ (acc.row < nRows ∧ 0 ≤ acc.col ∧ acc.col < nRowPos)) :
    (scanCell nRowPos loadLength connArray rowCnt acc colCnt).row < 0 ∨
      ((scanCell nRowPos loadLength connArray rowCnt acc colCnt).row < nRows ∧
        0 ≤ (scanCell nRowPos loadLength connArray rowCnt acc colCnt).col ∧
        (scanCell nRowPos loadLength connArray rowCnt acc colCnt).col < nRowPos) := by
  unfold scanCell
  simp only
  split
  · right
    simp only
    omega
  · exact h

theorem scanPlacements_bounds (nRows nRowPos loadLength : Nat) (connArray : Nat → Nat) :
    (scanPlacements nRows nRowPos loadLength connArray).row < 0 ∨
      ((scanPlacements nRows nRowPos loadLength connArray).row < nRows ∧
        0 ≤ (scanPlacements nRows nRowPos loadLength connArray).col ∧
        (scanPlacements nRows nRowPos loadLength connArray).col < nRowPos) := by
  unfold scanPlacements
  refine foldl_invariant_mem
    (fun acc : Pri => acc.row < 0 ∨ (acc.row < nRows ∧ 0 ≤ acc.col ∧ acc.col < nRowPos))
    _ _ _ (Or.inl (by decide)) ?_
  intro acc rowCnt hrow hacc
  refine foldl_invariant_mem
    (fun acc : Pri => acc.row < 0 ∨ (acc.row < nRows ∧ 0 ≤ acc.col ∧ acc.col < nRowPos))
    _ _ _ hacc ?_
  intro acc2 colCnt hcol hacc2
  exact scanCell_bounds nRows nRowPos loadLength connArray rowCnt acc2 colCnt
    (List.mem_range.1 hrow) (List.mem_range.1 hcol) hacc2

theorem placeBest_spec (P : Params) (nLinkedBlocks cnt : Nat) (connArray : Nat → Nat)
    (r sh : Nat) (c1 : Nat → Nat) (h : placeBest P nLinkedBlocks cnt connArray = some (r, sh, c1)) :
    r < nLinkedBlocks * P.NACCESSROWS ∧ sh + P.loadLengths cnt ≤ P.NACCESSCOLS ∧
      c1 = setAt connArray r
        (connArray r - (connArray r &&& ((((1 : Nat) <<< P.loadLengths cnt) - 1) <<< sh))) := by
  have hb := scanPlacements_bounds (nLinkedBlocks * P.NACCESSROWS)
    ((P.NACCESSCOLS : Int) - (P.loadLengths cnt : Int) + 1).toNat (P.loadLengths cnt) connArray
  unfold placeBest at h
  simp only at h
  split at h
  · cases h
  · rename_i hrow
    rcases hb with hb | ⟨hb1, hb2, hb3⟩
    · exact absurd hb hrow
    · injection h with h
      injection h with h1 h2
      injection h2 with h2 h3
      refine ⟨by omega, by omega, ?_⟩
      rw [← h3, ← h1, ← h2]

theorem placed_bit (x L sh bit : Nat) (hset : x.testBit bit = true) :
    (sh ≤ bit ∧ bit < sh + L) ∨
      (x - (x &&& ((((1 : Nat) <<< L) - 1) <<< sh))).testBit bit = true := by
  by_cases hw : sh ≤ bit ∧ bit < sh + L
  · exact Or.inl hw
  · right
    rw [sub_and_testBit, hset, window_testBit]
    simp [hw]

theorem allocateLoadsFrom_covers (P : Params) (nLinkedBlocks : Nat) :
    ∀ (rem cnt : Nat) (loadMaps connArray lm1 c1 : Nat → Nat),
      allocateLoadsFrom P nLinkedBlocks rem cnt loadMaps connArray = .ret 0 (lm1, c1) →
      (∀ r, r < nLinkedBlocks * P.NACCESSROWS → c1 r = 0) ∧
      ∃ n, n ≤ rem ∧ (∀ k, k < cnt ∨ cnt + n ≤ k → lm1 k = loadMaps k) ∧
        ∀ r, r < nLinkedBlocks * P.NACCESSROWS → ∀ bit, (connArray r).testBit bit = true →
          ∃ k, cnt ≤ k ∧ k < cnt + n ∧
            ∃ off, lm1 k = r * P.NACCESSCOLS + off ∧ off ≤ bit ∧
              bit < off + P.loadLengths k ∧ off + P.loadLengths k ≤ P.NACCESSCOLS := by
  intro rem
  induction rem with
  | zero =>
    intro cnt loadMaps connArray lm1 c1 h
    simp only [allocateLoadsFrom] at h
    injection h with h _
    omega
  | succ rem ih =>
    intro cnt loadMaps connArray lm1 c1 h
    simp only [allocateLoadsFrom] at h
    split at h
    · cases h
    · rename_i row sh conn1 hbest
      obtain ⟨hrow, hfit, hconn1⟩ := placeBest_spec P nLinkedBlocks cnt connArray row sh conn1 hbest
      have hkeep : ∀ r bit, (connArray r).testBit bit = true →
          (r = row ∧ sh ≤ bit ∧ bit < sh + P.loadLengths cnt) ∨ (conn1 r).testBit bit = true := by
        intro r bit hset
        by_cases hr : r = row
        · subst hr
          rcases placed_bit (connArray r) (P.loadLengths cnt) sh bit hset with hw | hs
          · exact Or.inl ⟨rfl, hw⟩
          · right
            rw [hconn1, setAt_same]
            exact hs
        · right
          rw [hconn1, setAt_other _ _ _ _ hr]
          exact hset
      split at h
      · rename_i hz
        injection h with _ h
        injection h with h1 h2
        subst h1 h2
        have hzero := (allZeros_iff _ _).1 hz
        refine ⟨hzero, 1, by omega, ?_, ?_⟩
        · intro k hk
          exact setAt_other _ _ _ _ (by omega)
        · intro r hr bit hset
          rcases hkeep r bit hset with ⟨e, h1, h2⟩ | hs
          · subst e
            exact ⟨cnt, Nat.le_refl _, by omega, sh, setAt_same _ _ _, h1, h2, hfit⟩
          · rw [hzero r hr] at hs
            simp at hs
      · split at h
        · rename_i res lm2 c2 hrec
          split at h
          · injection h with h _
            omega
          · split at h
            · rename_i hres
              subst hres
              injection h with _ h
              injection h with h1 h2
              subst h1 h2
              obtain ⟨hzero, n, hn, hframe, hcov⟩ := ih (cnt + 1) loadMaps conn1 lm2 c2 hrec
              refine ⟨hzero, n + 1, by omega, ?_, ?_⟩
              · intro k hk
                rw [setAt_other _ _ _ _ (by omega)]
                exact hframe k (by omega)
              · intro r hr bit hset
                rcases hkeep r bit hset with ⟨e, h1, h2⟩ | hs
                · subst e
                  exact ⟨cnt, Nat.le_refl _, by omega, sh, setAt_same _ _ _, h1, h2, hfit⟩
                · obtain ⟨k, hk1, hk2, off, ho1, ho2, ho3, ho4⟩ := hcov r hr bit hs
                  refine ⟨k, by omega, by omega, off, ?_, ho2, ho3, ho4⟩
                  rw [setAt_other _ _ _ _ (by omega)]
                  exact ho1
            · injection h with h _
              omega
        · cases h
        · cases h
        · cases h

/-- C24: for every connectivity array, when `allocateLoads(0, loadMaps, nLinkedBlocks,
connArray)` returns 0, every row of the array it leaves is 0, the call has written the slots
below some `n <= NBLOCKLINKS` only (the entries of `loadMaps` from `n` on are as before), and
every bit set before the call is covered by a recorded slot `k < n`:
`loadMaps[k] = row*NACCESSCOLS + offset` with `offset <= bit < offset + loadLengths[k]` and
`offset + loadLengths[k] <= NACCESSCOLS`. -/
theorem allocateLoads_success_covers (P : Params) (loadMaps : Nat → Nat) (nLinkedBlocks : Nat)
    (connArray lm1 c1 : Nat → Nat)
    (h : allocateLoads P 0 loadMaps nLinkedBlocks connArray = .ret 0 (lm1, c1)) :
    (∀ r, r < nLinkedBlocks * P.NACCESSROWS → c1 r = 0) ∧
    ∃ n, n ≤ P.NBLOCKLINKS ∧ (∀ k, n ≤ k → lm1 k = loadMaps k) ∧
      ∀ r, r < nLinkedBlocks * P.NACCESSROWS → ∀ bit, (connArray r).testBit bit = true →
        ∃ k, k < n ∧
          ∃ off, lm1 k = r * P.NACCESSCOLS + off ∧ off ≤ bit ∧
            bit < off + P.loadLengths k ∧ off + P.loadLengths k ≤ P.NACCESSCOLS := by
  obtain ⟨hzero, n, hn, hframe, hcov⟩ :=
    allocateLoadsFrom_covers P nLinkedBlocks _ 0 loadMaps connArray lm1 c1 h
  refine ⟨hzero, n, by omega, fun k hk => hframe k (by omega), ?_⟩
  intro r hr bit hset
  obtain ⟨k, _, hk2, hrest⟩ := hcov r hr bit hset
  exact ⟨k, by omega, hrest⟩

/-- C24 (witness): the rows `1111`, `0011` with the catalogue 4, 2: the load of width 4 goes
to row 0 and the load of width 2 to the bits 0 and 1 of row 1. -/
theorem allocateLoads_success_covers_witness :
    ∃ lm1 c1, allocateLoads allocParams 0 (fun _ => 0) 1 allocConnFit = .ret 0 (lm1, c1) ∧
      (List.range 2).map lm1 = [0, 4] ∧
      (∀ r, r < 1 * allocParams.NACCESSROWS → c1 r = 0) ∧
      ∃ n, n ≤ allocParams.NBLOCKLINKS ∧ (∀ k, n ≤ k → lm1 k = (fun _ => 0) k) ∧
        ∀ r, r < 1 * allocParams.NACCESSROWS → ∀ bit, (allocConnFit r).testBit bit = true →
          ∃ k, k < n ∧
            ∃ off, lm1 k = r * allocParams.NACCESSCOLS + off ∧ off ≤ bit ∧
              bit < off + allocParams.loadLengths k ∧
              off + allocParams.loadLengths k ≤ allocParams.NACCESSCOLS :=
  ⟨_, _, rfl, by decide,
    allocateLoads_success_covers allocParams (fun _ => 0) 1 allocConnFit _ _ rfl⟩

/-! ## The load table is clear below state 3 -/

theorem memArrange_table (P : Params) (m : Mesh) (nodeBounds blockFlags : Int → Int)
    (b : Block) (st : (Int → Int) × Block)
    (h : (memArrange P m nodeBounds blockFlags b).leaves = some st) :
    st.2.blockPointers = b.blockPointers ∧
      (st.2.blockFlag = b.blockFlag ∨ (st.2.blockFlag = 2 ∧ b.blockFlag < 2)) := by
  have hsame : ∀ (f : Int → Int) (st1 : (Int → Int) × Block), some (f, b) = some st1 →
      st1.2.blockPointers = b.blockPointers ∧
        (st1.2.blockFlag = b.blockFlag ∨ (st1.2.blockFlag = 2 ∧ b.blockFlag < 2)) := by
    intro f st1 e
    injection e with e
    subst e
    exact ⟨rfl, Or.inl rfl⟩
  unfold memArrange at h
  split at h
  · exact hsame _ st h
  · rename_i hlt
    split at h
    · exact hsame _ st h
    · split at h
      · exact hsame _ st h
      · split at h
        · exact hsame _ st h
        · split at h
          · exact hsame _ st h
          · split at h
            · exact hsame _ st h
            · simp only [Outcome.leaves] at h
              cases h
            · simp only [Outcome.leaves] at h
              cases h
            · simp only at h
              split at h
              · simp only [Outcome.leaves] at h
                injection h with h
                subst h
                exact ⟨rfl, Or.inl rfl⟩
              · simp only [Outcome.leaves] at h
                cases h
              · simp only [Outcome.leaves] at h
                cases h
              · simp only [Outcome.leaves] at h
                injection h with h
                subst h
                exact ⟨rfl, Or.inr ⟨rfl, by omega⟩⟩

theorem linkArrange_table (P : Params) (m : Mesh) (cols rows blockFlags : Int → Int)
    (b b1 : Block) (h : (linkArrange P m cols rows blockFlags b).leaves = some b1) :
    b1 = b ∨ (b1.blockFlag = b.blockFlag ∧ ∀ k, k < P.NBLOCKLINKS → b1.blockPointers k = 0) ∨
      b1.blockFlag = 3 := by
  have hsame : ∀ b2 : Block, some b = some b2 →
      b2 = b ∨ (b2.blockFlag = b.blockFlag ∧ ∀ k, k < P.NBLOCKLINKS → b2.blockPointers k = 0) ∨
        b2.blockFlag = 3 := by
    intro b2 e
    injection e with e
    exact Or.inl e.symm
  have hclear : ∀ b2 : Block,
      some { b with blockPointers := clearPointers P b.blockPointers } = some b2 →
      b2 = b ∨ (b2.blockFlag = b.blockFlag ∧ ∀ k, k < P.NBLOCKLINKS → b2.blockPointers k = 0) ∨
        b2.blockFlag = 3 := by
    intro b2 e
    injection e with e
    subst e
    refine Or.inr (Or.inl ⟨rfl, ?_⟩)
    intro k hk
    simp [clearPointers, hk]
  unfold linkArrange at h
  split at h
  · exact hsame b1 h
  · split at h
    · exact hsame b1 h
    · split at h
      · exact hsame b1 h
      · simp only at h
        split at h
        · exact hclear b1 h
        · split at h
          · exact hclear b1 h
          · simp only [Outcome.leaves] at h
            cases h
          · simp only [Outcome.leaves] at h
            cases h
          · split at h
            · exact hclear b1 h
            · split at h
              · exact hclear b1 h
              · simp only [Outcome.leaves] at h
                cases h
              · simp only [Outcome.leaves] at h
                cases h
              · split at h
                · exact hclear b1 h
                · split at h
                  · simp only [Outcome.leaves] at h
                    cases h
                  · simp only [Outcome.leaves] at h
                    injection h with h
                    subst h
                    exact Or.inr (Or.inr rfl)

/-- C25: the predicate "`blockFlag < 3` implies every entry of `blockPointers` is 0" is kept
by every operation on a block: when it holds before the call, it holds for the block that
`memArrange` leaves (on every return and on every throw), for the block that `linkArrange`
leaves (on its return 0, on each of its returns -2 and -10 and on every throw), after
`removeOrderFlags` and after `removeLinkFlags`. -/
theorem tableClear_preserved (P : Params) (m : Mesh) (nodeBounds cols rows blockFlags : Int → Int)
    (b : Block) (hinv : TableClear P b) :
    (∀ st, (memArrange P m nodeBounds blockFlags b).leaves = some st → TableClear P st.2) ∧
    (∀ b1, (linkArrange P m cols rows blockFlags b).leaves = some b1 → TableClear P b1) ∧
    TableClear P (removeOrderFlags P m b).2 ∧
    TableClear P (removeLinkFlags P b) := by
  refine ⟨?_, ?_, ?_, ?_⟩
  · intro st h
    obtain ⟨hp, hf⟩ := memArrange_table P m nodeBounds blockFlags b st h
    intro hlt k hk
    rw [hp]
    rcases hf with e | ⟨_, e⟩
    · exact hinv (by omega) k hk
    · exact hinv (by omega) k hk
  · intro b1 h
    rcases linkArrange_table P m cols rows blockFlags b b1 h with e | ⟨_, e⟩ | e
    · subst e
      exact hinv
    · exact fun _ => e
    · intro hlt
      omega
  · intro _ k hk
    simp [removeOrderFlags, clearPointers, hk]
  · unfold removeLinkFlags
    split
    · exact hinv
    · intro _ k hk
      simp [clearPointers, hk]

/-- C25 (witness): block 0 of the ring mesh with an empty load table, at state 1 for
`memArrange` and the two resets and at state 2 for `linkArrange`, which returns -10 on the
table of two slots. -/
theorem tableClear_preserved_witness :
    TableClear tightParams ringBlock ∧
    (∃ st, memArrange tightParams ringMesh (fun _ => 0) (fun _ => 1) ringBlock = .ret 0 st ∧
      st.2.blockFlag = 2 ∧ TableClear tightParams st.2) ∧
    (∃ b1, linkArrange tightParams ringMeshMapped ringCols ringRows (fun _ => 2) ringBlockMapped =
        .ret (-10) b1 ∧ TableClear tightParams b1) ∧
    TableClear tightParams (removeOrderFlags tightParams ringMesh ringBlock).2 ∧
    TableClear tightParams (removeLinkFlags tightParams ringBlock) :=
  have h0 : TableClear tightParams ringBlock := fun _ _ _ => rfl
  have h1 := tableClear_preserved tightParams ringMesh (fun _ => 0) ringCols ringRows
    (fun _ => 1) ringBlock h0
  have h2 := tableClear_preserved tightParams ringMeshMapped (fun _ => 0) ringCols ringRows
    (fun _ => 2) ringBlockMapped (fun _ _ _ => rfl)
  ⟨h0, ⟨_, rfl, by decide, h1.1 _ rfl⟩, ⟨_, rfl, h2.2.1 _ rfl⟩, h1.2.2.1, h1.2.2.2⟩

/-! ## The packing fills slots in order and never sets a bit -/

theorem Pack.Extends.self (s : Pack) : s.Extends s :=
  ⟨Nat.le_refl _, fun _ _ => rfl, fun _ h => h⟩

theorem Pack.Extends.trans {s s1 s2 : Pack} (h1 : s.Extends s1) (h2 : s1.Extends s2) :
    s.Extends s2 := by
  obtain ⟨a1, b1, c1⟩ := h1
  obtain ⟨a2, b2, c2⟩ := h2
  refine ⟨Nat.le_trans a1 a2, ?_, fun r hr => c2 r (c1 r hr)⟩
  intro k hk
  rw [b2 k (by omega), b1 k (by omega)]

theorem place_extends (P : Params) (s s1 : Pack) (v cnt newRow : Nat)
    (hz : s.connArray cnt = 0 → newRow = 0) (h : place P s v cnt newRow = some s1) :
    s.Extends s1 ∧ s1.loadPos = s.loadPos + 1 := by
  unfold place at h
  split at h
  · injection h with h
    subst h
    refine ⟨⟨Nat.le_succ _, ?_, ?_⟩, rfl⟩
    · intro k hk
      exact setAt_other _ _ _ _ (by simp only at hk; omega)
    · intro r hr
      by_cases hrc : r = cnt
      · subst hrc
        show setAt s.connArray r newRow r = 0
        rw [setAt_same]
        exact hz hr
      · show setAt s.connArray cnt newRow r = 0
        rw [setAt_other _ _ _ _ hrc]
        exact hr
  · cases h

theorem tryCheck_extends (P : Params) (w : Nat) (c : Check) (cnt : Nat) (s s1 : Pack)
    (flag : Bool) (h : tryCheck P w c cnt s = some (s1, flag)) : s.Extends s1 := by
  unfold tryCheck at h
  split at h
  · split at h
    · cases h
    · rename_i s2 hp
      injection h with h
      injection h with h1 _
      subst h1
      exact (place_extends P s s2 _ cnt _ (fun hz => by rw [hz, Nat.zero_and]) hp).1
  · injection h with h
    injection h with h1 _
    subst h1
    exact Pack.Extends.self s

theorem runChecks_extends (P : Params) (w cnt : Nat) :
    ∀ (cs : List Check) (s s1 : Pack) (flag : Bool),
      runChecks P w cnt cs s = some (s1, flag) → s.Extends s1 := by
  intro cs
  induction cs with
  | nil =>
    intro s s1 flag h
    simp only [runChecks] at h
    injection h with h
    injection h with h1 _
    subst h1
    exact Pack.Extends.self s
  | cons c cs ih =>
    intro s s1 flag h
    simp only [runChecks] at h
    split at h
    · cases h
    · rename_i s2 hc
      injection h with h
      injection h with h1 _
      subst h1
      exact tryCheck_extends P w c cnt s s2 true hc
    · rename_i s2 hc
      exact (tryCheck_extends P w c cnt s s2 false hc).trans (ih s2 s1 flag h)

theorem tierRows_extends (P : Params) (w : Nat) (cs : List Check) :
    ∀ (rows : List Nat) (s s1 : Pack), tierRows P w cs rows s = some s1 → s.Extends s1 := by
  intro rows
  induction rows with
  | nil =>
    intro s s1 h
    simp only [tierRows] at h
    injection h with h
    subst h
    exact Pack.Extends.self s
  | cons cnt rows ih =>
    intro s s1 h
    simp only [tierRows] at h
    split at h
    · cases h
    · rename_i s2 hc
      injection h with h
      subst h
      exact runChecks_extends P w cnt cs s s2 true hc
    · rename_i s2 hc
      exact (runChecks_extends P w cnt cs s s2 false hc).trans (ih s2 s1 h)

theorem runStages_extends (P : Params) (nRows : Nat) :
    ∀ (stages : List (Nat × List Check)) (s s1 : Pack),
      runStages P nRows stages s = some s1 → s.Extends s1 := by
  intro stages
  induction stages with
  | nil =>
    intro s s1 h
    simp only [runStages] at h
    injection h with h
    subst h
    exact Pack.Extends.self s
  | cons st stages ih =>
    intro s s1 h
    obtain ⟨w, cs⟩ := st
    simp only [runStages] at h
    split at h
    · split at h
      · cases h
      · rename_i s2 ht
        exact (tierRows_extends P w cs _ s s2 ht).trans (ih s2 s1 h)
    · exact ih s s1 h

theorem onesBits_extends (P : Params) (cnt : Nat) :
    ∀ (bits : List Nat) (s s1 : Pack), onesBits P cnt bits s = some s1 → s.Extends s1 := by
  intro bits
  induction bits with
  | nil =>
    intro s s1 h
    simp only [onesBits] at h
    injection h with h
    subst h
    exact Pack.Extends.self s
  | cons cntBit bits ih =>
    intro s s1 h
    simp only [onesBits] at h
    split at h
    · split at h
      · cases h
      · rename_i s2 hp
        have he := (place_extends P s s2 _ cnt _ (fun hz => by rw [hz, Nat.zero_and]) hp).1
        split at h
        · injection h with h
          subst h
          exact he
        · exact he.trans (ih s2 s1 h)
    · exact ih s s1 h

theorem onesRows_extends (P : Params) :
    ∀ (rows : List Nat) (s s1 : Pack), onesRows P rows s = some s1 → s.Extends s1 := by
  intro rows
  induction rows with
  | nil =>
    intro s s1 h
    simp only [onesRows] at h
    injection h with h
    subst h
    exact Pack.Extends.self s
  | cons cnt rows ih =>
    intro s s1 h
    simp only [onesRows] at h
    split at h
    · split at h
      · cases h
      · rename_i s2 hb
        have he := onesBits_extends P cnt _ s s2 hb
        split at h
        · injection h with h
          subst h
          exact he
        · exact he.trans (ih s2 s1 h)
    · exact ih s s1 h

theorem packRound_extends (P : Params) (nRows : Nat) (s s1 : Pack)
    (h : packRound P nRows s = some s1) : s.Extends s1 := by
  unfold packRound at h
  split at h
  · cases h
  · rename_i s2 hs
    have he := runStages_extends P nRows _ s s2 hs
    split at h
    · exact he.trans (onesRows_extends P _ s2 s1 h)
    · injection h with h
      subst h
      exact he

theorem packLoop_extends (P : Params) (nRows : Nat) :
    ∀ (fuel : Nat) (s s1 : Pack) (code : Int),
      packLoop P nRows fuel s = .ret code s1 → s.Extends s1 := by
  intro fuel
  have hend : ∀ (s s1 : Pack) (code : Int), packEnd nRows s = .ret code s1 → s.Extends s1 := by
    intro s s1 code h
    unfold packEnd at h
    split at h
    · injection h with _ h
      subst h
      exact Pack.Extends.self s
    · injection h with _ h
      subst h
      exact Pack.Extends.self s
  induction fuel with
  | zero =>
    intro s s1 code h
    simp only [packLoop] at h
    cases h
  | succ fuel ih =>
    intro s s1 code h
    simp only [packLoop] at h
    split at h
    · split at h
      · cases h
      · rename_i s2 hr
        have he := packRound_extends P nRows s s2 hr
        split at h
        · exact he.trans (hend s2 s1 code h)
        · split at h
          · injection h with _ h
            subst h
            exact he
          · exact he.trans (ih s2 s1 code h)
    · exact hend s s1 code h

theorem packLoads_unused (P : Params) (nRows : Nat) (connArray : Nat → Nat) (s : Pack)
    (code : Int) (h : packLoads P nRows connArray = .ret code s) :
    ∀ k, s.loadPos ≤ k → s.loadMaps k = 0 := by
  intro k hk
  exact (packLoop_extends P nRows _ _ s code h).2.1 k (Or.inr hk)

/-! ## `linkArrange`: the entries of the load table behind the filled slots -/

theorem pointerOf_zero (P : Params) (lbs : List (Int × List Int)) (v : Int)
    (h : pointerOf P lbs 0 = some v) : ∃ q, lbs.get? 0 = some q ∧ v = q.1 * 256 := by
  have hne : ¬ (P.NACCESSCOLS = 0 ∨ P.NACCESSROWS = 0) := by
    intro hz
    unfold pointerOf at h
    rw [if_pos hz] at h
    cases h
  have h0 : (0 : Nat) = (0 * P.NACCESSROWS + 0) * P.NACCESSCOLS + 0 := by simp
  rw [h0] at h
  obtain ⟨q, hq, hv⟩ := pointerOf_spec P lbs 0 0 0 v (by omega) (by omega) h
  refine ⟨q, hq, ?_⟩
  rw [hv]
  simp

/-- C26 (counterexample): block 1 of the ring mesh at state 2 has block 0 as its first (and
only) gathered neighbour. `linkArrange` returns 0 and fills 2 of the 16 slots; the entries at
the indices 2 to 15 are `0 << 8 = 0`, the cleared value. -/
theorem linkArrange_unused_slots_zero_block :
    ∃ conn s b1,
      linkBitmap exParams ringMeshMapped ringColsAll ringRowsAll ringBlockOne = .ret 0 conn ∧
      packLoads exParams ((gather ringMeshMapped ringBlockOne).2.length * exParams.NACCESSROWS)
        conn = .ret 0 s ∧
      linkArrange exParams ringMeshMapped ringColsAll ringRowsAll (fun _ => 2) ringBlockOne =
        .ret 0 b1 ∧
      (gather ringMeshMapped ringBlockOne).2 = [(0, [5, 1, 2])] ∧
      s.loadPos = 2 ∧ exParams.NBLOCKLINKS = 16 ∧
      (List.range 16).map b1.blockPointers = [0, 16, 0, 0, 0, 0, 0, 0, 0, 0, 0, 0, 0, 0, 0, 0] :=
  ⟨_, _, _, rfl, rfl, rfl, by decide, by decide, by decide, by decide⟩

/-- C26 (amended): when `linkArrange` on a block at state 2 returns 0 and the packing has
filled the slots below `loadPos`, every entry of `loadMaps` from `loadPos` on is still 0, and
every entry of the load table at an index from `loadPos` to `NBLOCKLINKS - 1` equals
`B0 << 8`, the encoding of row 0, column 0 of the first gathered neighbour block `B0`; it
differs from the cleared value 0 exactly when `B0` is not block 0. -/
theorem linkArrange_unused_slots (P : Params) (m : Mesh) (cols rows blockFlags : Int → Int)
    (b b1 : Block) (hstate : b.blockFlag = 2)
    (h : linkArrange P m cols rows blockFlags b = .ret 0 b1) :
    ∃ conn s, linkBitmap P m cols rows b = .ret 0 conn ∧
      packLoads P ((gather m b).2.length * P.NACCESSROWS) conn = .ret 0 s ∧
      ∀ j, s.loadPos ≤ j → j < P.NBLOCKLINKS →
        s.loadMaps j = 0 ∧
        ∃ q, (gather m b).2.get? 0 = some q ∧ b1.blockPointers j = q.1 * 256 ∧
          (b1.blockPointers j ≠ 0 ↔ q.1 ≠ 0) := by
  obtain ⟨conn, s, bp, hbit, hpack, hpub, hb1⟩ :=
    linkArrange_success P m cols rows blockFlags b b1 hstate h
  subst hb1
  refine ⟨conn, s, hbit, hpack, ?_⟩
  intro j hj hjn
  have hz := packLoads_unused P _ conn s 0 hpack j hj
  have hp := (publish_spec P _ _ _ _ _ (List.nodup_range _) hpub).2 j (List.mem_range.2 hjn)
  rw [hz] at hp
  obtain ⟨q, hq, hv⟩ := pointerOf_zero P _ _ hp
  refine ⟨hz, q, hq, hv, ?_⟩
  show bp j ≠ 0 ↔ q.1 ≠ 0
  rw [hv]
  omega

/-- C26 (witness): block 0 of the ring mesh, whose first gathered neighbour is block 1. -/
theorem linkArrange_unused_slots_witness :
    ∃ b1, linkArrange exParams ringMeshMapped ringCols ringRows (fun _ => 2) ringBlockMapped =
        .ret 0 b1 ∧
    ∃ conn s, linkBitmap exParams ringMeshMapped ringCols ringRows ringBlockMapped = .ret 0 conn ∧
      packLoads exParams ((gather ringMeshMapped ringBlockMapped).2.length * exParams.NACCESSROWS)
        conn = .ret 0 s ∧
      ∀ j, s.loadPos ≤ j → j < exParams.NBLOCKLINKS →
        s.loadMaps j = 0 ∧
        ∃ q, (gather ringMeshMapped ringBlockMapped).2.get? 0 = some q ∧
          b1.blockPointers j = q.1 * 256 ∧ (b1.blockPointers j ≠ 0 ↔ q.1 ≠ 0) :=
  ⟨_, rfl, linkArrange_unused_slots exParams ringMeshMapped ringCols ringRows (fun _ => 2)
    ringBlockMapped _ (by decide) rfl⟩

/-! ## The gather step of `linkArrange` -/

theorem foldl_flatMap {α β γ : Type} (f : α → List β) (g : γ → β → γ) :
    ∀ (l : List α) (a : γ),
      l.foldl (fun acc n => (f n).foldl g acc) a = (l.flatMap f).foldl g a := by
  intro l
  induction l with
  | nil => intro a; rfl
  | cons x l ih =>
    intro a
    rw [List.foldl_cons, List.flatMap_cons, List.foldl_append, ih]

theorem mem_firstSeen : ∀ (l : List Int) (x : Int), x ∈ firstSeen l ↔ x ∈ l := by
  intro l
  induction l with
  | nil => intro x; simp [firstSeen]
  | cons a l ih =>
    intro x
    simp only [firstSeen, List.mem_cons, List.mem_filter, ih, decide_eq_true_eq]
    constructor
    · rintro (h | ⟨h, _⟩)
      · exact Or.inl h
      · exact Or.inr h
    · intro h
      by_cases hxa : x = a
      · exact Or.inl hxa
      · rcases h with h | h
        · exact Or.inl h
        · exact Or.inr ⟨h, hxa⟩

theorem nodup_firstSeen : ∀ (l : List Int), (firstSeen l).Nodup := by
  intro l
  induction l with
  | nil => simp [firstSeen]
  | cons a l ih =>
    simp only [firstSeen, List.nodup_cons]
    refine ⟨?_, ih.filter _⟩
    intro h
    have := (List.mem_filter.1 h).2
    simp at this

theorem firstSeen_filter (p : Int → Bool) : ∀ (l : List Int),
    (firstSeen l).filter p = firstSeen (l.filter p) := by
  intro l
  induction l with
  | nil => simp [firstSeen]
  | cons a l ih =>
    by_cases hp : p a = true
    · rw [List.filter_cons_of_pos hp]
      simp only [firstSeen]
      rw [List.filter_cons_of_pos hp, ← ih, List.filter_filter, List.filter_filter]
      congr 1
      apply List.filter_congr
      intro y _
      exact Bool.and_comm _ _
    · rw [List.filter_cons_of_neg hp]
      simp only [firstSeen]
      rw [List.filter_cons_of_neg hp, ← ih, List.filter_filter]
      apply List.filter_congr
      intro y _
      by_cases hya : y = a
      · subst hya
        simp [hp]
      · simp [hya]

theorem firstSeen_append_singleton : ∀ (l : List Int) (x : Int),
    firstSeen (l ++ [x]) = if x ∈ l then firstSeen l else firstSeen l ++ [x] := by
  intro l
  induction l with
  | nil => intro x; simp [firstSeen]
  | cons a l ih =>
    intro x
    have e1 : firstSeen (a :: (l ++ [x])) = a :: (firstSeen (l ++ [x])).filter (fun y => y ≠ a) :=
      rfl
    have e2 : firstSeen (a :: l) = a :: (firstSeen l).filter (fun y => y ≠ a) := rfl
    rw [List.cons_append, e1, e2, ih]
    by_cases hxa : x = a
    · subst hxa
      rw [if_pos (List.mem_cons_self _ _)]
      split
      · rfl
      · rw [List.filter_append]
        simp
    · by_cases hxl : x ∈ l
      · rw [if_pos hxl, if_pos (List.mem_cons_of_mem _ hxl)]
      · rw [if_neg hxl, if_neg]
        · rw [List.filter_append]
          simp [hxa]
        · intro hmem
          rcases List.mem_cons.1 hmem with h | h
          · exact hxa h
          · exact hxl h

theorem firstSeen_map_firstSeen (f : Int → Int) : ∀ (l : List Int),
    firstSeen ((firstSeen l).map f) = firstSeen (l.map f) := by
  intro l
  induction l with
  | nil => simp [firstSeen]
  | cons a l ih =>
    have e1 : firstSeen ((firstSeen (a :: l)).map f) =
        f a :: (firstSeen (((firstSeen l).filter (fun y => y ≠ a)).map f)).filter
          (fun y => y ≠ f a) := rfl
    have e2 : firstSeen ((a :: l).map f) =
        f a :: (firstSeen (l.map f)).filter (fun y => y ≠ f a) := rfl
    rw [e1, e2, ← ih]
    generalize firstSeen l = L
    congr 1
    rw [firstSeen_filter, firstSeen_filter]
    congr 1
    rw [List.filter_map, List.filter_map, List.filter_filter]
    congr 1
    apply List.filter_congr
    intro y _
    by_cases hfy : f y = f a
    · simp [hfy]
    · have hya : y ≠ a := fun e => hfy (e ▸ rfl)
      simp [hfy, hya]

theorem gatherLink_own (m : Mesh) (blockNum : Int) (acc : List Int × List (Int × List Int))
    (x : Int) (h : m.nodeBlocks x = blockNum) : gatherLink m blockNum acc x = acc := by
  unfold gatherLink
  rw [if_pos h]

theorem gatherLink_seen (m : Mesh) (blockNum : Int) (acc : List Int × List (Int × List Int))
    (x : Int) (h : x ∈ acc.1) : gatherLink m blockNum acc x = acc := by
  unfold gatherLink
  split
  · rfl
  · rfl

theorem gatherLink_new (m : Mesh) (blockNum : Int) (acc : List Int × List (Int × List Int))
    (x : Int) (h1 : m.nodeBlocks x ≠ blockNum) (h2 : x ∉ acc.1) :
    gatherLink m blockNum acc x = (acc.1 ++ [x], addToBlock (m.nodeBlocks x) x acc.2) := by
  unfold gatherLink
  rw [if_neg h1, if_neg h2]

theorem gather_nodes (m : Mesh) (blockNum : Int) :
    ∀ (l : List Int) (acc : List Int × List (Int × List Int)),
      (l.foldl (gatherLink m blockNum) acc).1 =
        acc.1 ++ (firstSeen (l.filter (fun x => m.nodeBlocks x ≠ blockNum))).filter
          (fun y => y ∉ acc.1) := by
  intro l
  induction l with
  | nil => intro acc; simp [firstSeen]
  | cons x l ih =>
    intro acc
    rw [List.foldl_cons]
    by_cases hown : m.nodeBlocks x = blockNum
    · rw [gatherLink_own m blockNum acc x hown, ih, List.filter_cons_of_neg (by simpa using hown)]
    · rw [List.filter_cons_of_pos (by simpa using hown)]
      have e1 : ∀ F : List Int, firstSeen (x :: F) = x :: (firstSeen F).filter (fun y => y ≠ x) :=
        fun _ => rfl
      rw [e1]
      by_cases hseen : x ∈ acc.1
      · rw [gatherLink_seen m blockNum acc x hseen, ih,
          List.filter_cons_of_neg (by simpa using hseen), List.filter_filter]
        congr 1
        apply List.filter_congr
        intro y _
        by_cases hy : y ∈ acc.1
        · simp [hy]
        · have hyx : y ≠ x := fun e => hy (e ▸ hseen)
          simp [hy, hyx]
      · rw [gatherLink_new m blockNum acc x hown hseen, ih,
          List.filter_cons_of_pos (by simpa using hseen), List.filter_filter]
        simp only [List.append_assoc, List.singleton_append]
        congr 2
        apply List.filter_congr
        intro y _
        by_cases hy : y ∈ acc.1
        · simp [hy]
        · by_cases hyx : y = x
          · simp [hyx]
          · simp [hy, hyx]

theorem addToBlock_new (linkBlock linkNode : Int) :
    ∀ (L : List (Int × List Int)), linkBlock ∉ L.map Prod.fst →
      addToBlock linkBlock linkNode L = L ++ [(linkBlock, [linkNode])] := by
  intro L
  induction L with
  | nil => intro _; rfl
  | cons q L ih =>
    intro h
    simp only [List.map_cons, List.mem_cons, not_or] at h
    simp only [addToBlock]
    rw [if_neg h.1, ih h.2]
    rfl

theorem addToBlock_old (linkBlock linkNode : Int) :
    ∀ (L : List (Int × List Int)), (L.map Prod.fst).Nodup → linkBlock ∈ L.map Prod.fst →
      addToBlock linkBlock linkNode L =
        L.map (fun q => if linkBlock = q.1 then (q.1, q.2 ++ [linkNode]) else q) := by
  intro L
  induction L with
  | nil => intro _ h; simp at h
  | cons q L ih =>
    intro hnd h
    simp only [List.map_cons, List.nodup_cons] at hnd
    simp only [addToBlock, List.map_cons]
    by_cases hq : linkBlock = q.1
    · rw [if_pos hq, if_pos hq]
      congr 1
      symm
      rw [List.map_congr_left (g := id), List.map_id]
      intro q2 hq2
      have hne : linkBlock ≠ q2.1 := by
        intro e
        apply hnd.1
        rw [← hq, e]
        exact List.mem_map_of_mem _ hq2
      simp [hne]
    · rw [if_neg hq, if_neg hq]
      congr 1
      refine ih hnd.2 ?_
      simp only [List.map_cons, List.mem_cons] at h
      rcases h with h | h
      · exact absurd h hq
      · exact h

theorem gatherLink_grouped (m : Mesh) (blockNum : Int) (acc : List Int × List (Int × List Int))
    (x : Int)
    (hg : acc.2.map Prod.fst = firstSeen (acc.1.map m.nodeBlocks) ∧
      ∀ q ∈ acc.2, q.2 = acc.1.filter (fun y => m.nodeBlocks y = q.1)) :
    (gatherLink m blockNum acc x).2.map Prod.fst =
        firstSeen ((gatherLink m blockNum acc x).1.map m.nodeBlocks) ∧
      ∀ q ∈ (gatherLink m blockNum acc x).2,
        q.2 = (gatherLink m blockNum acc x).1.filter (fun y => m.nodeBlocks y = q.1) := by
  obtain ⟨hg1, hg2⟩ := hg
  by_cases hown : m.nodeBlocks x = blockNum
  · rw [gatherLink_own m blockNum acc x hown]
    exact ⟨hg1, hg2⟩
  · by_cases hseen : x ∈ acc.1
    · rw [gatherLink_seen m blockNum acc x hseen]
      exact ⟨hg1, hg2⟩
    · rw [gatherLink_new m blockNum acc x hown hseen]
      have hnd : (acc.2.map Prod.fst).Nodup := by
        rw [hg1]
        exact nodup_firstSeen _
      have hmem : m.nodeBlocks x ∈ acc.2.map Prod.fst ↔ m.nodeBlocks x ∈ acc.1.map m.nodeBlocks := by
        rw [hg1, mem_firstSeen]
      have hone : ∀ B : Int, ([x].filter (fun y => m.nodeBlocks y = B)) =
          if m.nodeBlocks x = B then [x] else [] := by
        intro B
        by_cases hB : m.nodeBlocks x = B
        · simp [hB]
        · simp [hB]
      show (addToBlock (m.nodeBlocks x) x acc.2).map Prod.fst =
          firstSeen ((acc.1 ++ [x]).map m.nodeBlocks) ∧
        ∀ q ∈ addToBlock (m.nodeBlocks x) x acc.2,
          q.2 = (acc.1 ++ [x]).filter (fun y => m.nodeBlocks y = q.1)
      rw [List.map_append, List.map_singleton, firstSeen_append_singleton]
      by_cases hB : m.nodeBlocks x ∈ acc.2.map Prod.fst
      · rw [addToBlock_old _ _ _ hnd hB, if_pos (hmem.1 hB)]
        constructor
        · rw [List.map_map, ← hg1]
          apply List.map_congr_left
          intro q _
          show (if m.nodeBlocks x = q.1 then (q.1, q.2 ++ [x]) else q).1 = q.1
          split <;> rfl
        · intro q2 hq2
          rw [List.mem_map] at hq2
          obtain ⟨q, hq, rfl⟩ := hq2
          rw [List.filter_append, hone]
          by_cases hqB : m.nodeBlocks x = q.1
          · rw [if_pos hqB]
            show q.2 ++ [x] = List.filter (fun y => m.nodeBlocks y = q.1) acc.1 ++
              if m.nodeBlocks x = q.1 then [x] else []
            rw [if_pos hqB, ← hg2 q hq]
          · rw [if_neg hqB, if_neg hqB, List.append_nil]
            exact hg2 q hq
      · rw [addToBlock_new _ _ _ hB, if_neg (fun h => hB (hmem.2 h))]
        constructor
        · rw [List.map_append, hg1]
          rfl
        · intro q hq
          rw [List.filter_append, hone]
          rcases List.mem_append.1 hq with h1 | h1
          · have hne : m.nodeBlocks x ≠ q.1 := fun e => hB (e ▸ List.mem_map_of_mem _ h1)
            rw [if_neg hne, List.append_nil]
            exact hg2 q h1
          · rw [List.mem_singleton] at h1
            subst h1
            show [x] = List.filter (fun y => m.nodeBlocks y = m.nodeBlocks x) acc.1 ++
              if m.nodeBlocks x = m.nodeBlocks x then [x] else []
            rw [if_pos rfl]
            have hnil : List.filter (fun y => m.nodeBlocks y = m.nodeBlocks x) acc.1 = [] := by
              rw [List.filter_eq_nil_iff]
              intro y hy
              have : m.nodeBlocks y ≠ m.nodeBlocks x := by
                intro e
                apply hB
                rw [hmem, ← e]
                exact List.mem_map_of_mem _ hy
              simpa using this
            rw [hnil]
            rfl

/-- C22: in the gather step of `linkArrange` the list of linked nodes is the sequence of the
links of the boundary nodes that land on nodes of other blocks, each node kept where it is met
first: it holds exactly the nodes owned by other blocks that are linked from some boundary
node, each once. The neighbour list holds the owning blocks of these links, each once and in
the order in which they are met first, and the node list of a neighbour holds exactly the
linked nodes owned by that block, in the order of the list of linked nodes. -/
theorem gather_first_encounter (m : Mesh) (b : Block) :
    (gather m b).1 = firstSeen (encountered m b) ∧
    (gather m b).1.Nodup ∧
    (∀ x, x ∈ (gather m b).1 ↔
      ((∃ n ∈ b.boundNodes, x ∈ linksOf m n) ∧ m.nodeBlocks x ≠ b.blockNum)) ∧
    (gather m b).2.map Prod.fst = firstSeen ((encountered m b).map m.nodeBlocks) ∧
    ((gather m b).2.map Prod.fst).Nodup ∧
    (∀ q ∈ (gather m b).2, q.2 = (gather m b).1.filter (fun x => m.nodeBlocks x = q.1)) := by
  have hfold : gather m b =
      (b.boundNodes.flatMap (linksOf m)).foldl (gatherLink m b.blockNum) ([], []) := by
    unfold gather
    exact foldl_flatMap (linksOf m) (gatherLink m b.blockNum) b.boundNodes ([], [])
  have hnodes : (gather m b).1 = firstSeen (encountered m b) := by
    rw [hfold, gather_nodes]
    unfold encountered
    simp
  have hgrp := foldl_invariant
    (fun acc : List Int × List (Int × List Int) =>
      acc.2.map Prod.fst = firstSeen (acc.1.map m.nodeBlocks) ∧
      ∀ q ∈ acc.2, q.2 = acc.1.filter (fun y => m.nodeBlocks y = q.1))
    (gatherLink m b.blockNum) (b.boundNodes.flatMap (linksOf m)) ([], [])
    ⟨rfl, by simp⟩ (fun acc x h => gatherLink_grouped m b.blockNum acc x h)
  rw [← hfold] at hgrp
  have hblocks : (gather m b).2.map Prod.fst = firstSeen ((encountered m b).map m.nodeBlocks) := by
    rw [hgrp.1, hnodes, firstSeen_map_firstSeen]
  refine ⟨hnodes, ?_, ?_, hblocks, ?_, hgrp.2⟩
  · rw [hnodes]
    exact nodup_firstSeen _
  · intro x
    rw [hnodes, mem_firstSeen]
    unfold encountered
    simp only [List.mem_filter, List.mem_flatMap, decide_eq_true_eq]
  · rw [hblocks]
    exact nodup_firstSeen _

/-! ## The loads of width 4 take the rows in the order of the pattern classes -/

theorem Pack.Consumed.nil (s : Pack) : s.Consumed [] s :=
  ⟨rfl, fun j hj => absurd hj (Nat.not_lt_zero j), fun _ _ => rfl, fun _ => by simp⟩

theorem Pack.Consumed.append {s s1 s2 : Pack} {A B : List Nat} (h1 : s.Consumed A s1)
    (h2 : s1.Consumed B s2) : s.Consumed (A ++ B) s2 := by
  obtain ⟨a1, b1, c1, d1⟩ := h1
  obtain ⟨a2, b2, c2, d2⟩ := h2
  refine ⟨?_, ?_, ?_, ?_⟩
  · rw [a2, a1, List.length_append]
    omega
  · intro j hj
    rw [List.length_append] at hj
    by_cases hjA : j < A.length
    · rw [c2 _ (Or.inl (by omega)), b1 j hjA, List.getD_append _ _ _ _ hjA]
    · have e : s.loadPos + j = s1.loadPos + (j - A.length) := by omega
      rw [e, b2 _ (by omega), List.getD_append_right _ _ _ _ (by omega)]
  · intro k hk
    rw [List.length_append] at hk
    rw [c2 k (by omega), c1 k (by omega)]
  · intro r
    rw [d2 r, d1 r]
    by_cases hB : r ∈ B
    · simp [hB]
    · by_cases hA : r ∈ A
      · simp [hA]
      · simp [hA, hB]

theorem tryCheck_hit (P : Params) (w : Nat) (c : Check) (cnt : Nat) (s : Pack)
    (hc : c.cond (s.connArray cnt) = true) (hp : s.loadPos < P.NBLOCKLINKS) :
    tryCheck P w c cnt s =
      some ({ loadPos := s.loadPos + 1, loadMaps := setAt s.loadMaps s.loadPos (cnt * 4 + c.col),
              connArray := setAt s.connArray cnt (s.connArray cnt &&& c.keep) },
        decide (P.loadLengths (s.loadPos + 1) ≠ w)) := by
  unfold tryCheck place
  rw [if_pos hc, if_pos hp]

theorem tryCheck_miss (P : Params) (w : Nat) (c : Check) (cnt : Nat) (s : Pack)
    (hc : c.cond (s.connArray cnt) = false) : tryCheck P w c cnt s = some (s, false) := by
  unfold tryCheck
  rw [if_neg (by simp [hc])]

theorem consumed_one (s : Pack) (cnt : Nat) :
    s.Consumed [cnt]
      { loadPos := s.loadPos + 1, loadMaps := setAt s.loadMaps s.loadPos (cnt * 4 + 0),
        connArray := setAt s.connArray cnt (s.connArray cnt &&& 0) } := by
  refine ⟨rfl, ?_, ?_, ?_⟩
  · intro j hj
    simp only [List.length_singleton] at hj
    have : j = 0 := by omega
    subst this
    show setAt s.loadMaps s.loadPos (cnt * 4 + 0) s.loadPos = 4 * [cnt].getD 0 0
    rw [setAt_same]
    simp only [List.getD_cons_zero]
    omega
  · intro k hk
    simp only [List.length_singleton] at hk
    exact setAt_other _ _ _ _ (by omega)
  · intro r
    show setAt s.connArray cnt (s.connArray cnt &&& 0) r = if r ∈ [cnt] then 0 else s.connArray r
    by_cases hr : r = cnt
    · subst hr
      rw [setAt_same]
      simp
    · rw [setAt_other _ _ _ _ hr]
      simp [hr]

theorem tierRows_consumes (P : Params) (n4 : Nat)
    (hcat : ∀ k, k < n4 → P.loadLengths k = 4) (hstop : P.loadLengths n4 ≠ 4)
    (hn4 : n4 ≤ P.NBLOCKLINKS) (c : Check) (hcol : c.col = 0) (hkeep : c.keep = 0) :
    ∀ (rows : List Nat), rows.Nodup → ∀ (s : Pack), s.loadPos < n4 →
      ∃ s1, tierRows P 4 [c] rows s = some s1 ∧
        s.Consumed ((rows.filter (fun r => c.cond (s.connArray r))).take (n4 - s.loadPos)) s1 := by
  intro rows
  induction rows with
  | nil =>
    intro _ s _
    exact ⟨s, rfl, by simpa using Pack.Consumed.nil s⟩
  | cons cnt rows ih =>
    intro hnd s hp
    obtain ⟨hcnt, hnd2⟩ := List.nodup_cons.1 hnd
    by_cases hc : c.cond (s.connArray cnt) = true
    · have hhit := tryCheck_hit P 4 c cnt s hc (by omega)
      rw [hcol, hkeep] at hhit
      have hone := consumed_one s cnt
      have hf : (cnt :: rows).filter (fun r => c.cond (s.connArray r)) =
          cnt :: rows.filter (fun r => c.cond (s.connArray r)) := by
        simp [List.filter_cons, hc]
      rw [hf]
      obtain ⟨d, hd⟩ : ∃ d, n4 - s.loadPos = d + 1 := ⟨n4 - s.loadPos - 1, by omega⟩
      rw [hd, List.take_succ_cons]
      by_cases hlast : s.loadPos + 1 = n4
      · have hd0 : d = 0 := by omega
        subst hd0
        have hflag : decide (P.loadLengths (s.loadPos + 1) ≠ 4) = true := by
          rw [hlast]
          simpa using hstop
        refine ⟨{ loadPos := s.loadPos + 1,
                  loadMaps := setAt s.loadMaps s.loadPos (cnt * 4 + 0),
                  connArray := setAt s.connArray cnt (s.connArray cnt &&& 0) }, ?_, ?_⟩
        · simp only [tierRows, runChecks, hhit, hflag]
        · rw [List.take_zero]
          exact hone
      · have hlt : s.loadPos + 1 < n4 := by omega
        have hflag : decide (P.loadLengths (s.loadPos + 1) ≠ 4) = false := by
          simpa using hcat _ hlt
        obtain ⟨s1, hs1, hcons⟩ := ih hnd2
          { loadPos := s.loadPos + 1, loadMaps := setAt s.loadMaps s.loadPos (cnt * 4 + 0),
            connArray := setAt s.connArray cnt (s.connArray cnt &&& 0) } hlt
        refine ⟨s1, ?_, ?_⟩
        · simp only [tierRows, runChecks, hhit, hflag]
          exact hs1
        · have hfilter : rows.filter (fun r => c.cond
              (setAt s.connArray cnt (s.connArray cnt &&& 0) r)) =
              rows.filter (fun r => c.cond (s.connArray r)) := by
            apply List.filter_congr
            intro r hr
            have hne : r ≠ cnt := fun e => hcnt (e ▸ hr)
            rw [setAt_other _ _ _ _ hne]
          simp only [hfilter] at hcons
          have hd2 : n4 - (s.loadPos + 1) = d := by omega
          rw [hd2] at hcons
          exact hone.append hcons
    · have hc2 : c.cond (s.connArray cnt) = false := by simpa using hc
      have hmiss := tryCheck_miss P 4 c cnt s hc2
      have hf : (cnt :: rows).filter (fun r => c.cond (s.connArray r)) =
          rows.filter (fun r => c.cond (s.connArray r)) := by
        simp [List.filter_cons, hc2]
      rw [hf]
      obtain ⟨s1, hs1, hcons⟩ := ih hnd2 s hp
      refine ⟨s1, ?_, hcons⟩
      simp only [tierRows, runChecks, hmiss]
      exact hs1

theorem mem_classRows (nRows : Nat) (connArray : Nat → Nat) (c r : Nat) :
    r ∈ classRows nRows connArray c ↔ r < nRows ∧ patternClass (connArray r) = c := by
  unfold classRows
  simp [List.mem_filter]

theorem classOrder_eq (nRows : Nat) (connArray : Nat → Nat) :
    classOrder nRows connArray =
      [] ++ classRows nRows connArray 0 ++ classRows nRows connArray 1 ++
        classRows nRows connArray 2 ++ classRows nRows connArray 3 ++
        classRows nRows connArray 4 := by
  have h5 : List.range 5 = [0, 1, 2, 3, 4] := by decide
  unfold classOrder
  rw [h5]
  simp [List.flatMap_cons]

theorem stage_step (P : Params) (n4 : Nat)
    (hcat : ∀ k, k < n4 → P.loadLengths k = 4) (hstop : P.loadLengths n4 ≠ 4)
    (hn4 : n4 ≤ P.NBLOCKLINKS) (nRows : Nat) (s0 : Pack) (h0 : s0.loadPos = 0)
    (i : Nat) (hi : i ≠ 5) (c : Check) (hcol : c.col = 0) (hkeep : c.keep = 0)
    (hcond : ∀ v, c.cond v = true ↔ patternClass v = i)
    (pre : List Nat) (hpre : ∀ r ∈ pre, patternClass (s0.connArray r) ≠ i)
    (s : Pack) (hs : s0.Consumed (pre.take n4) s) :
    ∃ s1, s0.Consumed ((pre ++ classRows nRows s0.connArray i).take n4) s1 ∧
      ∀ rest, runStages P nRows ((4, [c]) :: rest) s = runStages P nRows rest s1 := by
  have hpos : s.loadPos = (pre.take n4).length := by
    rw [hs.1, h0, Nat.zero_add]
  rw [List.length_take] at hpos
  by_cases hfull : n4 ≤ pre.length
  · refine ⟨s, ?_, ?_⟩
    · rw [List.take_append_of_le_length hfull]
      exact hs
    · intro rest
      have hp : s.loadPos = n4 := by omega
      simp only [runStages]
      rw [if_neg (by rw [hp]; exact hstop)]
  · have hlt : pre.length < n4 := by omega
    have htake : pre.take n4 = pre := List.take_of_length_le (by omega)
    rw [htake] at hs
    have hp : s.loadPos = pre.length := by omega
    obtain ⟨s1, htier, hcons⟩ := tierRows_consumes P n4 hcat hstop hn4 c hcol hkeep
      (List.range nRows) (List.nodup_range nRows) s (by omega)
    have hzero : c.cond 0 = false := by
      have hne : ¬ c.cond 0 = true := by
        rw [hcond]
        intro e
        apply hi
        rw [← e]
        rfl
      simpa using hne
    have hfilter : (List.range nRows).filter (fun r => c.cond (s.connArray r)) =
        classRows nRows s0.connArray i := by
      unfold classRows
      apply List.filter_congr
      intro r _
      rw [hs.2.2.2 r]
      by_cases hr : r ∈ pre
      · rw [if_pos hr, hzero]
        have := hpre r hr
        simp [this]
      · rw [if_neg hr]
        by_cases hcl : patternClass (s0.connArray r) = i
        · rw [(hcond _).2 hcl]
          simp [hcl]
        · have : ¬ c.cond (s0.connArray r) = true := fun h => hcl ((hcond _).1 h)
          simp [hcl, this]
    rw [hfilter, hp] at hcons
    refine ⟨s1, ?_, ?_⟩
    · rw [List.take_append_eq_append_take, htake]
      exact hs.append hcons
    · intro rest
      simp only [runStages]
      rw [if_pos (by rw [hp]; exact hcat _ hlt), htier]

theorem patternClass_le (v : Nat) : patternClass v ≤ 5 := by
  unfold patternClass
  split_ifs <;> omega

theorem class0_iff (v : Nat) : decide (v = 15) = true ↔ patternClass v = 0 := by
  unfold patternClass
  simp only [decide_eq_true_eq]
  split_ifs with h1 h2 h3 h4 h5 <;> simp_all

theorem class1_iff (v : Nat) :
    decide (v = 14 ∨ v = 13 ∨ v = 11 ∨ v = 7) = true ↔ patternClass v = 1 := by
  unfold patternClass
  simp only [decide_eq_true_eq]
  split_ifs with h1 h2 h3 h4 h5 <;> simp_all

theorem class2_iff (v : Nat) : decide (v = 9 ∨ v = 10 ∨ v = 5) = true ↔ patternClass v = 2 := by
  unfold patternClass
  simp only [decide_eq_true_eq]
  split_ifs with h1 h2 h3 h4 h5 <;> simp_all
  omega

theorem class3_iff (v : Nat) : decide (v = 3 ∨ v = 6 ∨ v = 12) = true ↔ patternClass v = 3 := by
  unfold patternClass
  simp only [decide_eq_true_eq]
  split_ifs with h1 h2 h3 h4 h5 <;> simp_all <;> omega

theorem class4_iff (v : Nat) :
    decide (v = 1 ∨ v = 2 ∨ v = 4 ∨ v = 8) = true ↔ patternClass v = 4 := by
  unfold patternClass
  simp only [decide_eq_true_eq]
  split_ifs with h1 h2 h3 h4 h5 <;> simp_all <;> omega
theorem width_four_stages (P : Params) (n4 : Nat)
    (hcat : ∀ k, k < n4 → P.loadLengths k = 4) (hstop : P.loadLengths n4 ≠ 4)
    (hn4 : n4 ≤ P.NBLOCKLINKS) (nRows : Nat) (s0 : Pack) (h0 : s0.loadPos = 0) :
    ∃ s5, s0.Consumed ((classOrder nRows s0.connArray).take n4) s5 ∧
      runStages P nRows (tierStages.take 5) s0 = some s5 ∧
      runStages P nRows tierStages s0 = runStages P nRows (tierStages.drop 5) s5 := by
  have hmem : ∀ (c : Nat) (r : Nat), r ∈ classRows nRows s0.connArray c →
      patternClass (s0.connArray r) = c := fun c r hr => ((mem_classRows _ _ _ _).1 hr).2
  obtain ⟨s1, hc1, hr1⟩ := stage_step P n4 hcat hstop hn4 nRows s0 h0 0 (by decide)
    ⟨fun v => v = 15, 0, 0⟩ rfl rfl
    class0_iff
    [] (by simp) s0 (by simpa using Pack.Consumed.nil s0)
  obtain ⟨s2, hc2, hr2⟩ := stage_step P n4 hcat hstop hn4 nRows s0 h0 1 (by decide)
    ⟨fun v => v = 14 ∨ v = 13 ∨ v = 11 ∨ v = 7, 0, 0⟩ rfl rfl
    class1_iff
    _ (by
      intro r hr
      simp only [List.nil_append] at hr
      rw [hmem _ r hr]
      decide) s1 hc1
  obtain ⟨s3, hc3, hr3⟩ := stage_step P n4 hcat hstop hn4 nRows s0 h0 2 (by decide)
    ⟨fun v => v = 9 ∨ v = 10 ∨ v = 5, 0, 0⟩ rfl rfl
    class2_iff
    _ (by
      intro r hr
      simp only [List.nil_append, List.mem_append] at hr
      rcases hr with hr | hr <;> rw [hmem _ r hr] <;> decide) s2 hc2
  obtain ⟨s4, hc4, hr4⟩ := stage_step P n4 hcat hstop hn4 nRows s0 h0 3 (by decide)
    ⟨fun v => v = 3 ∨ v = 6 ∨ v = 12, 0, 0⟩ rfl rfl
    class3_iff
    _ (by
      intro r hr
      simp only [List.nil_append, List.mem_append] at hr
      rcases hr with (hr | hr) | hr <;> rw [hmem _ r hr] <;> decide) s3 hc3
  obtain ⟨s5, hc5, hr5⟩ := stage_step P n4 hcat hstop hn4 nRows s0 h0 4 (by decide)
    ⟨fun v => v = 1 ∨ v = 2 ∨ v = 4 ∨ v = 8, 0, 0⟩ rfl rfl
    class4_iff
    _ (by
      intro r hr
      simp only [List.nil_append, List.mem_append] at hr
      rcases hr with ((hr | hr) | hr) | hr <;> rw [hmem _ r hr] <;> decide) s4 hc4
  refine ⟨s5, ?_, ?_, ?_⟩
  · rw [classOrder_eq]
    exact hc5
  · show runStages P nRows
      [(4, [⟨fun v => v = 15, 0, 0⟩]), (4, [⟨fun v => v = 14 ∨ v = 13 ∨ v = 11 ∨ v = 7, 0, 0⟩]),
       (4, [⟨fun v => v = 9 ∨ v = 10 ∨ v = 5, 0, 0⟩]), (4, [⟨fun v => v = 3 ∨ v = 6 ∨ v = 12, 0, 0⟩]),
       (4, [⟨fun v => v = 1 ∨ v = 2 ∨ v = 4 ∨ v = 8, 0, 0⟩])] s0 = some s5
    rw [hr1, hr2, hr3, hr4, hr5]
    rfl
  · unfold tierStages
    rw [hr1, hr2, hr3, hr4, hr5]
    rfl

theorem runChecks_idle (P : Params) (w cnt : Nat) :
    ∀ (cs : List Check) (s : Pack), (∀ c ∈ cs, c.cond 0 = false) → s.connArray cnt = 0 →
      runChecks P w cnt cs s = some (s, false) := by
  intro cs
  induction cs with
  | nil => intro s _ _; rfl
  | cons c cs ih =>
    intro s hc hz
    have hmiss := tryCheck_miss P w c cnt s (by rw [hz]; exact hc c (List.mem_cons_self _ _))
    simp only [runChecks, hmiss]
    exact ih s (fun c2 h2 => hc c2 (List.mem_cons_of_mem _ h2)) hz

theorem tierRows_idle (P : Params) (w : Nat) (cs : List Check)
    (hc : ∀ c ∈ cs, c.cond 0 = false) :
    ∀ (rows : List Nat) (s : Pack), (∀ r ∈ rows, s.connArray r = 0) →
      tierRows P w cs rows s = some s := by
  intro rows
  induction rows with
  | nil => intro s _; rfl
  | cons cnt rows ih =>
    intro s hz
    simp only [tierRows, runChecks_idle P w cnt cs s hc (hz cnt (List.mem_cons_self _ _))]
    exact ih s (fun r hr => hz r (List.mem_cons_of_mem _ hr))

theorem runStages_idle (P : Params) (nRows : Nat) :
    ∀ (stages : List (Nat × List Check)) (s : Pack),
      (∀ st ∈ stages, ∀ c ∈ st.2, c.cond 0 = false) → (∀ r, r < nRows → s.connArray r = 0) →
      runStages P nRows stages s = some s := by
  intro stages
  induction stages with
  | nil => intro s _ _; rfl
  | cons st stages ih =>
    intro s hc hz
    obtain ⟨w, cs⟩ := st
    have hrest := ih s (fun st2 h2 => hc st2 (List.mem_cons_of_mem _ h2)) hz
    simp only [runStages]
    split
    · rw [tierRows_idle P w cs (hc (w, cs) (List.mem_cons_self _ _)) _ s
        (fun r hr => hz r (List.mem_range.1 hr))]
      exact hrest
    · exact hrest

theorem onesRows_idle (P : Params) :
    ∀ (rows : List Nat) (s : Pack), (∀ r ∈ rows, s.connArray r = 0) →
      onesRows P rows s = some s := by
  intro rows
  induction rows with
  | nil => intro s _; rfl
  | cons cnt rows ih =>
    intro s hz
    simp only [onesRows]
    rw [if_neg (by simp [hz cnt (List.mem_cons_self _ _)])]
    exact ih s (fun r hr => hz r (List.mem_cons_of_mem _ hr))

theorem packEnd_state (nRows : Nat) (s s1 : Pack) (code : Int)
    (h : packEnd nRows s = .ret code s1) : s1 = s := by
  unfold packEnd at h
  split at h
  · injection h with _ h
    exact h.symm
  · injection h with _ h
    exact h.symm

theorem packLoop_after (P : Params) (nRows : Nat) (s0 s5 : Pack)
    (rest : List (Nat × List Check))
    (hrun : runStages P nRows tierStages s0 = runStages P nRows rest s5)
    (fuel : Nat) (code : Int) (s : Pack) (hlt : s0.loadPos < P.NBLOCKLINKS)
    (h : packLoop P nRows (fuel + 1) s0 = .ret code s) : s5.Extends s := by
  simp only [packLoop] at h
  rw [if_pos hlt] at h
  split at h
  · cases h
  · rename_i s1 hr
    have he : s5.Extends s1 := by
      unfold packRound at hr
      rw [hrun] at hr
      split at hr
      · cases hr
      · rename_i s2 hs2
        have h52 := runStages_extends P nRows rest s5 s2 hs2
        split at hr
        · exact h52.trans (onesRows_extends P _ s2 s1 hr)
        · injection hr with hr
          subst hr
          exact h52
    split at h
    · rw [packEnd_state nRows s1 s code h]
      exact he
    · split at h
      · injection h with _ h
        subst h
        exact he
      · exact he.trans (packLoop_extends P nRows fuel s1 s code h)

theorem packLoads_all_consumed (P : Params) (nRows : Nat) (connArray : Nat → Nat) (s5 : Pack)
    (rest : List (Nat × List Check)) (hrest : ∀ st ∈ rest, ∀ c ∈ st.2, c.cond 0 = false)
    (hrun : runStages P nRows tierStages ⟨0, fun _ => 0, connArray⟩ = runStages P nRows rest s5)
    (hz : ∀ r, r < nRows → s5.connArray r = 0) (hlt : 0 < P.NBLOCKLINKS) :
    packLoads P nRows connArray = .ret 0 s5 := by
  have hall : allZeros nRows s5.connArray = true := (allZeros_iff _ _).2 hz
  have hround : packRound P nRows ⟨0, fun _ => 0, connArray⟩ = some s5 := by
    unfold packRound
    rw [hrun, runStages_idle P nRows rest s5 hrest hz]
    simp only
    split
    · exact onesRows_idle P _ s5 (fun r hr => hz r (List.mem_range.1 hr))
    · rfl
  unfold packLoads
  simp only [packLoop]
  rw [if_pos hlt, hround]
  simp only [hall, if_true]
  unfold packEnd
  rw [if_pos hall]

theorem classOrder_sorted (nRows : Nat) (connArray : Nat → Nat) :
    (classOrder nRows connArray).Pairwise (fun a b =>
      patternClass (connArray a) < patternClass (connArray b) ∨
        (patternClass (connArray a) = patternClass (connArray b) ∧ a < b)) := by
  unfold classOrder
  rw [List.pairwise_flatMap]
  constructor
  · intro c _
    have hlt : (classRows nRows connArray c).Pairwise (fun a b => a < b) :=
      List.Pairwise.sublist (List.filter_sublist _) (List.pairwise_lt_range nRows)
    refine List.Pairwise.imp_of_mem ?_ hlt
    intro a b ha hb hab
    right
    rw [((mem_classRows _ _ _ _).1 ha).2, ((mem_classRows _ _ _ _).1 hb).2]
    exact ⟨rfl, hab⟩
  · refine List.Pairwise.imp ?_ (List.pairwise_lt_range 5)
    intro c1 c2 hc x hx y hy
    left
    rw [((mem_classRows _ _ _ _).1 hx).2, ((mem_classRows _ _ _ _).1 hy).2]
    exact hc

theorem mem_classOrder (nRows : Nat) (connArray : Nat → Nat) (r : Nat) :
    r ∈ classOrder nRows connArray ↔ r < nRows ∧ patternClass (connArray r) < 5 := by
  unfold classOrder
  rw [List.mem_flatMap]
  constructor
  · rintro ⟨c, hc, hr⟩
    obtain ⟨h1, h2⟩ := (mem_classRows _ _ _ _).1 hr
    exact ⟨h1, by rw [h2]; exact List.mem_range.1 hc⟩
  · rintro ⟨h1, h2⟩
    exact ⟨_, List.mem_range.2 h2, (mem_classRows _ _ _ _).2 ⟨h1, rfl⟩⟩

theorem patternClass_nonzero : ∀ v, v < 16 → (patternClass v < 5 ↔ v ≠ 0) := by
  decide

/-- C23: when the catalogue starts with exactly `n4` widths 4 (`n4 <= NBLOCKLINKS`), the five
packing loops for loads of width 4 of the first round run to their end and give the slots
`0, 1, ...` to the first `n4` rows of `classOrder`, the rows with a mask of one of the five
pattern classes sorted by class (`1111`, three bits, split pairs, joined pairs, one bit) and by
ascending row index within a class: slot `j` holds `4 * row` (that row, column 0) and the row
is set to 0. Whenever the packing returns, these slots and these rows are still so. For rows
of 4 bits `classOrder` lists exactly the rows that are not 0, and when there are no more than
`n4` of them the packing returns 0 with exactly one slot a row; so a single row `1111` under a
first width of 4 is packed in one slot at that row, column 0. -/
theorem packLoads_width_four_order (P : Params) (nRows : Nat) (connArray : Nat → Nat) (n4 : Nat)
    (hcat : ∀ k, k < n4 → P.loadLengths k = 4) (hstop : P.loadLengths n4 ≠ 4)
    (hn4 : n4 ≤ P.NBLOCKLINKS) :
    (classOrder nRows connArray).Pairwise (fun a b =>
      patternClass (connArray a) < patternClass (connArray b) ∨
        (patternClass (connArray a) = patternClass (connArray b) ∧ a < b)) ∧
    (∃ s5, runStages P nRows (tierStages.take 5) ⟨0, fun _ => 0, connArray⟩ = some s5 ∧
      Pack.Consumed ⟨0, fun _ => 0, connArray⟩ ((classOrder nRows connArray).take n4) s5) ∧
    (∀ code s, packLoads P nRows connArray = .ret code s →
      ∀ j, j < ((classOrder nRows connArray).take n4).length →
        s.loadMaps j = 4 * ((classOrder nRows connArray).take n4).getD j 0 ∧
        s.connArray (((classOrder nRows connArray).take n4).getD j 0) = 0) ∧
    ((∀ r, r < nRows → connArray r < 16) →
      (∀ r, r < nRows → (r ∈ classOrder nRows connArray ↔ connArray r ≠ 0)) ∧
      ((classOrder nRows connArray).length ≤ n4 →
        ∃ s, packLoads P nRows connArray = .ret 0 s ∧
          s.loadPos = (classOrder nRows connArray).length ∧
          ∀ r, r < nRows → s.connArray r = 0)) := by
  obtain ⟨s5, hcons, htake, hdrop⟩ :=
    width_four_stages P n4 hcat hstop hn4 nRows ⟨0, fun _ => 0, connArray⟩ rfl
  have hidle : ∀ st ∈ tierStages.drop 5, ∀ c ∈ st.2, c.cond 0 = false := by decide
  have hnz : (∀ r, r < nRows → connArray r < 16) →
      ∀ r, r < nRows → (r ∈ classOrder nRows connArray ↔ connArray r ≠ 0) := by
    intro hmask r hr
    rw [mem_classOrder, ← patternClass_nonzero _ (hmask r hr)]
    exact ⟨fun h => h.2, fun h => ⟨hr, h⟩⟩
  refine ⟨classOrder_sorted nRows connArray, ⟨s5, htake, hcons⟩, ?_, ?_⟩
  · intro code s h j hj
    have hN : 0 < P.NBLOCKLINKS := by
      rw [List.length_take] at hj
      omega
    have hext : s5.Extends s :=
      packLoop_after P nRows _ s5 _ hdrop P.NBLOCKLINKS code s hN h
    have hpos : s5.loadPos = ((classOrder nRows connArray).take n4).length := by
      rw [hcons.1]
      exact Nat.zero_add _
    constructor
    · rw [hext.2.1 j (Or.inl (by omega))]
      have := hcons.2.1 j hj
      rw [show (0 : Nat) + j = j from Nat.zero_add j] at this
      exact this
    · apply hext.2.2
      rw [hcons.2.2.2]
      rw [if_pos]
      rw [List.getD_eq_getElem _ _ hj]
      exact List.getElem_mem hj
  · intro hmask
    refine ⟨hnz hmask, ?_⟩
    intro hlen
    rw [List.take_of_length_le hlen] at hcons
    have hz : ∀ r, r < nRows → s5.connArray r = 0 := by
      intro r hr
      rw [hcons.2.2.2]
      by_cases hmem : r ∈ classOrder nRows connArray
      · rw [if_pos hmem]
      · rw [if_neg hmem]
        have := (hnz hmask r hr).not.1 hmem
        simpa using this
    by_cases hN : 0 < P.NBLOCKLINKS
    · refine ⟨s5, packLoads_all_consumed P nRows connArray s5 _ hidle hdrop hz hN, ?_, hz⟩
      rw [hcons.1]
      exact Nat.zero_add _
    · have hlen0 : (classOrder nRows connArray).length = 0 := by omega
      have hnil : classOrder nRows connArray = [] := List.length_eq_zero.1 hlen0
      have hz0 : ∀ r, r < nRows → connArray r = 0 := by
        intro r hr
        have := (hnz hmask r hr).not.1 (by rw [hnil]; simp)
        simpa using this
      have hall : allZeros nRows connArray = true := (allZeros_iff _ _).2 hz0
      refine ⟨⟨0, fun _ => 0, connArray⟩, ?_, hlen0.symm, hz0⟩
      unfold packLoads
      simp only [packLoop]
      rw [if_neg hN]
      unfold packEnd
      rw [if_pos hall]

/-- C23 (witness): the rows `0011`, `1111`, `0000`, `1110`, `1111`, `1000` under the catalogue
4,4,4,4,2,2,2,2,1,...,1: the four loads of width 4 take the rows 1, 4, 3, 0 in this order. -/
theorem packLoads_width_four_order_witness :
    classOrder 6 classConn = [1, 4, 3, 0, 5] ∧
    (∃ s, packLoads exParams 6 classConn = .ret 0 s ∧ (List.range 5).map s.loadMaps = [4, 16, 12, 0, 22]) ∧
    ((classOrder 6 classConn).Pairwise (fun a b =>
      patternClass (classConn a) < patternClass (classConn b) ∨
        (patternClass (classConn a) = patternClass (classConn b) ∧ a < b)) ∧
    (∃ s5, runStages exParams 6 (tierStages.take 5) ⟨0, fun _ => 0, classConn⟩ = some s5 ∧
      Pack.Consumed ⟨0, fun _ => 0, classConn⟩ ((classOrder 6 classConn).take 4) s5) ∧
    (∀ code s, packLoads exParams 6 classConn = .ret code s →
      ∀ j, j < ((classOrder 6 classConn).take 4).length →
        s.loadMaps j = 4 * ((classOrder 6 classConn).take 4).getD j 0 ∧
        s.connArray (((classOrder 6 classConn).take 4).getD j 0) = 0) ∧
    ((∀ r, r < 6 → classConn r < 16) →
      (∀ r, r < 6 → (r ∈ classOrder 6 classConn ↔ classConn r ≠ 0)) ∧
      ((classOrder 6 classConn).length ≤ 4 →
        ∃ s, packLoads exParams 6 classConn = .ret 0 s ∧
          s.loadPos = (classOrder 6 classConn).length ∧
          ∀ r, r < 6 → s.connArray r = 0))) :=
  ⟨by decide, ⟨_, rfl, by decide⟩,
    packLoads_width_four_order exParams 6 classConn 4 (by decide) (by decide) (by decide)⟩

end BlockLinking
